import Mathlib

/-!
Type registry and discovery walker of the Go code generator.

A shallow embedding of `pkg/codegen/go/gen_types.go`.

Go pointers are modelled as addresses into an explicit heap of type nodes, so
that "the same node" means "the same address".  Go maps are association lists.
Every procedure that follows pointers takes a fuel argument and reports
`Res.timeout` when the fuel is exhausted; a nil-pointer dereference is reported
as `Res.nilDeref`.
-/

namespace GoGen

/-! ## Data model -/

/-- A `schema.Type` interface value, as used for map keys and set members:
primitive types are plain integers compared by value, every other type is a
pointer compared by address. -/
inductive Ty where
  | prim (k : Nat)
  | ref (a : Nat)
  deriving DecidableEq, Repr

/-- The heap cell behind a pointer-typed `schema.Type`.  `output` is the
generator's own `*outputType`; the others are the `schema` package's
`InputType`, `OptionalType`, `ArrayType`, `MapType`, `UnionType`, `ObjectType`
(its property types in declaration order), `EnumType`, `ResourceType` (with the
identity of the resource definition it points to) and `TokenType`. -/
inductive Node where
  | output (elementType : Ty)
  | input (ElementType : Ty)
  | optional (ElementType : Ty)
  | array (ElementType : Ty)
  | map (ElementType : Ty)
  | union (ElementTypes : List Ty)
  | object (Token : String) (Properties : List Ty)
  | enum (Token : String)
  | resource (Token : String) (Resource : Nat)
  | token (Token : String)
  deriving DecidableEq, Repr

/-- A `*schema.Resource` definition: `id` is the pointer identity. -/
structure Resource where
  id : Nat
  Token : String
  deriving DecidableEq, Repr

/-- The struct `typeDetails`; the two lists hold node addresses. -/
structure TypeDetails where
  optionalInputType : Bool := false
  inputTypes : List Nat := []
  outputTypes : List Nat := []
  deriving DecidableEq, Repr

/-- The fields of `pkgContext` that the walker reads or writes. -/
structure PkgContext where
  mod : String
  typeDetails : List (Ty × TypeDetails) := []
  enums : List Nat := []
  deriving DecidableEq, Repr

/-- The struct `genContext`, together with the heap of type nodes. -/
structure GenContext where
  heap : List Node
  goPackages : List (String × PkgContext) := []
  resourceTypes : List (String × Nat) := []
  inputTypes : List (Ty × Nat) := []
  outputTypes : List (Ty × Nat) := []
  notedTypes : List Ty := []
  deriving DecidableEq, Repr

/-- Outcome of a procedure: a value, a nil-pointer dereference, a pointer whose
cell is not of the static type the callee requires (excluded by Go's type
system), or exhausted fuel. -/
inductive Res (α : Type) where
  | ok (a : α)
  | nilDeref
  | badRef
  | timeout
  deriving DecidableEq, Repr

/-- Sequencing: the continuation runs on a value; any other outcome ends the
computation. -/
def Res.bind {α β : Type} (r : Res α) (k : α → Res β) : Res β :=
  match r with
  | .ok a => k a
  | .nilDeref => .nilDeref
  | .badRef => .badRef
  | .timeout => .timeout

instance : Monad Res where
  pure := Res.ok
  bind := Res.bind

/-! ## Go maps -/

/-- Map lookup `m[k]`. -/
def mapGet {K V : Type} [DecidableEq K] : List (K × V) → K → Option V
  | [], _ => none
  | (k', v) :: r, k => if k' = k then some v else mapGet r k

/-- Map store `m[k] = v`. -/
def mapSet {K V : Type} [DecidableEq K] : List (K × V) → K → V → List (K × V)
  | [], k, v => [(k, v)]
  | (k', v') :: r, k, v => if k' = k then (k, v) :: r else (k', v') :: mapSet r k v

/-! ## Registry -/

/-- The function `newGenContext`, over a given type graph. -/
def newGenContext (heap : List Node) : GenContext :=
  { heap := heap }

/-- The method `getPackageForModule`: get-or-create; the returned partition
pointer is represented by its module name. -/
def getPackageForModule (mod : String) (ctx : GenContext) : String × GenContext :=
  match mapGet ctx.goPackages mod with
  | some _ => (mod, ctx)
  | none => (mod, { ctx with goPackages := mapSet ctx.goPackages mod { mod := mod } })

/-- The method `getPackageForToken`; `tokenToPackage` is the external
token-to-module resolver. -/
def getPackageForToken (tokenToPackage : String → String) (token : String)
    (ctx : GenContext) : String × GenContext :=
  getPackageForModule (tokenToPackage token) ctx

/-- The method `getRepresentativeTypeAndPackage`. -/
def getRepresentativeTypeAndPackage (tokenToPackage : String → String) :
    Nat → Ty → GenContext → Res (Option (Ty × String) × GenContext)
  | 0, _, _ => .timeout
  | fuel + 1, t, ctx =>
    match t with
    | .prim _ => .ok (none, ctx)
    | .ref a =>
      match ctx.heap[a]? with
      | some (.output e) => getRepresentativeTypeAndPackage tokenToPackage fuel e ctx
      | some (.input e) => getRepresentativeTypeAndPackage tokenToPackage fuel e ctx
      | some (.optional e) => getRepresentativeTypeAndPackage tokenToPackage fuel e ctx
      | some (.array e) => getRepresentativeTypeAndPackage tokenToPackage fuel e ctx
      | some (.map e) => getRepresentativeTypeAndPackage tokenToPackage fuel e ctx
      | some (.object tok _) =>
        let (pkg, ctx') := getPackageForToken tokenToPackage tok ctx
        .ok (some (t, pkg), ctx')
      | some (.enum tok) =>
        let (pkg, ctx') := getPackageForToken tokenToPackage tok ctx
        .ok (some (t, pkg), ctx')
      | some (.resource tok _) =>
        let (pkg, ctx') := getPackageForToken tokenToPackage tok ctx
        .ok (some (t, pkg), ctx')
      | some (.token tok) =>
        let (pkg, ctx') := getPackageForToken tokenToPackage tok ctx
        .ok (some (t, pkg), ctx')
      | _ => .ok (none, ctx)

/-- The method `getPackageForType`. -/
def getPackageForType (tokenToPackage : String → String) (fuel : Nat) (t : Ty)
    (ctx : GenContext) : Res (Option String × GenContext) :=
  do
    let r ← getRepresentativeTypeAndPackage tokenToPackage fuel t ctx
    .ok (r.1.map Prod.snd, r.2)

/-- The method `inputType`. -/
def inputType (elementType : Ty) (ctx : GenContext) : Nat × GenContext :=
  match mapGet ctx.inputTypes elementType with
  | some t => (t, ctx)
  | none =>
    let t := ctx.heap.length
    (t, { ctx with heap := ctx.heap ++ [Node.input elementType],
                   inputTypes := mapSet ctx.inputTypes elementType t })

/-- The method `outputType`. -/
def outputType (elementType : Ty) (ctx : GenContext) : Nat × GenContext :=
  match mapGet ctx.outputTypes elementType with
  | some t => (t, ctx)
  | none =>
    let t := ctx.heap.length
    (t, { ctx with heap := ctx.heap ++ [Node.output elementType],
                   outputTypes := mapSet ctx.outputTypes elementType t })

/-- The method `resourceType`. -/
def resourceType (resource : Resource) (ctx : GenContext) : Nat × GenContext :=
  match mapGet ctx.resourceTypes resource.Token with
  | some t => (t, ctx)
  | none =>
    let t := ctx.heap.length
    (t, { ctx with heap := ctx.heap ++ [Node.resource resource.Token resource.id],
                   resourceTypes := mapSet ctx.resourceTypes resource.Token t })

/-! ## Collaborators that are not part of this file -/

/-- Modelled from the spec: `pkgContext.detailsForType`, whose body is not in
the sources at hand.  The spec describes it as the get-or-create accessor of
the per-partition, per-type usage-details record. -/
def detailsForType (pkg : PkgContext) (t : Ty) : TypeDetails × PkgContext :=
  match mapGet pkg.typeDetails t with
  | some d => (d, pkg)
  | none => ({}, { pkg with typeDetails := mapSet pkg.typeDetails t {} })

/-- Runs `pkg.detailsForType(t)` on the partition pointer `pkg` and applies the
in-place update `f` to the record it returns.  A nil partition cannot be
dereferenced. -/
def updateDetails (pkg : Option String) (t : Ty) (f : TypeDetails → TypeDetails)
    (ctx : GenContext) : Res GenContext :=
  match pkg with
  | none => .nilDeref
  | some m =>
    match mapGet ctx.goPackages m with
    | none => .nilDeref
    | some p =>
      let (d, p1) := detailsForType p t
      let p2 : PkgContext := { p1 with typeDetails := mapSet p1.typeDetails t (f d) }
      .ok { ctx with goPackages := mapSet ctx.goPackages m p2 }

/-- Runs the statement `pkg.enums = append(pkg.enums, t)`. -/
def appendEnum (pkg : Option String) (t : Nat) (ctx : GenContext) : Res GenContext :=
  match pkg with
  | none => .nilDeref
  | some m =>
    match mapGet ctx.goPackages m with
    | none => .nilDeref
    | some p =>
      .ok { ctx with goPackages := mapSet ctx.goPackages m { p with enums := p.enums ++ [t] } }

/-- Threads a heap through a list of types, left to right. -/
def mapTypes (f : Ty → List Node → Res (Ty × List Node)) :
    List Ty → List Node → Res (List Ty × List Node)
  | [], heap => .ok ([], heap)
  | t :: ts, heap => do
    let r ← f t heap
    let rs ← mapTypes f ts r.2
    .ok (r.1 :: rs.1, rs.2)

/-- Modelled from the spec: `codegen.ResolvedType`, which lives in another
package that is not in the sources at hand.  The spec calls its result the
"resolved (non-input) shape": every `InputOf` layer is removed; a wrapper
whose element is unchanged is returned as it is, and one whose element
changed is rebuilt as a new node. -/
def ResolvedType : Nat → Ty → List Node → Res (Ty × List Node)
  | 0, _, _ => .timeout
  | fuel + 1, t, heap =>
    match t with
    | .prim _ => .ok (t, heap)
    | .ref a =>
      match heap[a]? with
      | some (.input e) => ResolvedType fuel e heap
      | some (.optional e) => do
        let r ← ResolvedType fuel e heap
        if r.1 = e then .ok (t, r.2)
        else .ok (.ref r.2.length, r.2 ++ [Node.optional r.1])
      | some (.array e) => do
        let r ← ResolvedType fuel e heap
        if r.1 = e then .ok (t, r.2)
        else .ok (.ref r.2.length, r.2 ++ [Node.array r.1])
      | some (.map e) => do
        let r ← ResolvedType fuel e heap
        if r.1 = e then .ok (t, r.2)
        else .ok (.ref r.2.length, r.2 ++ [Node.map r.1])
      | some (.union es) => do
        let r ← mapTypes (ResolvedType fuel) es heap
        if r.1 = es then .ok (t, r.2)
        else .ok (.ref r.2.length, r.2 ++ [Node.union r.1])
      | _ => .ok (t, heap)

/-! ## Discovery walker -/

/-- A Go `for _, x := range xs` loop whose body is `f x`. -/
def forEach (f : Ty → GenContext → Res GenContext) : List Ty → GenContext → Res GenContext
  | [], ctx => .ok ctx
  | t :: ts, ctx => do
    let ctx1 ← f t ctx
    forEach f ts ctx1

/-- The statement `ctx.noteType(ctx.outputType(t))`, given `noteType`. -/
def noteOutputOf (noteType : Ty → GenContext → Res GenContext) (t : Ty)
    (ctx : GenContext) : Res GenContext :=
  noteType (.ref (outputType t ctx).1) (outputType t ctx).2

/-- The tail shared by `noteOutputType` and `noteInputType`: registers the
node `t` in the usage details of its representative type, if there is one;
`add` is the append to the list concerned. -/
def register (tokenToPackage : String → String) (fuel : Nat) (t : Nat)
    (add : TypeDetails → TypeDetails) (ctx : GenContext) : Res GenContext := do
  let r ← getRepresentativeTypeAndPackage tokenToPackage fuel (.ref t) ctx
  match r.1 with
  | some (representativeType, pkg) => updateDetails (some pkg) representativeType add r.2
  | none => .ok r.2

/-- The type assertion `t.ElementType.(*schema.InputType)` of
`noteOptionalType`: the element type of the input type, if it is one. -/
def asInputType (heap : List Node) : Ty → Option Ty
  | .prim _ => none
  | .ref a =>
    match heap[a]? with
    | some (.input e) => some e
    | _ => none

/-- The method `noteUnionType`, given `noteType` at the caller's fuel. -/
def noteUnionType (noteType : Ty → GenContext → Res GenContext) (elementTypes : List Ty)
    (ctx : GenContext) : Res GenContext :=
  forEach noteType elementTypes ctx

/-- The method `notePropertyTypes`, given `noteType` at the caller's fuel. -/
def notePropertyTypes (noteType : Ty → GenContext → Res GenContext) (props : List Ty)
    (ctx : GenContext) : Res GenContext :=
  forEach noteType props ctx

/-- The method `noteObjectType`, given `noteType` at the caller's fuel. -/
def noteObjectType (noteType : Ty → GenContext → Res GenContext) (properties : List Ty)
    (ctx : GenContext) : Res GenContext :=
  notePropertyTypes noteType properties ctx

mutual

/-- The method `noteType`. -/
def noteType (tokenToPackage : String → String) : Nat → Ty → GenContext → Res GenContext
  | 0, _, _ => .timeout
  | fuel + 1, t, ctx0 =>
    if t ∈ ctx0.notedTypes then .ok ctx0
    else
      let ctx : GenContext := { ctx0 with notedTypes := t :: ctx0.notedTypes }
      match t with
      | .prim _ => .ok ctx
      | .ref a =>
        match ctx.heap[a]? with
        | some (.output _) => noteOutputType tokenToPackage fuel a ctx
        | some (.input _) => noteInputType tokenToPackage fuel a ctx
        | some (.optional _) => noteOptionalType tokenToPackage fuel a ctx
        | some (.array e) => noteType tokenToPackage fuel e ctx
        | some (.map e) => noteType tokenToPackage fuel e ctx
        | some (.union es) => noteUnionType (noteType tokenToPackage fuel) es ctx
        | some (.object _ props) => noteObjectType (noteType tokenToPackage fuel) props ctx
        | some (.enum _) => do
          let p ← getPackageForType tokenToPackage fuel t ctx
          appendEnum p.1 a p.2
        | _ => .ok ctx

/-- The method `noteOutputType`; `t` is the address of an `*outputType`. -/
def noteOutputType (tokenToPackage : String → String) : Nat → Nat → GenContext → Res GenContext
  | 0, _, _ => .timeout
  | fuel + 1, t, ctx =>
    match ctx.heap[t]? with
    | some (.output elementType) =>
      (match elementType with
        | .prim _ => Res.ok ctx
        | .ref a =>
          match ctx.heap[a]? with
          | some (.optional e) => noteOutputOf (noteType tokenToPackage fuel) e ctx
          | some (.array e) => noteOutputOf (noteType tokenToPackage fuel) e ctx
          | some (.map e) => noteOutputOf (noteType tokenToPackage fuel) e ctx
          | some (.object _ props) =>
            forEach (noteOutputOf (noteType tokenToPackage fuel)) props ctx
          | _ => Res.ok ctx) >>= fun ctx1 =>
      register tokenToPackage fuel t
        (fun d => { d with outputTypes := d.outputTypes ++ [t] }) ctx1
    | _ => .badRef

/-- The method `noteInputType`; `t` is the address of a `*schema.InputType`. -/
def noteInputType (tokenToPackage : String → String) : Nat → Nat → GenContext → Res GenContext
  | 0, _, _ => .timeout
  | fuel + 1, t, ctx =>
    match ctx.heap[t]? with
    | some (.input elementType) => do
      let ctx1 ← noteType tokenToPackage fuel elementType ctx
      let resolved ← ResolvedType fuel elementType ctx1.heap
      let ctx2 : GenContext := { ctx1 with heap := resolved.2 }
      let ctx3 ← noteOutputType tokenToPackage fuel (outputType resolved.1 ctx2).1
        (outputType resolved.1 ctx2).2
      register tokenToPackage fuel t
        (fun d => { d with inputTypes := d.inputTypes ++ [t] }) ctx3
    | _ => .badRef

/-- The method `noteOptionalType`; `t` is the address of a
`*schema.OptionalType`. -/
def noteOptionalType (tokenToPackage : String → String) : Nat → Nat → GenContext → Res GenContext
  | 0, _, _ => .timeout
  | fuel + 1, t, ctx =>
    match ctx.heap[t]? with
    | some (.optional elementType) =>
      match asInputType ctx.heap elementType with
      | some inputElementType => do
        let ctx1 : GenContext := { ctx with heap := ctx.heap ++
          [Node.optional inputElementType, Node.input (.ref ctx.heap.length)] }
        let ctx2 ← noteInputType tokenToPackage fuel (ctx.heap.length + 1) ctx1
        let p ← getPackageForType tokenToPackage fuel inputElementType ctx2
        updateDetails p.1 inputElementType (fun d => { d with optionalInputType := true }) p.2
      | none => noteType tokenToPackage fuel elementType ctx
    | _ => .badRef

end

/-- The method `noteOutputPropertyTypes`. -/
def noteOutputPropertyTypes (tokenToPackage : String → String) (fuel : Nat) (props : List Ty)
    (ctx : GenContext) : Res GenContext :=
  forEach (noteOutputOf (noteType tokenToPackage fuel)) props ctx

/-! ## Specification vocabulary -/

/-- The results of `n` successive calls of a registry factory, and the state
after the last one. -/
def callN (f : GenContext → Nat × GenContext) : Nat → GenContext → List Nat × GenContext
  | 0, ctx => ([], ctx)
  | n + 1, ctx =>
    let (t, ctx1) := f ctx
    let (ts, ctx2) := callN f n ctx1
    (t :: ts, ctx2)

/-- Representation invariant of the three registry caches: a Go map holds a
key once, and the only writers store under key `k` a node built from `k`. -/
structure CachesOK (ctx : GenContext) : Prop where
  inputNodup : (ctx.inputTypes.map Prod.fst).Nodup
  outputNodup : (ctx.outputTypes.map Prod.fst).Nodup
  resourceNodup : (ctx.resourceTypes.map Prod.fst).Nodup
  inputNode : ∀ k t, mapGet ctx.inputTypes k = some t → ctx.heap[t]? = some (Node.input k)
  outputNode : ∀ k t, mapGet ctx.outputTypes k = some t → ctx.heap[t]? = some (Node.output k)
  resourceNode : ∀ k t, mapGet ctx.resourceTypes k = some t →
    ∃ r, ctx.heap[t]? = some (Node.resource k r)

/-- Holds when `t` consists of `n` wrapper layers (`OutputOf`, `InputOf`,
`Optional`, `Array`, `Map`) around the core `c`. -/
inductive Layers (heap : List Node) : Nat → Ty → Ty → Prop where
  | core (c : Ty) : Layers heap 0 c c
  | output {n a e c} : heap[a]? = some (Node.output e) → Layers heap n e c →
      Layers heap (n + 1) (Ty.ref a) c
  | input {n a e c} : heap[a]? = some (Node.input e) → Layers heap n e c →
      Layers heap (n + 1) (Ty.ref a) c
  | optional {n a e c} : heap[a]? = some (Node.optional e) → Layers heap n e c →
      Layers heap (n + 1) (Ty.ref a) c
  | array {n a e c} : heap[a]? = some (Node.array e) → Layers heap n e c →
      Layers heap (n + 1) (Ty.ref a) c
  | map {n a e c} : heap[a]? = some (Node.map e) → Layers heap n e c →
      Layers heap (n + 1) (Ty.ref a) c

/-- The token of a nominal type (`Object`, `Enum`, `Resource`, `TokenRef`);
`none` for primitives, unions and wrappers. -/
def nominalToken (heap : List Node) : Ty → Option String
  | .prim _ => none
  | .ref a =>
    match heap[a]? with
    | some (.object tok _) => some tok
    | some (.enum tok) => some tok
    | some (.resource tok _) => some tok
    | some (.token tok) => some tok
    | _ => none

/-- Holds when `c` is a primitive or a union. -/
def primOrUnion (heap : List Node) : Ty → Prop
  | .prim _ => True
  | .ref a => ∃ es, heap[a]? = some (Node.union es)

/-! ## Proof vocabulary -/

/-- More fuel can only turn a timeout into an outcome. -/
def Res.Le {α : Type} (r r' : Res α) : Prop := r = .timeout ∨ r = r'

/-- A fuel-indexed computation whose outcome, once reached, is kept by more fuel. -/
def Mono {α : Type} (g : Nat → Res α) : Prop := ∀ f, (g f).Le (g (f + 1))

/-- Partial correctness: a returned value satisfies `Q`. -/
def Sat {α : Type} (r : Res α) (Q : α → Prop) : Prop := ∀ a, r = .ok a → Q a

/-- Some amount of fuel is enough to reach an outcome. -/
def Halts {α : Type} (g : Nat → Res α) : Prop := ∃ f, g f ≠ .timeout

/-- Some amount of fuel is enough to return a value. -/
def Succeeds {α : Type} (g : Nat → Res α) : Prop := ∃ f a, g f = .ok a

/-- The type `t` is a primitive or a pointer below `n`. -/
def TyLt (t : Ty) (n : Nat) : Prop :=
  match t with
  | .prim _ => True
  | .ref a => a < n

instance (t : Ty) (n : Nat) : Decidable (TyLt t n) := by
  unfold TyLt
  cases t <;> infer_instance

/-- Shape of the cell at address `a` in a type graph whose schema part is the
first `n` cells: a wrapper or union was allocated after its elements, so that
a cycle can only go through the property list of an object; objects belong to
the schema part, and so do their property types. -/
def NodeOK (n a : Nat) : Node → Prop
  | .output e => TyLt e a
  | .input e => TyLt e a
  | .optional e => TyLt e a
  | .array e => TyLt e a
  | .map e => TyLt e a
  | .union es => ∀ e ∈ es, TyLt e a
  | .object _ props => a < n ∧ ∀ p ∈ props, TyLt p n
  | _ => True

instance (n a : Nat) (nd : Node) : Decidable (NodeOK n a nd) := by
  unfold NodeOK
  cases nd <;> infer_instance

/-- Well-formedness of a heap relative to a schema part of `n` cells. -/
structure HeapOK (n : Nat) (heap : List Node) : Prop where
  size : n ≤ heap.length
  nodes : ∀ (a : Nat) (nd : Node), heap[a]? = some nd → NodeOK n a nd

/-- Well-formedness of a registry relative to a schema part of `n` cells. -/
structure Inv (n : Nat) (s : GenContext) : Prop where
  heapOK : HeapOK n s.heap
  outputs : ∀ k o, mapGet s.outputTypes k = some o → s.heap[o]? = some (Node.output k)

/-- The later heap keeps every cell of the earlier one. -/
structure HeapExt (heap heap' : List Node) : Prop where
  cells : ∀ (a : Nat) (nd : Node), heap[a]? = some nd → heap'[a]? = some nd
  size : heap.length ≤ heap'.length

/-- Result condition of `ResolvedType` applied to `t` on the heap `hp`: the
heap is extended, and a well-formed heap with a valid `t` yields a well-formed
heap with a valid result. -/
def RGood (n : Nat) (hp : List Node) (t : Ty) (r : Ty × List Node) : Prop :=
  HeapExt hp r.2 ∧ (HeapOK n hp → TyLt t hp.length → HeapOK n r.2 ∧ TyLt r.1 r.2.length)

/-- A well-formed registry: every cell of the heap is well-shaped, counting the
whole current heap as the schema part, and the output cache maps `E` to an
`OutputOf(E)` node. -/
def WellFormed (s : GenContext) : Prop := Inv s.heap.length s

/-- Executable check of the cells of a heap. -/
def checkHeap (n : Nat) (heap : List Node) : Bool :=
  (List.range heap.length).all fun a =>
    match heap[a]? with
    | some nd => decide (NodeOK n a nd)
    | none => true

/-- The later state extends the earlier one. -/
structure Ext (s s' : GenContext) : Prop where
  heap : HeapExt s.heap s'.heap
  noted : ∀ t, t ∈ s.notedTypes → t ∈ s'.notedTypes
  outputs : ∀ k o, mapGet s.outputTypes k = some o → mapGet s'.outputTypes k = some o

/-- The later state extends the earlier one and is well-formed if that was. -/
def Good (n : Nat) (s s' : GenContext) : Prop := Ext s s' ∧ (Inv n s → Inv n s')

/-- The schema cell `a` has not been noted. -/
def unnoted (s : GenContext) (a : Nat) : Bool := decide (Ty.ref a ∉ s.notedTypes)

/-- The canonical output node of the schema cell `a` has not been noted. -/
def outUnnoted (s : GenContext) (a : Nat) : Bool :=
  match mapGet s.outputTypes (Ty.ref a) with
  | some o => decide (Ty.ref o ∉ s.notedTypes)
  | none => true

/-- Termination measure: the schema cells not yet noted plus the schema cells
whose canonical output node is not yet noted. -/
def pending (n : Nat) (s : GenContext) : Nat :=
  (List.range n).countP (unnoted s) + (List.range n).countP (outUnnoted s)

/-- Rank of the element of an output node. -/
def rankOut : Ty → Nat
  | .prim _ => 0
  | .ref a => a + 1

/-- Rank of a type for the walk below a node that is not part of the schema. -/
def rank (heap : List Node) : Ty → Nat
  | .prim _ => 0
  | .ref a =>
    match heap[a]? with
    | some (.optional (.ref b)) => 2 * b + 2
    | some (.optional (.prim _)) => 1
    | _ => 2 * a + 1

/-- The node `o` is on the `outputTypes` list of the usage details of `R` in
partition `m`, at the end of the list. -/
def RegisteredOutLast (s : GenContext) (m : String) (R : Ty) (o : Nat) : Prop :=
  ∃ p d l, mapGet s.goPackages m = some p ∧ mapGet p.typeDetails R = some d
    ∧ d.outputTypes = l ++ [o]

/-- The canonical output node of `p` exists and has been noted. -/
def OutputNoted (p : Ty) (c : GenContext) : Prop :=
  ∃ o, mapGet c.outputTypes p = some o ∧ Ty.ref o ∈ c.notedTypes

end GoGen

/-! ## Invocation binder: collaborators -/

namespace Pcl

/-- Modelled from the spec: the static types of the expression layer
(`model.Type`), which is not among the sources at hand.  The constructors are
the types the binder names, `model.StringType`, `model.DynamicType`,
`model.NewOptionalType`, `model.NewObjectType`, `model.NewPromiseType` and
`model.NewOutputType`, together with numbers, booleans and lists for the types
of arguments and properties.  An object type is its property map, kept as a
list of named types. -/
inductive ModelType where
  | StringType
  | NumberType
  | BoolType
  | DynamicType
  | OptionalType (elementType : ModelType)
  | ListType (elementType : ModelType)
  | ObjectType (properties : List (String × ModelType))
  | PromiseType (elementType : ModelType)
  | OutputType (elementType : ModelType)

/-- Modelled from the spec: the three-valued conversion relation
`model.ConversionKind`. -/
inductive ConversionKind where
  | NoConversion
  | UnsafeConversion
  | SafeConversion
  deriving DecidableEq

/-- Modelled from the spec: a literal value (`cty.Value`). -/
inductive Value where
  | StringVal (s : String)
  | NumberIntVal (n : Int)
  | BoolVal (v : Bool)
  | UnknownVal
  deriving DecidableEq

/-- Modelled from the spec: `cty.Value.AsString`, which returns the string of
a string value and panics on every other value; `none` is the panic. -/
def Value.AsString : Value → Option String
  | .StringVal s => some s
  | _ => none

/-- Modelled from the spec: a source range (`hcl.Range`). -/
structure Range where
  Start : Nat
  End : Nat
  deriving DecidableEq

/-- Modelled from the spec: the expressions of the expression layer
(`model.Expression`).  The binder tells template expressions and literal value
expressions from all others; every expression has a static type (the result of
`Type()`) and the range of its syntax node.  Expressions are values here:
no node occurs at two places of an argument list. -/
inductive Expression where
  | LiteralValueExpression (value : Value) (exprType : ModelType) (range : Range)
  | TemplateExpression (Parts : List Expression) (exprType : ModelType) (range : Range)
  | other (exprType : ModelType) (range : Range)

/-- The method `Type()` of an expression. -/
def Expression.exprType : Expression → ModelType
  | .LiteralValueExpression _ t _ => t
  | .TemplateExpression _ t _ => t
  | .other t _ => t

/-- The range `x.SyntaxNode().Range()` of an expression. -/
def Expression.range : Expression → Range
  | .LiteralValueExpression _ _ r => r
  | .TemplateExpression _ _ r => r
  | .other _ r => r

/-- The type assertion `x.(*model.TemplateExpression)`: the parts of a template
expression. -/
def Expression.asTemplate : Expression → Option (List Expression)
  | .TemplateExpression parts _ _ => some parts
  | _ => none

/-- The type assertion `x.(*model.LiteralValueExpression)`: the value of a
literal value expression. -/
def Expression.asLiteral : Expression → Option Value
  | .LiteralValueExpression v _ _ => some v
  | _ => none

/-- The assignment `lit.Value = v` to a literal value expression. -/
def Expression.setValue (v : Value) : Expression → Expression
  | .LiteralValueExpression _ t r => .LiteralValueExpression v t r
  | e => e

/-- The argument `args[0]` after the assignment `lit.Value = v` to the single
part `lit` of the template. -/
def Expression.setTokenValue (v : Value) : Expression → Expression
  | .TemplateExpression [lit] t r => .TemplateExpression [lit.setValue v] t r
  | e => e

/-- Modelled from the spec: an object type of the schema
(`*schema.ObjectType`), of which the binder reads `InputShape` only. -/
inductive ObjectType where
  | mk (Token : String) (InputShape : Option ObjectType)

/-- The field `InputShape`. -/
def ObjectType.InputShape : ObjectType → Option ObjectType
  | .mk _ s => s

/-- Modelled from the spec: a function of the schema (`*schema.Function`) with
its optional `Inputs` and `Outputs` and the capability `NeedsOutputVersion()`,
whose body is not among the sources at hand. -/
structure Function where
  Token : String
  Inputs : Option ObjectType
  Outputs : Option ObjectType
  NeedsOutputVersion : Bool

/-- The assumption the source states in `outputVersionSignature`: "Given
`fn.NeedsOutputVersion()==true`, can assume `fn.Inputs != nil`,
`fn.Outputs != nil`". -/
def Function.WellFormed (fn : Function) : Prop :=
  fn.NeedsOutputVersion = true → fn.Inputs.isSome = true ∧ fn.Outputs.isSome = true

/-- Modelled from the spec: a schema package (`*schema.Package`). -/
structure Package where
  Name : String

/-- Modelled from the spec: an entry of the package cache, the loaded schema
with its function table keyed by token. -/
structure PackageSchema where
  schema : Package
  functions : List (String × Function)

/-- Modelled from the spec: `hcl.DiagnosticSeverity`. -/
inductive DiagnosticSeverity where
  | DiagError
  | DiagWarning
  deriving DecidableEq

/-- Modelled from the spec: a diagnostic made by `DecomposeToken`. -/
structure TokenDiagnostic where
  Severity : DiagnosticSeverity
  Summary : String
  Subject : Range

/-- The method `HasErrors` of `hcl.Diagnostics`. -/
def HasErrors (diagnostics : List TokenDiagnostic) : Bool :=
  diagnostics.any fun d => decide (d.Severity = .DiagError)

/-- Modelled from the spec: the diagnostics of the binder, by the helper that
makes them: `tokenMustBeStringLiteral(expr)`, `unknownPackage(pkg, range)`,
`unknownFunction(token, range)`, the call
`errorf(tokenRange, "Invoke binding error: %v", err)`, and the diagnostics
handed on from `DecomposeToken`. -/
inductive Diagnostic where
  | tokenMustBeStringLiteral (tokenExpr : Expression)
  | unknownPackage (pkg : String) (tokenRange : Range)
  | unknownFunction (token : String) (tokenRange : Range)
  | invokeBindingError (tokenRange : Range) (err : String)
  | decomposeToken (d : TokenDiagnostic)

/-- Modelled from the spec: the functions of other files that the binder
calls.  `ConversionFrom dest src` is `dest.ConversionFrom(src)`;
`DecomposeToken` returns package, module, member and diagnostics. -/
structure Externals where
  ConversionFrom : ModelType → ModelType → ConversionKind
  DecomposeToken : String → Range → String × String × String × List TokenDiagnostic
  canonicalizeToken : String → Package → String

/-- The type `binder`: the package cache `b.options.packageCache.entries` and
the method `schemaTypeToType`, which is not among the sources at hand; its
argument is a pointer that may be nil. -/
structure binder where
  packageCache : List (String × PackageSchema)
  schemaTypeToType : Option ObjectType → ModelType

/-- The outcome of a call: a result or a run-time panic. -/
inductive Outcome (α : Type) where
  | ok (a : α)
  | indexOutOfRange
  | nilDereference
  | notAString

/-- Sequencing of outcomes: a panic ends the call. -/
def Outcome.bind {α β : Type} (r : Outcome α) (k : α → Outcome β) : Outcome β :=
  match r with
  | .ok a => k a
  | .indexOutOfRange => .indexOutOfRange
  | .nilDereference => .nilDereference
  | .notAString => .notAString

instance : Monad Outcome where
  pure := Outcome.ok
  bind := Outcome.bind

/-- Modelled from the spec: `model.Parameter`. -/
structure Parameter where
  Name : String
  paramType : ModelType

/-- Modelled from the spec: `model.StaticFunctionSignature`. -/
structure StaticFunctionSignature where
  Parameters : List Parameter
  ReturnType : ModelType

/-! ## Invocation binder -/

/-- The method `makeSignature`. -/
def makeSignature (argsType returnType : ModelType) : StaticFunctionSignature :=
  { Parameters := [
      { Name := "token", paramType := .StringType },
      { Name := "args", paramType := argsType },
      { Name := "provider", paramType := .OptionalType .StringType }],
    ReturnType := returnType }

/-- The method `zeroSignature`. -/
def zeroSignature : StaticFunctionSignature :=
  makeSignature (.OptionalType .DynamicType) .DynamicType

/-- The method `regularSignature`. -/
def regularSignature (b : binder) (fn : Function) : StaticFunctionSignature :=
  let argsType : ModelType :=
    match fn.Inputs with
    | none => .OptionalType (.ObjectType [])
    | some inputs => b.schemaTypeToType (some inputs)
  let returnType : ModelType :=
    match fn.Outputs with
    | none => .ObjectType []
    | some outputs => b.schemaTypeToType (some outputs)
  makeSignature argsType (.PromiseType returnType)

/-- The method `outputVersionSignature`; the inner result is the pair of
signature and `error`. -/
def outputVersionSignature (b : binder) (fn : Function) :
    Outcome (Except String StaticFunctionSignature) :=
  if fn.NeedsOutputVersion = false then
    .ok (.error ("Function " ++ fn.Token ++ " does not have an Output version"))
  else
    match fn.Inputs with
    | none => .nilDereference
    | some inputs =>
      let argsType := b.schemaTypeToType inputs.InputShape
      let returnType := b.schemaTypeToType fn.Outputs
      .ok (.ok (makeSignature argsType (.OutputType returnType)))

/-- The first part of `signatureForArgs`: the value of `useOutputVersion`. -/
def useOutputVersion (x : Externals) (b : binder) (fn : Function) (args : Expression) :
    Outcome Bool :=
  if fn.NeedsOutputVersion = true then
    match fn.Inputs with
    | none => .nilDereference
    | some inputs =>
      let outputVersionType := b.schemaTypeToType inputs.InputShape
      let regularVersionType := b.schemaTypeToType (some inputs)
      let callsiteType := args.exprType
      if x.ConversionFrom regularVersionType callsiteType = .NoConversion ∧
          x.ConversionFrom outputVersionType callsiteType = .SafeConversion then
        .ok true
      else .ok false
  else .ok false

/-- The method `signatureForArgs`. -/
def signatureForArgs (x : Externals) (b : binder) (fn : Function) (args : Expression) :
    Outcome (Except String StaticFunctionSignature) :=
  (useOutputVersion x b fn args).bind fun use =>
    if use = true then outputVersionSignature b fn
    else .ok (.ok (regularSignature b fn))

/-- The lookup `pkgSchema.functions[token]` of `bindInvokeSignature` with its
second try under the canonical token: the function found and the token it was
found under, or `none`. -/
def lookupFunction (x : Externals) (pkgSchema : PackageSchema) (token : String) :
    Option (Function × Option String) :=
  match GoGen.mapGet pkgSchema.functions token with
  | some fn => some (fn, none)
  | none =>
    let canon := x.canonicalizeToken token pkgSchema.schema
    match GoGen.mapGet pkgSchema.functions canon with
    | some fn => some (fn, some canon)
    | none => none

/-- The method `bindInvokeSignature`.  The result is the signature, the
diagnostics and the argument list as the call leaves it: the call may assign
to the value of the token literal. -/
def bindInvokeSignature (x : Externals) (b : binder) (args : List Expression) :
    Outcome (StaticFunctionSignature × List Diagnostic × List Expression) :=
  match args with
  | [] => .ok (zeroSignature, [], args)
  | arg0 :: rest =>
    match arg0.asTemplate with
    | some [part] =>
      match part.asLiteral with
      | none => .ok (zeroSignature, [.tokenMustBeStringLiteral arg0], args)
      | some value =>
        if x.ConversionFrom .StringType part.exprType = .NoConversion then
          .ok (zeroSignature, [.tokenMustBeStringLiteral arg0], args)
        else
          match value.AsString with
          | none => .notAString
          | some token =>
            let tokenRange := arg0.range
            let d := x.DecomposeToken token tokenRange
            let pkg := d.1
            let diagnostics := d.2.2.2
            if HasErrors diagnostics = true then
              .ok (zeroSignature, diagnostics.map .decomposeToken, args)
            else
              match GoGen.mapGet b.packageCache pkg with
              | none => .ok (zeroSignature, [.unknownPackage pkg tokenRange], args)
              | some pkgSchema =>
                match lookupFunction x pkgSchema token with
                | none => .ok (zeroSignature, [.unknownFunction token tokenRange], args)
                | some (fn, canon) =>
                  let args1 : List Expression :=
                    match canon with
                    | some c => arg0.setTokenValue (.StringVal c) :: rest
                    | none => args
                  match args[1]? with
                  | none => .indexOutOfRange
                  | some arg1 =>
                    (signatureForArgs x b fn arg1).bind fun r =>
                      match r with
                      | .error err =>
                        .ok (zeroSignature, [.invokeBindingError tokenRange err], args1)
                      | .ok sig => .ok (sig, [], args1)
    | _ => .ok (zeroSignature, [.tokenMustBeStringLiteral arg0], args)

/-! ## Invocation binder: example data -/

mutual

/-- Equality of two types, decided structurally. -/
def ModelType.beq : ModelType → ModelType → Bool
  | .StringType, .StringType => true
  | .NumberType, .NumberType => true
  | .BoolType, .BoolType => true
  | .DynamicType, .DynamicType => true
  | .OptionalType a, .OptionalType b => a.beq b
  | .ListType a, .ListType b => a.beq b
  | .ObjectType ps, .ObjectType qs => ModelType.beqProperties ps qs
  | .PromiseType a, .PromiseType b => a.beq b
  | .OutputType a, .OutputType b => a.beq b
  | _, _ => false

/-- Equality of two property lists. -/
def ModelType.beqProperties : List (String × ModelType) → List (String × ModelType) → Bool
  | [], [] => true
  | (n, a) :: ps, (m, b) :: qs => decide (n = m) && a.beq b && ModelType.beqProperties ps qs
  | _, _ => false

end

/-- A conversion relation for the examples, a fragment of the relation of the
expression layer: a type converts safely from itself, the dynamic type from
every type and an optional type from its element type; every type converts
unsafely from the dynamic type; the string type converts from numbers and
booleans; nothing else converts. -/
def exampleConversionFrom (dest src : ModelType) : ConversionKind :=
  if dest.beq src = true then .SafeConversion
  else
    match dest, src with
    | .DynamicType, _ => .SafeConversion
    | _, .DynamicType => .UnsafeConversion
    | .StringType, .NumberType => .SafeConversion
    | .StringType, .BoolType => .SafeConversion
    | .OptionalType d, s => if d.beq s = true then .SafeConversion else .NoConversion
    | _, _ => .NoConversion

/-- The pieces of a token between its colons. -/
def splitColons : List Char → List (List Char)
  | [] => [[]]
  | c :: cs =>
    if c = ':' then [] :: splitColons cs
    else
      match splitColons cs with
      | [] => [[c]]
      | w :: ws => (c :: w) :: ws

/-- A token decomposition for the examples: a token of three pieces
`package:module:member` gives the pieces, every other token an error. -/
def exampleDecomposeToken (token : String) (tokenRange : Range) :
    String × String × String × List TokenDiagnostic :=
  match splitColons token.data with
  | [pkg, mod, member] => (String.mk pkg, String.mk mod, String.mk member, [])
  | _ => ("", "", "",
      [{ Severity := .DiagError, Summary := "malformed token", Subject := tokenRange }])

/-- A canonical form for the examples: the module of the token is cut at its
first slash and the package is the name of the schema package. -/
def exampleCanonicalizeToken (token : String) (pkg : Package) : String :=
  match splitColons token.data with
  | [_, mod, member] =>
    pkg.Name ++ ":" ++ String.mk (mod.takeWhile fun c => decide (c ≠ '/')) ++ ":"
      ++ String.mk member
  | _ => token

/-- The collaborators of the examples. -/
def exampleExternals : Externals :=
  { ConversionFrom := exampleConversionFrom,
    DecomposeToken := exampleDecomposeToken,
    canonicalizeToken := exampleCanonicalizeToken }

/-- The function `pkg:index:listThings`: no inputs, an output object with the
property `items`, a list of strings, and no output version. -/
def listThings : Function :=
  { Token := "pkg:index:listThings",
    Inputs := none,
    Outputs := some (.mk "pkg:index:listThingsResult" none),
    NeedsOutputVersion := false }

/-- The function `pkg:index:getThing`, which has an output version. -/
def getThing : Function :=
  { Token := "pkg:index:getThing",
    Inputs := some (.mk "pkg:index:getThingArgs" (some (.mk "pkg:index:getThingOutputArgs" none))),
    Outputs := some (.mk "pkg:index:getThingResult" none),
    NeedsOutputVersion := true }

/-- A translation of schema types for the examples. -/
def exampleSchemaTypeToType : Option ObjectType → ModelType
  | none => .DynamicType
  | some (.mk token _) =>
    if token = "pkg:index:listThingsResult" then .ObjectType [("items", .ListType .StringType)]
    else if token = "pkg:index:getThingArgs" then .ObjectType [("name", .StringType)]
    else if token = "pkg:index:getThingOutputArgs" then
      .ObjectType [("name", .OutputType .StringType)]
    else if token = "pkg:index:getThingResult" then .ObjectType [("id", .StringType)]
    else .ObjectType []

/-- A binder whose package cache holds the package `pkg` with the functions
`listThings` and `getThing`. -/
def exampleBinder : binder :=
  { packageCache := [("pkg",
      { schema := { Name := "pkg" },
        functions := [("pkg:index:listThings", listThings), ("pkg:index:getThing", getThing)] })],
    schemaTypeToType := exampleSchemaTypeToType }

/-- The argument that is the string literal `token`. -/
def tokenArgument (token : String) : Expression :=
  .TemplateExpression [.LiteralValueExpression (.StringVal token) .StringType ⟨7, 7 + token.length⟩]
    .StringType ⟨7, 7 + token.length⟩

/-- The argument that is the empty object. -/
def emptyObjectArgument : Expression :=
  .other (.ObjectType []) ⟨30, 32⟩

end Pcl

namespace GoGen

/-! ## Outcomes: lemmas -/

theorem Res.ok_bind {α β : Type} (a : α) (k : α → Res β) : (Res.ok a >>= k) = k a := rfl

theorem Res.nilDeref_bind {α β : Type} (k : α → Res β) :
    ((Res.nilDeref : Res α) >>= k) = Res.nilDeref := rfl

theorem Res.badRef_bind {α β : Type} (k : α → Res β) :
    ((Res.badRef : Res α) >>= k) = Res.badRef := rfl

theorem Res.timeout_bind {α β : Type} (k : α → Res β) :
    ((Res.timeout : Res α) >>= k) = Res.timeout := rfl

theorem Res.bind_eq_ok {α β : Type} (r : Res α) (k : α → Res β) (b : β) :
    (r >>= k) = Res.ok b ↔ ∃ a, r = Res.ok a ∧ k a = Res.ok b := by
  cases r with
  | ok a => simp [Res.ok_bind]
  | nilDeref => simp [Res.nilDeref_bind]
  | badRef => simp [Res.badRef_bind]
  | timeout => simp [Res.timeout_bind]

theorem Res.Le.reflLe {α : Type} (r : Res α) : r.Le r := Or.inr rfl

theorem Res.Le.of_timeout {α : Type} (r : Res α) : (Res.timeout : Res α).Le r := Or.inl rfl

theorem Res.Le.eq_of_ne {α : Type} {r r' : Res α} (h : r.Le r') (hne : r ≠ .timeout) :
    r' = r := by
  rcases h with h | h
  · exact absurd h hne
  · exact h.symm

theorem Res.Le.bindLe {α β : Type} {r r' : Res α} {k k' : α → Res β} (h : r.Le r')
    (hk : ∀ a, (k a).Le (k' a)) : (r >>= k).Le (r' >>= k') := by
  rcases h with h | h
  · subst h
    exact Or.inl rfl
  · subst h
    cases r with
    | ok a => exact hk a
    | nilDeref => exact Or.inr rfl
    | badRef => exact Or.inr rfl
    | timeout => exact Or.inr rfl

theorem Mono.le {α : Type} {g : Nat → Res α} (h : Mono g) (f k : Nat) :
    (g f).Le (g (f + k)) := by
  induction k with
  | zero => exact Res.Le.reflLe _
  | succ k ih =>
    rcases ih with ih | ih
    · exact Or.inl ih
    · rw [ih]
      exact h (f + k)

theorem Mono.eq_of_le {α : Type} {g : Nat → Res α} (h : Mono g) {f f' : Nat} (hf : f ≤ f')
    (hne : g f ≠ .timeout) : g f' = g f := by
  obtain ⟨k, rfl⟩ := Nat.exists_eq_add_of_le hf
  exact (h.le f k).eq_of_ne hne

theorem Mono.constMono {α : Type} (r : Res α) : Mono (fun _ => r) := fun _ => Res.Le.reflLe r

theorem Mono.bindMono {α β : Type} {g : Nat → Res α} {k : Nat → α → Res β} (hg : Mono g)
    (hk : ∀ a, Mono (fun f => k f a)) : Mono (fun f => g f >>= k f) :=
  fun f => Res.Le.bindLe (hg f) (fun a => hk a f)

theorem Mono.succ {α : Type} {g : Nat → Res α} (h : Mono g) : Mono (fun f => g (f + 1)) :=
  fun f => h (f + 1)

theorem Sat.bindSat {α β : Type} {r : Res α} {k : α → Res β} {P : α → Prop} {Q : β → Prop}
    (h : Sat r P) (hk : ∀ a, P a → Sat (k a) Q) : Sat (r >>= k) Q := by
  intro b hb
  obtain ⟨a, ha, hkb⟩ := (Res.bind_eq_ok r k b).1 hb
  exact hk a (h a ha) b hkb

theorem Sat.ok {α : Type} {a : α} {Q : α → Prop} (h : Q a) : Sat (Res.ok a) Q := by
  intro b hb
  cases hb
  exact h

theorem Sat.mp {α : Type} {r : Res α} {P Q : α → Prop} (h : Sat r P) (hpq : ∀ a, P a → Q a) :
    Sat r Q := fun a ha => hpq a (h a ha)

theorem Halts.shiftHalts {α : Type} {g : Nat → Res α} (h : Halts (fun f => g (f + 1))) :
    Halts g := by
  obtain ⟨f, hf⟩ := h
  exact ⟨f + 1, hf⟩

theorem Succeeds.shiftSucceeds {α : Type} {g : Nat → Res α} (h : Succeeds (fun f => g (f + 1))) :
    Succeeds g := by
  obtain ⟨f, a, hf⟩ := h
  exact ⟨f + 1, a, hf⟩

theorem Succeeds.halts {α : Type} {g : Nat → Res α} (h : Succeeds g) : Halts g := by
  obtain ⟨f, a, hf⟩ := h
  exact ⟨f, by rw [hf]; exact fun hc => Res.noConfusion hc⟩

theorem Halts.constHalts {α : Type} (r : Res α) (h : r ≠ .timeout) : Halts (fun _ => r) := ⟨0, h⟩

theorem Succeeds.constSucceeds {α : Type} (a : α) : Succeeds (fun _ => Res.ok a) := ⟨0, a, rfl⟩

theorem Halts.bindHalts {α β : Type} {g : Nat → Res α} {k : Nat → α → Res β} (hg : Mono g)
    (hk : ∀ a, Mono (fun f => k f a)) (h1 : Halts g)
    (h2 : ∀ a f, g f = .ok a → Halts (fun f => k f a)) : Halts (fun f => g f >>= k f) := by
  obtain ⟨f1, hf1⟩ := h1
  cases hr : g f1 with
  | ok a =>
    obtain ⟨f2, hf2⟩ := h2 a f1 hr
    refine ⟨max f1 f2, ?_⟩
    have e1 : g (max f1 f2) = g f1 := hg.eq_of_le (le_max_left f1 f2) hf1
    have e2 : k (max f1 f2) a = k f2 a := (hk a).eq_of_le (le_max_right f1 f2) hf2
    show (g (max f1 f2) >>= k (max f1 f2)) ≠ _
    rw [e1, hr, Res.ok_bind, e2]
    exact hf2
  | nilDeref => exact ⟨f1, by show (g f1 >>= k f1) ≠ _; rw [hr]; exact fun hc => Res.noConfusion hc⟩
  | badRef => exact ⟨f1, by show (g f1 >>= k f1) ≠ _; rw [hr]; exact fun hc => Res.noConfusion hc⟩
  | timeout => exact absurd hr hf1

theorem Succeeds.bindSucceeds {α β : Type} {g : Nat → Res α} {k : Nat → α → Res β} (hg : Mono g)
    (hk : ∀ a, Mono (fun f => k f a)) (h1 : Succeeds g)
    (h2 : ∀ a f, g f = .ok a → Succeeds (fun f => k f a)) :
    Succeeds (fun f => g f >>= k f) := by
  obtain ⟨f1, a, hf1⟩ := h1
  obtain ⟨f2, b, hf2'⟩ := h2 a f1 hf1
  have hf2 : k f2 a = Res.ok b := hf2'
  refine ⟨max f1 f2, b, ?_⟩
  have e1 : g (max f1 f2) = g f1 :=
    hg.eq_of_le (le_max_left f1 f2) (by rw [hf1]; exact fun hc => Res.noConfusion hc)
  have e2 : k (max f1 f2) a = k f2 a :=
    (hk a).eq_of_le (le_max_right f1 f2) (by rw [hf2]; exact fun hc => Res.noConfusion hc)
  show (g (max f1 f2) >>= k (max f1 f2)) = _
  rw [e1, hf1, Res.ok_bind, e2, hf2]

/-! ## Go maps: lemmas -/

theorem mapGet_mapSet_self {K V : Type} [DecidableEq K] (m : List (K × V)) (k : K) (v : V) :
    mapGet (mapSet m k v) k = some v := by
  induction m with
  | nil => simp [mapSet, mapGet]
  | cons x r ih =>
    obtain ⟨k', v'⟩ := x
    by_cases h : k' = k
    · simp [mapSet, mapGet, h]
    · simp [mapSet, mapGet, h, ih]

theorem mapGet_mapSet_ne {K V : Type} [DecidableEq K] (m : List (K × V)) (k k' : K) (v : V)
    (h : k ≠ k') : mapGet (mapSet m k v) k' = mapGet m k' := by
  induction m with
  | nil => simp [mapSet, mapGet, h]
  | cons x r ih =>
    obtain ⟨k0, v0⟩ := x
    by_cases h0 : k0 = k
    · subst h0
      simp [mapSet, mapGet, h]
    · simp [mapSet, mapGet, h0, ih]

theorem mapGet_none_iff {K V : Type} [DecidableEq K] (m : List (K × V)) (k : K) :
    mapGet m k = none ↔ k ∉ m.map Prod.fst := by
  induction m with
  | nil => simp [mapGet]
  | cons x r ih =>
    obtain ⟨k0, v0⟩ := x
    by_cases h0 : k0 = k
    · simp [mapGet, h0]
    · simp only [mapGet, h0, if_false, ih, List.map_cons, List.mem_cons]
      constructor
      · intro h1 h2
        rcases h2 with h2 | h2
        · exact h0 h2.symm
        · exact h1 h2
      · intro h1 h2
        exact h1 (Or.inr h2)

theorem mapSet_keys_of_none {K V : Type} [DecidableEq K] (m : List (K × V)) (k : K) (v : V)
    (h : mapGet m k = none) : (mapSet m k v).map Prod.fst = m.map Prod.fst ++ [k] := by
  induction m with
  | nil => simp [mapSet]
  | cons x r ih =>
    obtain ⟨k0, v0⟩ := x
    by_cases h0 : k0 = k
    · simp [mapGet, h0] at h
    · simp only [mapGet, h0, if_false] at h
      simp [mapSet, h0, ih h]

theorem mapSet_keys_of_some {K V : Type} [DecidableEq K] (m : List (K × V)) (k : K) (v v0 : V)
    (h : mapGet m k = some v0) : (mapSet m k v).map Prod.fst = m.map Prod.fst := by
  induction m with
  | nil => simp [mapGet] at h
  | cons x r ih =>
    obtain ⟨k1, v1⟩ := x
    by_cases h1 : k1 = k
    · simp [mapSet, h1]
    · simp only [mapGet, h1, if_false] at h
      simp [mapSet, h1, ih h]

theorem nodup_mapSet_of_none {K V : Type} [DecidableEq K] (m : List (K × V)) (k : K) (v : V)
    (h : mapGet m k = none) (hn : (m.map Prod.fst).Nodup) :
    ((mapSet m k v).map Prod.fst).Nodup := by
  rw [mapSet_keys_of_none m k v h]
  have hk := (mapGet_none_iff m k).1 h
  rw [List.nodup_append]
  refine ⟨hn, List.nodup_singleton k, ?_⟩
  intro a ha hb
  simp only [List.mem_singleton] at hb
  subst hb
  exact hk ha

theorem count_key_of_mem_nodup {K : Type} [DecidableEq K] (l : List K) (k : K)
    (hn : l.Nodup) (hk : k ∈ l) : l.count k = 1 :=
  List.count_eq_one_of_mem hn hk

theorem mem_keys_of_mapGet {K V : Type} [DecidableEq K] (m : List (K × V)) (k : K) (v : V)
    (h : mapGet m k = some v) : k ∈ m.map Prod.fst := by
  by_contra hc
  rw [← mapGet_none_iff] at hc
  rw [hc] at h
  exact Option.noConfusion h

/-! ## Registry factories -/

theorem inputType_of_cached (E : Ty) (ctx : GenContext) (t : Nat)
    (h : mapGet ctx.inputTypes E = some t) : inputType E ctx = (t, ctx) := by
  simp [inputType, h]

theorem inputType_caches (E : Ty) (ctx : GenContext) :
    mapGet (inputType E ctx).2.inputTypes E = some (inputType E ctx).1 := by
  unfold inputType
  cases h : mapGet ctx.inputTypes E with
  | some t => simpa using h
  | none => simp [mapGet_mapSet_self]

theorem outputType_of_cached (E : Ty) (ctx : GenContext) (t : Nat)
    (h : mapGet ctx.outputTypes E = some t) : outputType E ctx = (t, ctx) := by
  simp [outputType, h]

theorem outputType_caches (E : Ty) (ctx : GenContext) :
    mapGet (outputType E ctx).2.outputTypes E = some (outputType E ctx).1 := by
  unfold outputType
  cases h : mapGet ctx.outputTypes E with
  | some t => simpa using h
  | none => simp [mapGet_mapSet_self]

theorem resourceType_of_cached (r : Resource) (ctx : GenContext) (t : Nat)
    (h : mapGet ctx.resourceTypes r.Token = some t) : resourceType r ctx = (t, ctx) := by
  simp [resourceType, h]

theorem resourceType_caches (r : Resource) (ctx : GenContext) :
    mapGet (resourceType r ctx).2.resourceTypes r.Token = some (resourceType r ctx).1 := by
  unfold resourceType
  cases h : mapGet ctx.resourceTypes r.Token with
  | some t => simpa using h
  | none => simp [mapGet_mapSet_self]

theorem callN_of_fixed (f : GenContext → Nat × GenContext) (ctx : GenContext) (t : Nat)
    (h : f ctx = (t, ctx)) (n : Nat) : callN f n ctx = (List.replicate n t, ctx) := by
  induction n with
  | zero => rfl
  | succ n ih => simp [callN, h, ih, List.replicate_succ]

theorem inputType_node (E : Ty) (ctx : GenContext) (h : CachesOK ctx) :
    (inputType E ctx).2.heap[(inputType E ctx).1]? = some (Node.input E) := by
  unfold inputType
  cases hc : mapGet ctx.inputTypes E with
  | some t => simpa using h.inputNode E t hc
  | none => simp

theorem outputType_node (E : Ty) (ctx : GenContext) (h : CachesOK ctx) :
    (outputType E ctx).2.heap[(outputType E ctx).1]? = some (Node.output E) := by
  unfold outputType
  cases hc : mapGet ctx.outputTypes E with
  | some t => simpa using h.outputNode E t hc
  | none => simp

/-- C1 (wrapper singleton): `n + 1` successive calls of `inputType(E)` all
return the node that the first call returned, that node is an `InputOf` whose
element is `E`, and the state (hence the `inputTypes` cache) after the last
call is the state after the first call; likewise for `outputType(E)` and the
`outputTypes` cache. -/
theorem wrapper_singleton (ctx : GenContext) (h : CachesOK ctx) (E : Ty) (n : Nat) :
    (callN (inputType E) (n + 1) ctx
        = (List.replicate (n + 1) (inputType E ctx).1, (inputType E ctx).2)
      ∧ (inputType E ctx).2.heap[(inputType E ctx).1]? = some (Node.input E))
    ∧ (callN (outputType E) (n + 1) ctx
        = (List.replicate (n + 1) (outputType E ctx).1, (outputType E ctx).2)
      ∧ (outputType E ctx).2.heap[(outputType E ctx).1]? = some (Node.output E)) := by
  refine ⟨⟨?_, inputType_node E ctx h⟩, ⟨?_, outputType_node E ctx h⟩⟩
  · have h2 := inputType_of_cached E _ _ (inputType_caches E ctx)
    have h3 := callN_of_fixed (inputType E) _ _ h2 n
    simp only [callN, h3, List.replicate_succ]
  · have h2 := outputType_of_cached E _ _ (outputType_caches E ctx)
    have h3 := callN_of_fixed (outputType E) _ _ h2 n
    simp only [callN, h3, List.replicate_succ]

theorem cachesOK_new (heap : List Node) : CachesOK (newGenContext heap) := by
  constructor <;> simp [newGenContext, mapGet]

/-- Witness for C1: three calls on the empty registry for a primitive element. -/
theorem wrapper_singleton_witness :
    (callN (inputType (Ty.prim 0)) 3 (newGenContext [])
        = (List.replicate 3 (inputType (Ty.prim 0) (newGenContext [])).1,
            (inputType (Ty.prim 0) (newGenContext [])).2)
      ∧ (inputType (Ty.prim 0) (newGenContext [])).2.heap[
          (inputType (Ty.prim 0) (newGenContext [])).1]? = some (Node.input (Ty.prim 0)))
    ∧ (callN (outputType (Ty.prim 0)) 3 (newGenContext [])
        = (List.replicate 3 (outputType (Ty.prim 0) (newGenContext [])).1,
            (outputType (Ty.prim 0) (newGenContext [])).2)
      ∧ (outputType (Ty.prim 0) (newGenContext [])).2.heap[
          (outputType (Ty.prim 0) (newGenContext [])).1]? = some (Node.output (Ty.prim 0))) :=
  wrapper_singleton (newGenContext []) (cachesOK_new []) (Ty.prim 0) 2

theorem resourceType_node (r : Resource) (ctx : GenContext) (h : CachesOK ctx) :
    ∃ d, (resourceType r ctx).2.heap[(resourceType r ctx).1]? = some (Node.resource r.Token d) := by
  unfold resourceType
  cases hc : mapGet ctx.resourceTypes r.Token with
  | some t => simpa using h.resourceNode r.Token t hc
  | none => exact ⟨r.id, by simp⟩

theorem resourceType_nodup (r : Resource) (ctx : GenContext) (h : CachesOK ctx) :
    ((resourceType r ctx).2.resourceTypes.map Prod.fst).Nodup := by
  unfold resourceType
  cases hc : mapGet ctx.resourceTypes r.Token with
  | some t => simpa using h.resourceNodup
  | none => exact nodup_mapSet_of_none _ _ _ hc h.resourceNodup

/-- C10 (one Resource node per token): for two resource definitions with the
same token, `resourceType` returns the same node for both, the second call
leaves the registry as the first left it, that node is a `Resource` node
carrying the token, and the `resourceTypes` cache holds the token exactly
once. -/
theorem resource_node_per_token (ctx : GenContext) (h : CachesOK ctx) (r1 r2 : Resource)
    (htok : r1.Token = r2.Token) :
    (resourceType r2 (resourceType r1 ctx).2).1 = (resourceType r1 ctx).1
    ∧ (resourceType r2 (resourceType r1 ctx).2).2 = (resourceType r1 ctx).2
    ∧ (∃ d, (resourceType r1 ctx).2.heap[(resourceType r1 ctx).1]?
        = some (Node.resource r2.Token d))
    ∧ ((resourceType r2 (resourceType r1 ctx).2).2.resourceTypes.map Prod.fst).count r2.Token
        = 1 := by
  have hc := resourceType_caches r1 ctx
  rw [htok] at hc
  have h2 := resourceType_of_cached r2 _ _ hc
  refine ⟨by rw [h2], by rw [h2], ?_, ?_⟩
  · rw [← htok]
    exact resourceType_node r1 ctx h
  · rw [h2]
    exact List.count_eq_one_of_mem (resourceType_nodup r1 ctx h) (mem_keys_of_mapGet _ _ _ hc)

/-- Witness for C10: two different definitions of the token `p:m:R`. -/
theorem resource_node_per_token_witness :
    (resourceType ⟨2, "p:m:R"⟩ (resourceType ⟨1, "p:m:R"⟩ (newGenContext [])).2).1
      = (resourceType ⟨1, "p:m:R"⟩ (newGenContext [])).1
    ∧ (resourceType ⟨2, "p:m:R"⟩ (resourceType ⟨1, "p:m:R"⟩ (newGenContext [])).2).2
      = (resourceType ⟨1, "p:m:R"⟩ (newGenContext [])).2
    ∧ (∃ d, (resourceType ⟨1, "p:m:R"⟩ (newGenContext [])).2.heap[
          (resourceType ⟨1, "p:m:R"⟩ (newGenContext [])).1]?
        = some (Node.resource "p:m:R" d))
    ∧ ((resourceType ⟨2, "p:m:R"⟩
          (resourceType ⟨1, "p:m:R"⟩ (newGenContext [])).2).2.resourceTypes.map
        Prod.fst).count "p:m:R" = 1 :=
  resource_node_per_token (newGenContext []) (cachesOK_new []) ⟨1, "p:m:R"⟩ ⟨2, "p:m:R"⟩ rfl

/-! ## Representative type -/

theorem getPackageForModule_present (m : String) (ctx : GenContext) :
    (mapGet (getPackageForModule m ctx).2.goPackages m).isSome = true := by
  unfold getPackageForModule
  cases h : mapGet ctx.goPackages m with
  | some p => simp [h]
  | none => simp [mapGet_mapSet_self]

theorem getPackageForModule_fst (m : String) (ctx : GenContext) :
    (getPackageForModule m ctx).1 = m := by
  unfold getPackageForModule
  split <;> rfl

theorem getRep_nominal (tp : String → String) (ctx : GenContext) (c : Ty) (tok : String)
    (h : nominalToken ctx.heap c = some tok) (fuel : Nat) :
    getRepresentativeTypeAndPackage tp (fuel + 1) c ctx
      = .ok (some (c, tp tok), (getPackageForModule (tp tok) ctx).2) := by
  cases c with
  | prim k => simp [nominalToken] at h
  | ref a =>
    unfold nominalToken at h
    unfold getRepresentativeTypeAndPackage
    cases hn : ctx.heap[a]? with
    | none => simp [hn] at h
    | some nd =>
      cases nd <;> simp [hn] at h <;> subst h <;>
        simp [getPackageForToken, getPackageForModule_fst, hn]

theorem getRep_primOrUnion (tp : String → String) (ctx : GenContext) (c : Ty)
    (h : primOrUnion ctx.heap c) (fuel : Nat) :
    getRepresentativeTypeAndPackage tp (fuel + 1) c ctx = .ok (none, ctx) := by
  cases c with
  | prim k => simp [getRepresentativeTypeAndPackage]
  | ref a =>
    obtain ⟨es, hes⟩ := h
    simp [getRepresentativeTypeAndPackage, hes]

theorem getRep_layers (tp : String → String) (ctx : GenContext) (n : Nat) (t c : Ty)
    (hl : Layers ctx.heap n t c) (k : Nat) :
    getRepresentativeTypeAndPackage tp (n + k) t ctx
      = getRepresentativeTypeAndPackage tp k c ctx := by
  induction hl with
  | core c => simp
  | output hn _ ih =>
    rw [Nat.add_right_comm]
    simp only [getRepresentativeTypeAndPackage, hn]
    exact ih
  | input hn _ ih =>
    rw [Nat.add_right_comm]
    simp only [getRepresentativeTypeAndPackage, hn]
    exact ih
  | optional hn _ ih =>
    rw [Nat.add_right_comm]
    simp only [getRepresentativeTypeAndPackage, hn]
    exact ih
  | array hn _ ih =>
    rw [Nat.add_right_comm]
    simp only [getRepresentativeTypeAndPackage, hn]
    exact ih
  | map hn _ ih =>
    rw [Nat.add_right_comm]
    simp only [getRepresentativeTypeAndPackage, hn]
    exact ih

/-- C9 (representative type): if `t` is `n` wrapper layers (`OutputOf`,
`InputOf`, `Optional`, `Array`, `Map`) around a core `c`, then with more than
`n` units of fuel `getRepresentativeTypeAndPackage(t)` returns `c` together
with the (existing) partition of `tokenToPackage(c.Token)` when `c` is an
`Object`, `Enum`, `Resource` or `TokenRef`, and returns `(nil, nil)` leaving the
registry untouched when `c` is a primitive or a union; `getPackageForType(t)`
returns that same partition, respectively nil. -/
theorem representative_type (tp : String → String) (ctx : GenContext) (n : Nat) (t c : Ty)
    (hl : Layers ctx.heap n t c) (fuel : Nat) (hf : n < fuel) :
    (∀ tok, nominalToken ctx.heap c = some tok →
      getRepresentativeTypeAndPackage tp fuel t ctx
          = .ok (some (c, tp tok), (getPackageForModule (tp tok) ctx).2)
        ∧ getPackageForType tp fuel t ctx
          = .ok (some (tp tok), (getPackageForModule (tp tok) ctx).2)
        ∧ (mapGet (getPackageForModule (tp tok) ctx).2.goPackages (tp tok)).isSome = true)
    ∧ (primOrUnion ctx.heap c →
      getRepresentativeTypeAndPackage tp fuel t ctx = .ok (none, ctx)
        ∧ getPackageForType tp fuel t ctx = .ok (none, ctx)) := by
  obtain ⟨k, rfl⟩ : ∃ k, fuel = n + (k + 1) := ⟨fuel - n - 1, by omega⟩
  have h1 := getRep_layers tp ctx n t c hl (k + 1)
  constructor
  · intro tok htok
    have h2 := getRep_nominal tp ctx c tok htok k
    refine ⟨by rw [h1, h2], ?_, getPackageForModule_present _ _⟩
    unfold getPackageForType
    rw [h1, h2]
    rfl
  · intro hp
    have h2 := getRep_primOrUnion tp ctx c hp k
    refine ⟨by rw [h1, h2], ?_⟩
    unfold getPackageForType
    rw [h1, h2]
    rfl

/-- Witness for C9: `Optional(Array(Object))` with two units of fuel to spare. -/
theorem representative_type_witness :
    (∀ tok, nominalToken
        (newGenContext [Node.object "p:m:O" [], Node.array (Ty.ref 0),
          Node.optional (Ty.ref 1)]).heap (Ty.ref 0) = some tok →
      getRepresentativeTypeAndPackage id 4 (Ty.ref 2)
          (newGenContext [Node.object "p:m:O" [], Node.array (Ty.ref 0),
            Node.optional (Ty.ref 1)])
          = .ok (some (Ty.ref 0, id tok), (getPackageForModule (id tok)
              (newGenContext [Node.object "p:m:O" [], Node.array (Ty.ref 0),
                Node.optional (Ty.ref 1)])).2)
        ∧ getPackageForType id 4 (Ty.ref 2)
          (newGenContext [Node.object "p:m:O" [], Node.array (Ty.ref 0),
            Node.optional (Ty.ref 1)])
          = .ok (some (id tok), (getPackageForModule (id tok)
              (newGenContext [Node.object "p:m:O" [], Node.array (Ty.ref 0),
                Node.optional (Ty.ref 1)])).2)
        ∧ (mapGet (getPackageForModule (id tok)
              (newGenContext [Node.object "p:m:O" [], Node.array (Ty.ref 0),
                Node.optional (Ty.ref 1)])).2.goPackages (id tok)).isSome = true)
    ∧ (primOrUnion
        (newGenContext [Node.object "p:m:O" [], Node.array (Ty.ref 0),
          Node.optional (Ty.ref 1)]).heap (Ty.ref 0) →
      getRepresentativeTypeAndPackage id 4 (Ty.ref 2)
          (newGenContext [Node.object "p:m:O" [], Node.array (Ty.ref 0),
            Node.optional (Ty.ref 1)])
          = .ok (none, newGenContext [Node.object "p:m:O" [], Node.array (Ty.ref 0),
            Node.optional (Ty.ref 1)])
        ∧ getPackageForType id 4 (Ty.ref 2)
          (newGenContext [Node.object "p:m:O" [], Node.array (Ty.ref 0),
            Node.optional (Ty.ref 1)])
          = .ok (none, newGenContext [Node.object "p:m:O" [], Node.array (Ty.ref 0),
            Node.optional (Ty.ref 1)])) :=
  representative_type id
    (newGenContext [Node.object "p:m:O" [], Node.array (Ty.ref 0), Node.optional (Ty.ref 1)])
    2 (Ty.ref 2) (Ty.ref 0)
    (Layers.optional rfl (Layers.array rfl (Layers.core _))) 4 (by decide)


/-! ## Fuel monotonicity -/

theorem getRep_mono (tp : String → String) (t : Ty) (s : GenContext) :
    Mono (fun f => getRepresentativeTypeAndPackage tp f t s) := by
  intro f
  induction f generalizing t with
  | zero => exact Res.Le.of_timeout _
  | succ f ih =>
    show (getRepresentativeTypeAndPackage tp (f + 1) t s).Le
      (getRepresentativeTypeAndPackage tp (f + 1 + 1) t s)
    cases t with
    | prim k => simp only [getRepresentativeTypeAndPackage]; exact Res.Le.reflLe _
    | ref a =>
      simp only [getRepresentativeTypeAndPackage]
      cases hn : s.heap[a]? with
      | none => exact Res.Le.reflLe _
      | some nd =>
        cases nd <;> simp only [] <;> first | exact ih _ | exact Res.Le.reflLe _

theorem getPackageForType_mono (tp : String → String) (t : Ty) (s : GenContext) :
    Mono (fun f => getPackageForType tp f t s) :=
  Mono.bindMono (getRep_mono tp t s) (fun _ => Mono.constMono _)

theorem register_mono (tp : String → String) (t : Nat) (add : TypeDetails → TypeDetails)
    (s : GenContext) : Mono (fun f => register tp f t add s) :=
  Mono.bindMono (getRep_mono tp (Ty.ref t) s) (fun _ => Mono.constMono _)

theorem mapTypes_le {g g' : Ty → List Node → Res (Ty × List Node)}
    (h : ∀ t hp, (g t hp).Le (g' t hp)) (ts : List Ty) (hp : List Node) :
    (mapTypes g ts hp).Le (mapTypes g' ts hp) := by
  induction ts generalizing hp with
  | nil => exact Res.Le.reflLe _
  | cons t ts ih =>
    simp only [mapTypes]
    exact Res.Le.bindLe (h t hp) (fun r => Res.Le.bindLe (ih r.2) (fun _ => Res.Le.reflLe _))

theorem resolvedType_mono (t : Ty) (hp : List Node) : Mono (fun f => ResolvedType f t hp) := by
  intro f
  induction f generalizing t hp with
  | zero => exact Res.Le.of_timeout _
  | succ f ih =>
    show (ResolvedType (f + 1) t hp).Le (ResolvedType (f + 1 + 1) t hp)
    cases t with
    | prim k => simp only [ResolvedType]; exact Res.Le.reflLe _
    | ref a =>
      simp only [ResolvedType]
      cases hn : hp[a]? with
      | none => exact Res.Le.reflLe _
      | some nd =>
        cases nd <;> simp only [] <;>
          first
          | exact ih _ _
          | exact Res.Le.bindLe (ih _ _) (fun _ => Res.Le.reflLe _)
          | exact Res.Le.bindLe (mapTypes_le (fun t hp => ih t hp) _ _) (fun _ => Res.Le.reflLe _)
          | exact Res.Le.reflLe _

theorem forEach_le {g g' : Ty → GenContext → Res GenContext}
    (h : ∀ t s, (g t s).Le (g' t s)) (ts : List Ty) (s : GenContext) :
    (forEach g ts s).Le (forEach g' ts s) := by
  induction ts generalizing s with
  | nil => exact Res.Le.reflLe _
  | cons t ts ih =>
    simp only [forEach]
    exact Res.Le.bindLe (h t s) (fun s1 => ih s1)

theorem noteOutputOf_le {g g' : Ty → GenContext → Res GenContext}
    (h : ∀ t s, (g t s).Le (g' t s)) (t : Ty) (s : GenContext) :
    (noteOutputOf g t s).Le (noteOutputOf g' t s) := h _ _

theorem walker_mono (tp : String → String) (f : Nat) :
    (∀ t s, (noteType tp f t s).Le (noteType tp (f + 1) t s))
    ∧ (∀ t s, (noteOutputType tp f t s).Le (noteOutputType tp (f + 1) t s))
    ∧ (∀ t s, (noteInputType tp f t s).Le (noteInputType tp (f + 1) t s))
    ∧ (∀ t s, (noteOptionalType tp f t s).Le (noteOptionalType tp (f + 1) t s)) := by
  induction f with
  | zero =>
    refine ⟨fun t s => ?_, fun t s => ?_, fun t s => ?_, fun t s => ?_⟩ <;>
      exact Res.Le.of_timeout _
  | succ f ih =>
    obtain ⟨ihT, ihO, ihI, ihP⟩ := ih
    refine ⟨fun t s => ?_, fun t s => ?_, fun t s => ?_, fun t s => ?_⟩
    · simp only [noteType]
      split
      · exact Res.Le.reflLe _
      · cases t with
        | prim k => exact Res.Le.reflLe _
        | ref a =>
          simp only []
          cases hn : s.heap[a]? with
          | none => exact Res.Le.reflLe _
          | some nd =>
            cases nd <;> simp only [] <;>
              first
              | exact ihT _ _
              | exact ihO _ _
              | exact ihI _ _
              | exact ihP _ _
              | exact forEach_le ihT _ _
              | exact Res.Le.bindLe (getPackageForType_mono tp _ _ f) (fun _ => Res.Le.reflLe _)
              | exact Res.Le.reflLe _
    · simp only [noteOutputType]
      cases hn : s.heap[t]? with
      | none => exact Res.Le.reflLe _
      | some nd =>
        cases nd <;> simp only [] <;> try exact Res.Le.reflLe _
        rename_i e
        refine Res.Le.bindLe ?_ (fun s1 => register_mono tp t _ s1 f)
        cases e with
        | prim k => exact Res.Le.reflLe _
        | ref a =>
          simp only []
          cases hn : s.heap[a]? with
          | none => exact Res.Le.reflLe _
          | some nd =>
            cases nd <;> simp only [] <;>
              first
              | exact noteOutputOf_le ihT _ _
              | exact forEach_le (noteOutputOf_le ihT) _ _
              | exact Res.Le.reflLe _
    · simp only [noteInputType]
      cases hn : s.heap[t]? with
      | none => exact Res.Le.reflLe _
      | some nd =>
        cases nd <;> simp only [] <;> try exact Res.Le.reflLe _
        rename_i e
        refine Res.Le.bindLe (ihT _ _) (fun s1 => ?_)
        refine Res.Le.bindLe (resolvedType_mono _ _ f) (fun r => ?_)
        exact Res.Le.bindLe (ihO _ _) (fun s3 => register_mono tp t _ s3 f)
    · simp only [noteOptionalType]
      cases hn : s.heap[t]? with
      | none => exact Res.Le.reflLe _
      | some nd =>
        cases nd <;> simp only [] <;> try exact Res.Le.reflLe _
        rename_i e
        cases hi : asInputType s.heap e with
        | none => exact ihT _ _
        | some x =>
          simp only []
          refine Res.Le.bindLe (ihI _ _) (fun s2 => ?_)
          exact Res.Le.bindLe (getPackageForType_mono tp _ _ f) (fun _ => Res.Le.reflLe _)

theorem noteType_mono (tp : String → String) (t : Ty) (s : GenContext) :
    Mono (fun f => noteType tp f t s) := fun f => (walker_mono tp f).1 t s

theorem noteOutputType_mono (tp : String → String) (t : Nat) (s : GenContext) :
    Mono (fun f => noteOutputType tp f t s) := fun f => (walker_mono tp f).2.1 t s

theorem noteInputType_mono (tp : String → String) (t : Nat) (s : GenContext) :
    Mono (fun f => noteInputType tp f t s) := fun f => (walker_mono tp f).2.2.1 t s

theorem noteOptionalType_mono (tp : String → String) (t : Nat) (s : GenContext) :
    Mono (fun f => noteOptionalType tp f t s) := fun f => (walker_mono tp f).2.2.2 t s


/-! ## Heaps and state extension -/

theorem TyLt.mono {t : Ty} {n m : Nat} (h : TyLt t n) (hnm : n ≤ m) : TyLt t m := by
  cases t with
  | prim k => trivial
  | ref a => exact Nat.lt_of_lt_of_le h hnm

theorem lt_length_of_getElem? {heap : List Node} {a : Nat} {nd : Node}
    (h : heap[a]? = some nd) : a < heap.length := by
  by_contra hc
  rw [List.getElem?_eq_none (Nat.le_of_not_lt hc)] at h
  exact Option.noConfusion h

theorem HeapExt.reflHeap (heap : List Node) : HeapExt heap heap := ⟨fun _ _ h => h, le_refl _⟩

theorem HeapExt.transHeap {h1 h2 h3 : List Node} (a : HeapExt h1 h2) (b : HeapExt h2 h3) :
    HeapExt h1 h3 :=
  ⟨fun x nd h => b.cells x nd (a.cells x nd h), le_trans a.size b.size⟩

theorem HeapExt.appendHeap (heap l : List Node) : HeapExt heap (heap ++ l) := by
  refine ⟨fun a nd h => ?_, by simp⟩
  rw [List.getElem?_append_left (lt_length_of_getElem? h)]
  exact h

theorem getElem?_append_one {heap : List Node} {x nd : Node} {a : Nat}
    (h : (heap ++ [x])[a]? = some nd) : heap[a]? = some nd ∨ (a = heap.length ∧ nd = x) := by
  by_cases ha : a < heap.length
  · rw [List.getElem?_append_left ha] at h
    exact Or.inl h
  · have hle : heap.length ≤ a := Nat.le_of_not_lt ha
    rw [List.getElem?_append_right hle] at h
    have hlt := lt_length_of_getElem? h
    simp only [List.length_singleton] at hlt
    have ha0 : a - heap.length = 0 := by omega
    rw [ha0] at h
    simp only [List.getElem?_cons_zero, Option.some.injEq] at h
    exact Or.inr ⟨by omega, h.symm⟩

theorem getElem?_append_length (heap : List Node) (x : Node) :
    (heap ++ [x])[heap.length]? = some x := by
  rw [List.getElem?_append_right (le_refl _)]
  simp

theorem HeapOK.appendCell {n : Nat} {heap : List Node} {x : Node} (h : HeapOK n heap)
    (hx : NodeOK n heap.length x) : HeapOK n (heap ++ [x]) := by
  refine ⟨by have := h.size; simp; omega, fun a nd hn => ?_⟩
  rcases getElem?_append_one hn with h1 | ⟨h1, h2⟩
  · exact h.nodes a nd h1
  · subst h1 h2
    exact hx

theorem tyLt_length_of_cell {heap : List Node} {a : Nat} {nd : Node}
    (hn : heap[a]? = some nd) {e : Ty} (he : TyLt e a) : TyLt e heap.length :=
  he.mono (Nat.le_of_lt (lt_length_of_getElem? hn))

theorem Ext.reflExt (s : GenContext) : Ext s s :=
  ⟨HeapExt.reflHeap _, fun _ h => h, fun _ _ h => h⟩

theorem Ext.transExt {s1 s2 s3 : GenContext} (a : Ext s1 s2) (b : Ext s2 s3) : Ext s1 s3 :=
  ⟨a.heap.transHeap b.heap, fun t h => b.noted t (a.noted t h),
    fun k o h => b.outputs k o (a.outputs k o h)⟩

theorem Good.reflGood (n : Nat) (s : GenContext) : Good n s s := ⟨Ext.reflExt s, fun h => h⟩

theorem Good.transGood {n : Nat} {s1 s2 s3 : GenContext} (a : Good n s1 s2) (b : Good n s2 s3) :
    Good n s1 s3 :=
  ⟨a.1.transExt b.1, fun h => b.2 (a.2 h)⟩

/-- A step that touches neither the heap nor the output cache and only adds
to the noted set. -/
theorem Good.of_same {n : Nat} {s s' : GenContext} (hh : s'.heap = s.heap)
    (ho : s'.outputTypes = s.outputTypes) (hn : ∀ t, t ∈ s.notedTypes → t ∈ s'.notedTypes) :
    Good n s s' := by
  refine ⟨⟨by rw [hh]; exact HeapExt.reflHeap _, hn, fun k o h => by rw [ho]; exact h⟩, fun hi => ?_⟩
  exact ⟨by rw [hh]; exact hi.heapOK, fun k o h => by rw [hh]; rw [ho] at h; exact hi.outputs k o h⟩

theorem Sat.trans_good {n : Nat} {s s1 : GenContext} {r : Res GenContext} (h1 : Good n s s1)
    (h : Sat r (Good n s1)) : Sat r (Good n s) := h.mp (fun _ h2 => h1.transGood h2)

theorem getPackageForModule_good (n : Nat) (m : String) (s : GenContext) :
    Good n s (getPackageForModule m s).2 := by
  unfold getPackageForModule
  split
  · exact Good.reflGood n s
  · exact Good.of_same rfl rfl (fun _ h => h)

theorem getRep_good (tp : String → String) (n : Nat) (f : Nat) (t : Ty) (s : GenContext) :
    Sat (getRepresentativeTypeAndPackage tp f t s) (fun r => Good n s r.2) := by
  induction f generalizing t with
  | zero => exact fun _ h => Res.noConfusion h
  | succ f ih =>
    cases t with
    | prim k => simp only [getRepresentativeTypeAndPackage]; exact Sat.ok (Good.reflGood n s)
    | ref a =>
      simp only [getRepresentativeTypeAndPackage]
      cases hn : s.heap[a]? with
      | none => exact Sat.ok (Good.reflGood n s)
      | some nd =>
        cases nd <;> simp only [] <;>
          first
          | exact ih _
          | exact Sat.ok (getPackageForModule_good n _ s)
          | exact Sat.ok (Good.reflGood n s)

theorem getPackageForType_good (tp : String → String) (n : Nat) (f : Nat) (t : Ty)
    (s : GenContext) : Sat (getPackageForType tp f t s) (fun r => Good n s r.2) :=
  Sat.bindSat (getRep_good tp n f t s) (fun _ h => Sat.ok h)

theorem updateDetails_good (n : Nat) (pkg : Option String) (t : Ty)
    (add : TypeDetails → TypeDetails) (s : GenContext) :
    Sat (updateDetails pkg t add s) (Good n s) := by
  unfold updateDetails
  cases pkg with
  | none => exact fun _ h => Res.noConfusion h
  | some m =>
    simp only []
    cases hm : mapGet s.goPackages m with
    | none => exact fun _ h => Res.noConfusion h
    | some p => exact Sat.ok (Good.of_same rfl rfl (fun _ h => h))

theorem appendEnum_good (n : Nat) (pkg : Option String) (t : Nat) (s : GenContext) :
    Sat (appendEnum pkg t s) (Good n s) := by
  unfold appendEnum
  cases pkg with
  | none => exact fun _ h => Res.noConfusion h
  | some m =>
    simp only []
    cases hm : mapGet s.goPackages m with
    | none => exact fun _ h => Res.noConfusion h
    | some p => exact Sat.ok (Good.of_same rfl rfl (fun _ h => h))

theorem register_good (tp : String → String) (n : Nat) (f : Nat) (t : Nat)
    (add : TypeDetails → TypeDetails) (s : GenContext) :
    Sat (register tp f t add s) (Good n s) := by
  unfold register
  refine Sat.bindSat (getRep_good tp n f (Ty.ref t) s) (fun r hr => ?_)
  cases h1 : r.1 with
  | none => exact Sat.ok hr
  | some x => exact Sat.trans_good hr (updateDetails_good n _ _ _ _)

/-- Appending a well-shaped cell to the heap. -/
theorem alloc_good (n : Nat) (s : GenContext) (x : Node)
    (hx : Inv n s → NodeOK n s.heap.length x) :
    Good n s { s with heap := s.heap ++ [x] } := by
  refine ⟨⟨HeapExt.appendHeap _ _, fun _ h => h, fun _ _ h => h⟩, fun hi => ?_⟩
  exact ⟨hi.heapOK.appendCell (hx hi), fun k o h => (HeapExt.appendHeap _ _).cells _ _ (hi.outputs k o h)⟩

theorem outputType_good (n : Nat) (e : Ty) (s : GenContext)
    (he : Inv n s → TyLt e s.heap.length) : Good n s (outputType e s).2 := by
  unfold outputType
  cases hc : mapGet s.outputTypes e with
  | some o => exact Good.reflGood n s
  | none =>
    refine ⟨⟨HeapExt.appendHeap _ _, fun _ h => h, fun k o h => ?_⟩, fun hi => ⟨?_, fun k o h => ?_⟩⟩
    · by_cases hk : e = k
      · subst hk
        rw [hc] at h
        exact Option.noConfusion h
      · show mapGet (mapSet s.outputTypes e s.heap.length) k = some o
        rw [mapGet_mapSet_ne _ _ _ _ hk]
        exact h
    · exact hi.heapOK.appendCell (he hi)
    · by_cases hk : e = k
      · subst hk
        have h' : mapGet (mapSet s.outputTypes e s.heap.length) e = some o := h
        rw [mapGet_mapSet_self] at h'
        cases h'
        exact getElem?_append_length _ _
      · have h' : mapGet (mapSet s.outputTypes e s.heap.length) k = some o := h
        rw [mapGet_mapSet_ne _ _ _ _ hk] at h'
        exact (HeapExt.appendHeap _ _).cells _ _ (hi.outputs k o h')

theorem outputType_cell (n : Nat) (e : Ty) (s : GenContext) (hi : Inv n s) :
    (outputType e s).2.heap[(outputType e s).1]? = some (Node.output e) := by
  unfold outputType
  cases hc : mapGet s.outputTypes e with
  | some o => exact hi.outputs e o hc
  | none => exact getElem?_append_length _ _


/-! ## The walker extends the state and keeps it well-formed -/

theorem rebuild_sat {n : Nat} {hp : List Node} {a : Nat} {e : Ty} (mk : Ty → Node)
    (hmk : ∀ x b, TyLt x b → NodeOK n b (mk x)) (he : HeapOK n hp → TyLt e hp.length)
    {r0 : Res (Ty × List Node)} (h : Sat r0 (RGood n hp e)) :
    Sat (r0 >>= fun r => if r.1 = e then Res.ok (Ty.ref a, r.2)
      else Res.ok (Ty.ref r.2.length, r.2 ++ [mk r.1])) (RGood n hp (Ty.ref a)) := by
  refine Sat.bindSat h (fun r hr => ?_)
  split
  · refine Sat.ok ⟨hr.1, fun hok ha => ⟨(hr.2 hok (he hok)).1, ?_⟩⟩
    exact TyLt.mono (n := hp.length) ha hr.1.size
  · refine Sat.ok ⟨hr.1.transHeap (HeapExt.appendHeap _ _), fun hok _ => ⟨?_, ?_⟩⟩
    · exact (hr.2 hok (he hok)).1.appendCell (hmk _ _ (hr.2 hok (he hok)).2)
    · show r.2.length < (r.2 ++ [mk r.1]).length
      simp

theorem mapTypes_sat {n : Nat} {g : Ty → List Node → Res (Ty × List Node)}
    (hg : ∀ t hp, Sat (g t hp) (RGood n hp t)) (ts : List Ty) (hp : List Node) :
    Sat (mapTypes g ts hp) (fun r => HeapExt hp r.2 ∧
      (HeapOK n hp → (∀ t ∈ ts, TyLt t hp.length) →
        HeapOK n r.2 ∧ ∀ t ∈ r.1, TyLt t r.2.length)) := by
  induction ts generalizing hp with
  | nil =>
    exact Sat.ok ⟨HeapExt.reflHeap _, fun hok _ => ⟨hok, fun t ht => by cases ht⟩⟩
  | cons t ts ih =>
    simp only [mapTypes]
    refine Sat.bindSat (hg t hp) (fun r hr => Sat.bindSat (ih r.2) (fun rs hrs => Sat.ok ?_))
    refine ⟨hr.1.transHeap hrs.1, fun hok hts => ?_⟩
    have h1 := hr.2 hok (hts t (List.mem_cons_self _ _))
    have h2 := hrs.2 h1.1 (fun t' ht' =>
      TyLt.mono (hts t' (List.mem_cons_of_mem _ ht')) hr.1.size)
    refine ⟨h2.1, fun x hx => ?_⟩
    rcases List.mem_cons.1 hx with hx | hx
    · subst hx
      exact TyLt.mono h1.2 hrs.1.size
    · exact h2.2 x hx

theorem resolvedType_good (n : Nat) (f : Nat) (t : Ty) (hp : List Node) :
    Sat (ResolvedType f t hp) (RGood n hp t) := by
  induction f generalizing t hp with
  | zero => exact fun _ h => Res.noConfusion h
  | succ f ih =>
    cases t with
    | prim k =>
      simp only [ResolvedType]
      exact Sat.ok ⟨HeapExt.reflHeap _, fun hok hv => ⟨hok, hv⟩⟩
    | ref a =>
      simp only [ResolvedType]
      cases hn : hp[a]? with
      | none => exact Sat.ok ⟨HeapExt.reflHeap _, fun hok hv => ⟨hok, hv⟩⟩
      | some nd =>
        cases nd with
        | input e =>
          simp only []
          refine (ih e hp).mp (fun r hr => ⟨hr.1, fun hok _ => ?_⟩)
          exact hr.2 hok (tyLt_length_of_cell hn (hok.nodes a _ hn))
        | optional e =>
          simp only []
          exact rebuild_sat Node.optional (fun _ _ h => h)
            (fun hok => tyLt_length_of_cell hn (hok.nodes a _ hn)) (ih e hp)
        | array e =>
          simp only []
          exact rebuild_sat Node.array (fun _ _ h => h)
            (fun hok => tyLt_length_of_cell hn (hok.nodes a _ hn)) (ih e hp)
        | map e =>
          simp only []
          exact rebuild_sat Node.map (fun _ _ h => h)
            (fun hok => tyLt_length_of_cell hn (hok.nodes a _ hn)) (ih e hp)
        | union es =>
          simp only []
          refine Sat.bindSat (mapTypes_sat (n := n) (fun t hp => ih t hp) es hp) (fun r hr => ?_)
          have hes : HeapOK n hp → ∀ t ∈ es, TyLt t hp.length := fun hok t ht =>
            tyLt_length_of_cell hn (hok.nodes a _ hn t ht)
          split
          · refine Sat.ok ⟨hr.1, fun hok ha => ⟨(hr.2 hok (hes hok)).1, ?_⟩⟩
            exact TyLt.mono (n := hp.length) ha hr.1.size
          · refine Sat.ok ⟨hr.1.transHeap (HeapExt.appendHeap _ _), fun hok _ => ⟨?_, ?_⟩⟩
            · exact (hr.2 hok (hes hok)).1.appendCell (hr.2 hok (hes hok)).2
            · show r.2.length < (r.2 ++ [Node.union r.1]).length
              simp
        | output e => exact Sat.ok ⟨HeapExt.reflHeap _, fun hok hv => ⟨hok, hv⟩⟩
        | object tok props => exact Sat.ok ⟨HeapExt.reflHeap _, fun hok hv => ⟨hok, hv⟩⟩
        | enum tok => exact Sat.ok ⟨HeapExt.reflHeap _, fun hok hv => ⟨hok, hv⟩⟩
        | resource tok r => exact Sat.ok ⟨HeapExt.reflHeap _, fun hok hv => ⟨hok, hv⟩⟩
        | token tok => exact Sat.ok ⟨HeapExt.reflHeap _, fun hok hv => ⟨hok, hv⟩⟩

theorem forEach_good {n : Nat} {g : Ty → GenContext → Res GenContext} (ts : List Ty)
    (s : GenContext) (h : ∀ t ∈ ts, ∀ c, Good n s c → Sat (g t c) (Good n c)) :
    Sat (forEach g ts s) (Good n s) := by
  induction ts generalizing s with
  | nil => exact Sat.ok (Good.reflGood n s)
  | cons t ts ih =>
    simp only [forEach]
    refine Sat.bindSat (h t (List.mem_cons_self _ _) s (Good.reflGood n s)) (fun s1 h1 => ?_)
    exact Sat.trans_good h1
      (ih s1 (fun t' ht' c hc => h t' (List.mem_cons_of_mem _ ht') c (h1.transGood hc)))

/-- Replacing the heap by an extension computed by `ResolvedType`. -/
theorem setHeap_good {n : Nat} {s : GenContext} {e : Ty} {r : Ty × List Node}
    (hr : RGood n s.heap e r) (he : Inv n s → TyLt e s.heap.length) :
    Good n s { s with heap := r.2 } := by
  refine ⟨⟨hr.1, fun _ h => h, fun _ _ h => h⟩, fun hi => ⟨?_, fun k o h => ?_⟩⟩
  · exact (hr.2 hi.heapOK (he hi)).1
  · exact hr.1.cells _ _ (hi.outputs k o h)

theorem asInputType_some {heap : List Node} {e x : Ty} (h : asInputType heap e = some x) :
    ∃ b, e = Ty.ref b ∧ heap[b]? = some (Node.input x) := by
  cases e with
  | prim k => simp [asInputType] at h
  | ref b =>
    refine ⟨b, rfl, ?_⟩
    unfold asInputType at h
    cases hn : heap[b]? with
    | none => simp [hn] at h
    | some nd =>
      cases nd <;> simp [hn] at h
      subst h
      rfl

theorem alloc2_good (n : Nat) (s : GenContext) (x y : Node)
    (hx : Inv n s → NodeOK n s.heap.length x) (hy : Inv n s → NodeOK n (s.heap.length + 1) y) :
    Good n s { s with heap := s.heap ++ [x, y] } := by
  refine ⟨⟨HeapExt.appendHeap _ _, fun _ h => h, fun _ _ h => h⟩, fun hi => ⟨?_, fun k o h => ?_⟩⟩
  · have e : s.heap ++ [x, y] = (s.heap ++ [x]) ++ [y] := by simp
    show HeapOK n (s.heap ++ [x, y])
    rw [e]
    refine (hi.heapOK.appendCell (hx hi)).appendCell ?_
    have hl : (s.heap ++ [x]).length = s.heap.length + 1 := by simp
    rw [hl]
    exact hy hi
  · exact (HeapExt.appendHeap _ _).cells _ _ (hi.outputs k o h)


theorem outputType_ext (e : Ty) (s : GenContext) : Ext s (outputType e s).2 := by
  unfold outputType
  cases hc : mapGet s.outputTypes e with
  | some o => exact Ext.reflExt s
  | none =>
    refine ⟨HeapExt.appendHeap _ _, fun _ h => h, fun k o h => ?_⟩
    by_cases hk : e = k
    · subst hk
      rw [hc] at h
      exact Option.noConfusion h
    · show mapGet (mapSet s.outputTypes e s.heap.length) k = some o
      rw [mapGet_mapSet_ne _ _ _ _ hk]
      exact h

theorem noteOutputOf_good {n : Nat} {g : Ty → GenContext → Res GenContext}
    (hg : ∀ t s, Sat (g t s) (Good n s)) (e : Ty) (s : GenContext)
    (he : Inv n s → TyLt e s.heap.length) : Sat (noteOutputOf g e s) (Good n s) :=
  Sat.trans_good (outputType_good n e s he) (hg _ _)

theorem walker_good (tp : String → String) (n : Nat) (f : Nat) :
    (∀ t s, Sat (noteType tp f t s) (Good n s))
    ∧ (∀ t s, Sat (noteOutputType tp f t s) (Good n s))
    ∧ (∀ t s, Sat (noteInputType tp f t s) (Good n s))
    ∧ (∀ t s, Sat (noteOptionalType tp f t s) (Good n s)) := by
  induction f with
  | zero =>
    refine ⟨fun t s => ?_, fun t s => ?_, fun t s => ?_, fun t s => ?_⟩ <;>
      exact fun _ h => Res.noConfusion h
  | succ f ih =>
    obtain ⟨ihT, ihO, ihI, ihP⟩ := ih
    refine ⟨fun t s => ?_, fun t s => ?_, fun t s => ?_, fun t s => ?_⟩
    · simp only [noteType]
      split
      · exact Sat.ok (Good.reflGood n s)
      · have hm : Good n s { s with notedTypes := t :: s.notedTypes } :=
          Good.of_same rfl rfl (fun _ h => List.mem_cons_of_mem _ h)
        cases t with
        | prim k => exact Sat.ok hm
        | ref a =>
          simp only []
          cases hn : s.heap[a]? with
          | none => exact Sat.ok hm
          | some nd =>
            cases nd with
            | output e => exact Sat.trans_good hm (ihO _ _)
            | input e => exact Sat.trans_good hm (ihI _ _)
            | optional e => exact Sat.trans_good hm (ihP _ _)
            | array e => exact Sat.trans_good hm (ihT _ _)
            | map e => exact Sat.trans_good hm (ihT _ _)
            | union es =>
              exact Sat.trans_good hm (forEach_good es _ (fun t _ c _ => ihT t c))
            | object tok props =>
              exact Sat.trans_good hm (forEach_good props _ (fun t _ c _ => ihT t c))
            | enum tok =>
              exact Sat.trans_good hm (Sat.bindSat (getPackageForType_good tp n f _ _)
                (fun p hp => Sat.trans_good hp (appendEnum_good n _ _ _)))
            | resource tok r => exact Sat.ok hm
            | token tok => exact Sat.ok hm
    · simp only [noteOutputType]
      cases hn : s.heap[t]? with
      | none => exact fun _ h => Res.noConfusion h
      | some nd =>
        cases nd <;> simp only [] <;> try exact fun _ h => Res.noConfusion h
        rename_i e
        refine Sat.bindSat (P := Good n s) ?_
          (fun s1 h1 => Sat.trans_good h1 (register_good tp n f t _ s1))
        cases e with
        | prim k => exact Sat.ok (Good.reflGood n s)
        | ref a =>
          simp only []
          cases hna : s.heap[a]? with
          | none => exact Sat.ok (Good.reflGood n s)
          | some nd =>
            cases nd with
            | optional e =>
              exact noteOutputOf_good ihT e s
                (fun hi => tyLt_length_of_cell hna (hi.heapOK.nodes a _ hna))
            | array e =>
              exact noteOutputOf_good ihT e s
                (fun hi => tyLt_length_of_cell hna (hi.heapOK.nodes a _ hna))
            | map e =>
              exact noteOutputOf_good ihT e s
                (fun hi => tyLt_length_of_cell hna (hi.heapOK.nodes a _ hna))
            | object tok props =>
              refine forEach_good props s (fun p hp c hc => noteOutputOf_good ihT p c ?_)
              intro hic
              have hcell := hc.1.heap.cells a _ hna
              exact TyLt.mono ((hic.heapOK.nodes a _ hcell).2 p hp) hic.heapOK.size
            | output e => exact Sat.ok (Good.reflGood n s)
            | input e => exact Sat.ok (Good.reflGood n s)
            | union es => exact Sat.ok (Good.reflGood n s)
            | enum tok => exact Sat.ok (Good.reflGood n s)
            | resource tok r => exact Sat.ok (Good.reflGood n s)
            | token tok => exact Sat.ok (Good.reflGood n s)
    · simp only [noteInputType]
      cases hn : s.heap[t]? with
      | none => exact fun _ h => Res.noConfusion h
      | some nd =>
        cases nd <;> simp only [] <;> try exact fun _ h => Res.noConfusion h
        rename_i e
        refine Sat.bindSat (ihT e s) (fun s1 h1 => Sat.trans_good h1 ?_)
        refine Sat.bindSat (resolvedType_good n f e s1.heap) (fun r hr => ?_)
        have he : Inv n s1 → TyLt e s1.heap.length := fun hi =>
          tyLt_length_of_cell (h1.1.heap.cells t _ hn)
            (hi.heapOK.nodes t _ (h1.1.heap.cells t _ hn))
        have h2 : Good n s1 { s1 with heap := r.2 } := setHeap_good hr he
        have h3 : Good n s1 (outputType r.1 { s1 with heap := r.2 }).2 :=
          ⟨h2.1.transExt (outputType_ext r.1 _), fun hi =>
            (outputType_good n r.1 _ (fun _ => (hr.2 hi.heapOK (he hi)).2)).2 (h2.2 hi)⟩
        refine Sat.trans_good h3 ?_
        exact Sat.bindSat (ihO _ _) (fun s3 h4 => Sat.trans_good h4 (register_good tp n f t _ s3))
    · simp only [noteOptionalType]
      cases hn : s.heap[t]? with
      | none => exact fun _ h => Res.noConfusion h
      | some nd =>
        cases nd <;> simp only [] <;> try exact fun _ h => Res.noConfusion h
        rename_i e
        cases hi : asInputType s.heap e with
        | none => exact ihT _ _
        | some x =>
          simp only []
          obtain ⟨b, hb, hcell⟩ := asInputType_some hi
          have h1 : Good n s { s with heap := s.heap ++
              [Node.optional x, Node.input (Ty.ref s.heap.length)] } :=
            alloc2_good n s _ _
              (fun hinv => tyLt_length_of_cell hcell (hinv.heapOK.nodes b _ hcell))
              (fun _ => Nat.lt_succ_self _)
          refine Sat.trans_good h1 (Sat.bindSat (ihI _ _) (fun s2 h2 => Sat.trans_good h2 ?_))
          exact Sat.bindSat (getPackageForType_good tp n f _ _)
            (fun p hp => Sat.trans_good hp (updateDetails_good n _ _ _ _))


/-! ## The termination measure -/

theorem countP_lt_of_witness {α : Type} (p q : α → Bool) (l : List α)
    (h : ∀ x ∈ l, p x = true → q x = true) (x : α) (hx : x ∈ l) (hq : q x = true)
    (hp : p x = false) : l.countP p < l.countP q := by
  induction l with
  | nil => cases hx
  | cons y l ih =>
    have hl : ∀ z ∈ l, p z = true → q z = true := fun z hz => h z (List.mem_cons_of_mem _ hz)
    have hle : l.countP p ≤ l.countP q := List.countP_mono_left hl
    rcases List.mem_cons.1 hx with hxy | hxl
    · subst hxy
      rw [List.countP_cons_of_pos q l hq, List.countP_cons_of_neg p l (by simp [hp])]
      omega
    · have ih' := ih hl hxl
      by_cases hpy : p y = true
      · rw [List.countP_cons_of_pos p l hpy,
          List.countP_cons_of_pos q l (h y (List.mem_cons_self _ _) hpy)]
        omega
      · rw [List.countP_cons_of_neg p l hpy]
        by_cases hqy : q y = true
        · rw [List.countP_cons_of_pos q l hqy]
          omega
        · rw [List.countP_cons_of_neg q l hqy]
          exact ih'

theorem unnoted_mono {s s' : GenContext} (h : Ext s s') (a : Nat)
    (hu : unnoted s' a = true) : unnoted s a = true := by
  unfold unnoted at *
  simp only [decide_eq_true_eq] at *
  exact fun hc => hu (h.noted _ hc)

theorem outUnnoted_mono {s s' : GenContext} (h : Ext s s') (a : Nat)
    (hu : outUnnoted s' a = true) : outUnnoted s a = true := by
  unfold outUnnoted at *
  cases hc : mapGet s.outputTypes (Ty.ref a) with
  | none => rfl
  | some o =>
    rw [h.outputs _ _ hc] at hu
    simp only [decide_eq_true_eq] at *
    exact fun hn => hu (h.noted _ hn)

theorem pending_le {n : Nat} {s s' : GenContext} (h : Ext s s') : pending n s' ≤ pending n s := by
  unfold pending
  have h1 : (List.range n).countP (unnoted s') ≤ (List.range n).countP (unnoted s) :=
    List.countP_mono_left (fun a _ => unnoted_mono h a)
  have h2 : (List.range n).countP (outUnnoted s') ≤ (List.range n).countP (outUnnoted s) :=
    List.countP_mono_left (fun a _ => outUnnoted_mono h a)
  omega

theorem pending_lt_of_note {n : Nat} {s s' : GenContext} (h : Ext s s') (a : Nat) (ha : a < n)
    (h1 : Ty.ref a ∉ s.notedTypes) (h2 : Ty.ref a ∈ s'.notedTypes) :
    pending n s' < pending n s := by
  unfold pending
  have c1 : (List.range n).countP (unnoted s') < (List.range n).countP (unnoted s) :=
    countP_lt_of_witness _ _ _ (fun a _ => unnoted_mono h a) a (List.mem_range.2 ha)
      (by simp [unnoted, h1]) (by simp [unnoted, h2])
  have c2 : (List.range n).countP (outUnnoted s') ≤ (List.range n).countP (outUnnoted s) :=
    List.countP_mono_left (fun a _ => outUnnoted_mono h a)
  omega

theorem pending_lt_of_noteOut {n : Nat} {s s' : GenContext} (h : Ext s s') (a o : Nat)
    (ha : a < n) (hc : mapGet s.outputTypes (Ty.ref a) = some o)
    (h1 : Ty.ref o ∉ s.notedTypes) (h2 : Ty.ref o ∈ s'.notedTypes) :
    pending n s' < pending n s := by
  unfold pending
  have c1 : (List.range n).countP (unnoted s') ≤ (List.range n).countP (unnoted s) :=
    List.countP_mono_left (fun a _ => unnoted_mono h a)
  have c2 : (List.range n).countP (outUnnoted s') < (List.range n).countP (outUnnoted s) :=
    countP_lt_of_witness _ _ _ (fun a _ => outUnnoted_mono h a) a (List.mem_range.2 ha)
      (by simp [outUnnoted, hc, h1]) (by simp [outUnnoted, h.outputs _ _ hc, h2])
  omega

theorem rankOut_lt_of_tyLt {e : Ty} {a : Nat} (h : TyLt e a) : rankOut e < a + 1 := by
  cases e with
  | prim k => exact Nat.succ_pos _
  | ref b => exact Nat.succ_lt_succ h

theorem rank_le {n : Nat} {heap : List Node} (hok : HeapOK n heap) (b : Nat) :
    rank heap (Ty.ref b) ≤ 2 * b + 1 := by
  cases hn : heap[b]? with
  | none => simp only [rank, hn]; omega
  | some nd =>
    cases nd with
    | optional e =>
      cases e with
      | prim k => simp only [rank, hn]; omega
      | ref d =>
        have hd : d < b := hok.nodes b _ hn
        simp only [rank, hn]
        omega
    | output e => simp only [rank, hn]; omega
    | input e => simp only [rank, hn]; omega
    | array e => simp only [rank, hn]; omega
    | map e => simp only [rank, hn]; omega
    | union es => simp only [rank, hn]; omega
    | object tok props => simp only [rank, hn]; omega
    | enum tok => simp only [rank, hn]; omega
    | resource tok r => simp only [rank, hn]; omega
    | token tok => simp only [rank, hn]; omega

theorem rank_lt_of_tyLt {n : Nat} {heap : List Node} (hok : HeapOK n heap) {e : Ty} {a : Nat}
    (h : TyLt e a) : rank heap e < 2 * a + 1 := by
  cases e with
  | prim k => exact Nat.succ_pos _
  | ref b =>
    have h1 := rank_le hok b
    have h2 : b < a := h
    omega


/-! ## Helpers that return with enough fuel -/

theorem rankOut_le_of_tyLt {e : Ty} {a : Nat} (h : TyLt e a) : rankOut e ≤ a := by
  cases e with
  | prim k => exact Nat.zero_le _
  | ref b => exact h

theorem getRep_ok_of_bound (tp : String → String) {n : Nat} (s : GenContext)
    (hok : HeapOK n s.heap) (k : Nat) (t : Ty) (hk : rankOut t ≤ k) :
    ∃ r, getRepresentativeTypeAndPackage tp (k + 1) t s = .ok r
      ∧ ∀ R m, r.1 = some (R, m) → (mapGet r.2.goPackages m).isSome = true := by
  induction k generalizing t with
  | zero =>
    cases t with
    | prim p => exact ⟨(none, s), rfl, fun _ _ h => Option.noConfusion h⟩
    | ref a => exact absurd hk (by simp [rankOut])
  | succ k ih =>
    cases t with
    | prim p => exact ⟨(none, s), rfl, fun _ _ h => Option.noConfusion h⟩
    | ref a =>
      have ha : a ≤ k := Nat.le_of_succ_le_succ hk
      simp only [getRepresentativeTypeAndPackage]
      cases hn : s.heap[a]? with
      | none => exact ⟨(none, s), rfl, fun _ _ h => Option.noConfusion h⟩
      | some nd =>
        have hnd := hok.nodes a nd hn
        cases nd with
        | output e => exact ih e (le_trans (rankOut_le_of_tyLt hnd) ha)
        | input e => exact ih e (le_trans (rankOut_le_of_tyLt hnd) ha)
        | optional e => exact ih e (le_trans (rankOut_le_of_tyLt hnd) ha)
        | array e => exact ih e (le_trans (rankOut_le_of_tyLt hnd) ha)
        | map e => exact ih e (le_trans (rankOut_le_of_tyLt hnd) ha)
        | union es => exact ⟨(none, s), rfl, fun _ _ h => Option.noConfusion h⟩
        | object tok props =>
          refine ⟨_, rfl, fun R m h => ?_⟩
          simp only [getPackageForToken, Option.some.injEq, Prod.mk.injEq] at h
          rw [← h.2, getPackageForModule_fst]
          exact getPackageForModule_present _ _
        | enum tok =>
          refine ⟨_, rfl, fun R m h => ?_⟩
          simp only [getPackageForToken, Option.some.injEq, Prod.mk.injEq] at h
          rw [← h.2, getPackageForModule_fst]
          exact getPackageForModule_present _ _
        | resource tok r =>
          refine ⟨_, rfl, fun R m h => ?_⟩
          simp only [getPackageForToken, Option.some.injEq, Prod.mk.injEq] at h
          rw [← h.2, getPackageForModule_fst]
          exact getPackageForModule_present _ _
        | token tok =>
          refine ⟨_, rfl, fun R m h => ?_⟩
          simp only [getPackageForToken, Option.some.injEq, Prod.mk.injEq] at h
          rw [← h.2, getPackageForModule_fst]
          exact getPackageForModule_present _ _

theorem updateDetails_ok (m : String) (t : Ty) (add : TypeDetails → TypeDetails)
    (s : GenContext) (h : (mapGet s.goPackages m).isSome = true) :
    ∃ s', updateDetails (some m) t add s = .ok s' := by
  cases hm : mapGet s.goPackages m with
  | none => rw [hm] at h; exact absurd h (by simp)
  | some p =>
    simp only [updateDetails, hm]
    exact ⟨_, rfl⟩

theorem updateDetails_ne_timeout (pkg : Option String) (t : Ty)
    (add : TypeDetails → TypeDetails) (s : GenContext) :
    updateDetails pkg t add s ≠ .timeout := by
  unfold updateDetails
  cases pkg with
  | none => exact fun h => Res.noConfusion h
  | some m =>
    simp only []
    cases hm : mapGet s.goPackages m with
    | none => exact fun h => Res.noConfusion h
    | some p => exact fun h => Res.noConfusion h

theorem appendEnum_ne_timeout (pkg : Option String) (t : Nat) (s : GenContext) :
    appendEnum pkg t s ≠ .timeout := by
  unfold appendEnum
  cases pkg with
  | none => exact fun h => Res.noConfusion h
  | some m =>
    simp only []
    cases hm : mapGet s.goPackages m with
    | none => exact fun h => Res.noConfusion h
    | some p => exact fun h => Res.noConfusion h

theorem register_succeeds (tp : String → String) {n : Nat} (s : GenContext)
    (hok : HeapOK n s.heap) (t : Nat) (add : TypeDetails → TypeDetails) :
    Succeeds (fun f => register tp f t add s) := by
  obtain ⟨r, hr, hp⟩ := getRep_ok_of_bound tp s hok (t + 1) (Ty.ref t) (le_refl _)
  cases h1 : r.1 with
  | none =>
    refine ⟨t + 1 + 1, r.2, ?_⟩
    show register tp (t + 1 + 1) t add s = _
    unfold register
    rw [hr, Res.ok_bind]
    simp only [h1]
  | some x =>
    obtain ⟨R, m⟩ := x
    obtain ⟨s', hs'⟩ := updateDetails_ok m R add r.2 (hp R m h1)
    refine ⟨t + 1 + 1, s', ?_⟩
    show register tp (t + 1 + 1) t add s = _
    unfold register
    rw [hr, Res.ok_bind]
    simp only [h1]
    exact hs'

theorem getPackageForType_succeeds (tp : String → String) {n : Nat} (s : GenContext)
    (hok : HeapOK n s.heap) (t : Ty) : Succeeds (fun f => getPackageForType tp f t s) := by
  obtain ⟨r, hr, _⟩ := getRep_ok_of_bound tp s hok (rankOut t) t (le_refl _)
  refine ⟨rankOut t + 1, (r.1.map Prod.snd, r.2), ?_⟩
  show getPackageForType tp (rankOut t + 1) t s = _
  unfold getPackageForType
  rw [hr, Res.ok_bind]

theorem mapTypes_ok {n : Nat} {g : Ty → List Node → Res (Ty × List Node)}
    (hg : ∀ t hp, Sat (g t hp) (RGood n hp t)) (ts : List Ty) (hp : List Node)
    (hok : HeapOK n hp) (hv : ∀ t ∈ ts, TyLt t hp.length)
    (h : ∀ t ∈ ts, ∀ hp', HeapOK n hp' → TyLt t hp'.length → ∃ r, g t hp' = .ok r) :
    ∃ r, mapTypes g ts hp = .ok r := by
  induction ts generalizing hp with
  | nil => exact ⟨_, rfl⟩
  | cons t ts ih =>
    have hvt := hv t (List.mem_cons_self _ _)
    obtain ⟨r, hr⟩ := h t (List.mem_cons_self _ _) hp hok hvt
    have hgood := hg t hp r hr
    obtain ⟨rs, hrs⟩ := ih r.2 (hgood.2 hok hvt).1
      (fun t' ht' => TyLt.mono (hv t' (List.mem_cons_of_mem _ ht')) hgood.1.size)
      (fun t' ht' => h t' (List.mem_cons_of_mem _ ht'))
    refine ⟨(r.1 :: rs.1, rs.2), ?_⟩
    simp only [mapTypes]
    rw [hr, Res.ok_bind, hrs, Res.ok_bind]

theorem resolvedType_ok_of_bound {n : Nat} (k : Nat) (t : Ty) (hp : List Node)
    (hok : HeapOK n hp) (hk : rankOut t ≤ k) : ∃ r, ResolvedType (k + 1) t hp = .ok r := by
  induction k generalizing t hp with
  | zero =>
    cases t with
    | prim p => exact ⟨_, rfl⟩
    | ref a => exact absurd hk (by simp [rankOut])
  | succ k ih =>
    cases t with
    | prim p => exact ⟨_, rfl⟩
    | ref a =>
      have ha : a ≤ k := Nat.le_of_succ_le_succ hk
      rw [ResolvedType]
      cases hn : hp[a]? with
      | none => exact ⟨_, rfl⟩
      | some nd =>
        have hnd := hok.nodes a nd hn
        cases nd with
        | input e => exact ih e hp hok (le_trans (rankOut_le_of_tyLt hnd) ha)
        | optional e =>
          obtain ⟨r, hr⟩ := ih e hp hok (le_trans (rankOut_le_of_tyLt hnd) ha)
          simp only []
          rw [hr, Res.ok_bind]
          split <;> exact ⟨_, rfl⟩
        | array e =>
          obtain ⟨r, hr⟩ := ih e hp hok (le_trans (rankOut_le_of_tyLt hnd) ha)
          simp only []
          rw [hr, Res.ok_bind]
          split <;> exact ⟨_, rfl⟩
        | map e =>
          obtain ⟨r, hr⟩ := ih e hp hok (le_trans (rankOut_le_of_tyLt hnd) ha)
          simp only []
          rw [hr, Res.ok_bind]
          split <;> exact ⟨_, rfl⟩
        | union es =>
          obtain ⟨r, hr⟩ := mapTypes_ok (n := n) (g := ResolvedType (k + 1))
            (fun t hp => resolvedType_good n (k + 1) t hp) es hp hok
            (fun t ht => tyLt_length_of_cell hn (hnd t ht))
            (fun t ht hp' hok' _ => ih t hp' hok' (le_trans (rankOut_le_of_tyLt (hnd t ht)) ha))
          simp only []
          rw [hr, Res.ok_bind]
          split <;> exact ⟨_, rfl⟩
        | output e => exact ⟨_, rfl⟩
        | object tok props => exact ⟨_, rfl⟩
        | enum tok => exact ⟨_, rfl⟩
        | resource tok r => exact ⟨_, rfl⟩
        | token tok => exact ⟨_, rfl⟩

theorem resolvedType_succeeds {n : Nat} (t : Ty) (hp : List Node) (hok : HeapOK n hp) :
    Succeeds (fun f => ResolvedType f t hp) := by
  obtain ⟨r, hr⟩ := resolvedType_ok_of_bound (rankOut t) t hp hok (le_refl _)
  exact ⟨_, r, hr⟩


/-! ## The walk over output types returns -/

theorem forEach_mono {g : Nat → Ty → GenContext → Res GenContext}
    (hmono : ∀ t c, Mono (fun f => g f t c)) (ts : List Ty) (s : GenContext) :
    Mono (fun f => forEach (g f) ts s) :=
  fun f => forEach_le (fun t c => hmono t c f) ts s

theorem noteOutputOf_mono (tp : String → String) (e : Ty) (s : GenContext) :
    Mono (fun f => noteOutputOf (noteType tp f) e s) :=
  fun f => noteOutputOf_le (fun t s => noteType_mono tp t s f) e s

theorem forEach_succeeds {n : Nat} {g : Nat → Ty → GenContext → Res GenContext}
    (hmono : ∀ t c, Mono (fun f => g f t c)) (ts : List Ty) (s : GenContext)
    (hgood : ∀ f, ∀ t ∈ ts, ∀ c, Good n s c → Sat (g f t c) (Good n c))
    (h : ∀ t ∈ ts, ∀ c, Good n s c → Succeeds (fun f => g f t c)) :
    Succeeds (fun f => forEach (g f) ts s) := by
  induction ts generalizing s with
  | nil => exact Succeeds.constSucceeds s
  | cons t ts ih =>
    simp only [forEach]
    refine Succeeds.bindSucceeds (g := fun f => g f t s) (k := fun f c => forEach (g f) ts c)
      (hmono t s) (fun c => forEach_mono hmono ts c)
      (h t (List.mem_cons_self _ _) s (Good.reflGood n s)) (fun c f hf => ?_)
    have hc : Good n s c := hgood f t (List.mem_cons_self _ _) s (Good.reflGood n s) c hf
    exact ih c
      (fun f' t' ht' c' hc' => hgood f' t' (List.mem_cons_of_mem _ ht') c' (hc.transGood hc'))
      (fun t' ht' c' hc' => h t' (List.mem_cons_of_mem _ ht') c' (hc.transGood hc'))

theorem forEach_halts {n : Nat} {g : Nat → Ty → GenContext → Res GenContext}
    (hmono : ∀ t c, Mono (fun f => g f t c)) (ts : List Ty) (s : GenContext)
    (hgood : ∀ f, ∀ t ∈ ts, ∀ c, Good n s c → Sat (g f t c) (Good n c))
    (h : ∀ t ∈ ts, ∀ c, Good n s c → Halts (fun f => g f t c)) :
    Halts (fun f => forEach (g f) ts s) := by
  induction ts generalizing s with
  | nil => exact Halts.constHalts _ (fun hc => Res.noConfusion hc)
  | cons t ts ih =>
    simp only [forEach]
    refine Halts.bindHalts (g := fun f => g f t s) (k := fun f c => forEach (g f) ts c)
      (hmono t s) (fun c => forEach_mono hmono ts c)
      (h t (List.mem_cons_self _ _) s (Good.reflGood n s)) (fun c f hf => ?_)
    have hc : Good n s c := hgood f t (List.mem_cons_self _ _) s (Good.reflGood n s) c hf
    exact ih c
      (fun f' t' ht' c' hc' => hgood f' t' (List.mem_cons_of_mem _ ht') c' (hc.transGood hc'))
      (fun t' ht' c' hc' => h t' (List.mem_cons_of_mem _ ht') c' (hc.transGood hc'))

/-- Marking a type as noted. -/
theorem note_good (n : Nat) (s : GenContext) (t : Ty) :
    Good n s { s with notedTypes := t :: s.notedTypes } :=
  Good.of_same rfl rfl (fun _ h => List.mem_cons_of_mem _ h)

theorem noteType_output_eq (tp : String → String) (s : GenContext) (o : Nat) (e : Ty)
    (hc : s.heap[o]? = some (Node.output e)) (f : Nat) :
    noteType tp (f + 1) (Ty.ref o) s
      = if Ty.ref o ∈ s.notedTypes then Res.ok s
        else noteOutputType tp f o { s with notedTypes := Ty.ref o :: s.notedTypes } := by
  rw [noteType]
  split
  · rfl
  · simp only [hc]

theorem noteType_succeeds_of_output (tp : String → String) (s : GenContext) (o : Nat) (e : Ty)
    (hc : s.heap[o]? = some (Node.output e))
    (h : Ty.ref o ∉ s.notedTypes →
      Succeeds (fun f => noteOutputType tp f o { s with notedTypes := Ty.ref o :: s.notedTypes })) :
    Succeeds (fun f => noteType tp f (Ty.ref o) s) := by
  by_cases hn : Ty.ref o ∈ s.notedTypes
  · refine ⟨0 + 1, s, ?_⟩
    show noteType tp (0 + 1) (Ty.ref o) s = _
    rw [noteType_output_eq tp s o e hc, if_pos hn]
  · obtain ⟨f, a, hf⟩ := h hn
    refine ⟨f + 1, a, ?_⟩
    show noteType tp (f + 1) (Ty.ref o) s = _
    rw [noteType_output_eq tp s o e hc, if_neg hn]
    exact hf

theorem succeeds_then_register (tp : String → String) {n : Nat} {s : GenContext} (o : Nat)
    (add : TypeDetails → TypeDetails) {w : Nat → Res GenContext} (hm : Mono w)
    (hw : Succeeds w) (hg : ∀ f, Sat (w f) (Good n s)) (hi : Inv n s) :
    Succeeds (fun f => w f >>= fun c => register tp f o add c) :=
  Succeeds.bindSucceeds (k := fun f c => register tp f o add c) hm (fun c => register_mono tp o add c) hw
    (fun c f hf => register_succeeds tp c ((hg f c hf).2 hi).heapOK o add)

theorem noteOutputType_succeeds_aux (tp : String → String) (n : Nat) :
    ∀ P r s o X, Inv n s → pending n s ≤ P → s.heap[o]? = some (Node.output X) →
      rankOut X ≤ r → Succeeds (fun f => noteOutputType tp f o s) := by
  intro P
  induction P using Nat.strong_induction_on with
  | _ P ihP =>
    intro r
    induction r using Nat.strong_induction_on with
    | _ r ihr =>
      intro s o X hi hp hcell hr
      have hNT : ∀ c o' e, Inv n c → pending n c ≤ P → c.heap[o']? = some (Node.output e) →
          rankOut e < r → Succeeds (fun f => noteType tp f (Ty.ref o') c) := by
        intro c o' e hic hpc hc he
        refine noteType_succeeds_of_output tp c o' e hc (fun _ => ?_)
        exact ihr (rankOut e) he _ o' e ((note_good n c _).2 hic)
          (le_trans (pending_le (note_good n c _).1) hpc) hc (le_refl _)
      have hOut : ∀ c e, Inv n c → pending n c ≤ P → TyLt e c.heap.length → rankOut e < r →
          Succeeds (fun f => noteOutputOf (noteType tp f) e c) := by
        intro c e hic hpc hv he
        exact hNT _ _ e ((outputType_good n e c (fun _ => hv)).2 hic)
          (le_trans (pending_le (outputType_ext e c)) hpc) (outputType_cell n e c hic) he
      apply Succeeds.shiftSucceeds
      simp only [noteOutputType, hcell]
      cases X with
      | prim k =>
        exact succeeds_then_register tp o _ (Mono.constMono _) (Succeeds.constSucceeds s)
          (fun _ => Sat.ok (Good.reflGood n s)) hi
      | ref a =>
        simp only []
        have hra : a + 1 ≤ r := hr
        cases hna : s.heap[a]? with
        | none =>
          exact succeeds_then_register tp o _ (Mono.constMono _) (Succeeds.constSucceeds s)
            (fun _ => Sat.ok (Good.reflGood n s)) hi
        | some nd =>
          have hnd := hi.heapOK.nodes a nd hna
          cases nd with
          | optional e =>
            exact succeeds_then_register tp o _ (noteOutputOf_mono tp e s)
              (hOut s e hi hp (tyLt_length_of_cell hna hnd)
                (Nat.lt_of_lt_of_le (rankOut_lt_of_tyLt hnd) hra))
              (fun f => noteOutputOf_good (walker_good tp n f).1 e s
                (fun _ => tyLt_length_of_cell hna hnd)) hi
          | array e =>
            exact succeeds_then_register tp o _ (noteOutputOf_mono tp e s)
              (hOut s e hi hp (tyLt_length_of_cell hna hnd)
                (Nat.lt_of_lt_of_le (rankOut_lt_of_tyLt hnd) hra))
              (fun f => noteOutputOf_good (walker_good tp n f).1 e s
                (fun _ => tyLt_length_of_cell hna hnd)) hi
          | map e =>
            exact succeeds_then_register tp o _ (noteOutputOf_mono tp e s)
              (hOut s e hi hp (tyLt_length_of_cell hna hnd)
                (Nat.lt_of_lt_of_le (rankOut_lt_of_tyLt hnd) hra))
              (fun f => noteOutputOf_good (walker_good tp n f).1 e s
                (fun _ => tyLt_length_of_cell hna hnd)) hi
          | object tok props =>
            have hgood : ∀ f, ∀ p ∈ props, ∀ c, Good n s c →
                Sat (noteOutputOf (noteType tp f) p c) (Good n c) := by
              intro f p hpm c hc
              exact noteOutputOf_good (walker_good tp n f).1 p c
                (fun hic => TyLt.mono (hnd.2 p hpm) hic.heapOK.size)
            refine succeeds_then_register tp o _
              (forEach_mono (g := fun f p c => noteOutputOf (noteType tp f) p c)
                (fun p c => noteOutputOf_mono tp p c) props s)
              ?_ (fun f => forEach_good props s (hgood f)) hi
            refine forEach_succeeds (g := fun f p c => noteOutputOf (noteType tp f) p c)
              (fun p c => noteOutputOf_mono tp p c) props s hgood (fun p hpm c hc => ?_)
            have hic : Inv n c := hc.2 hi
            have hpc : pending n c ≤ P := le_trans (pending_le hc.1) hp
            have hv : TyLt p c.heap.length := TyLt.mono (hnd.2 p hpm) hic.heapOK.size
            cases p with
            | prim k => exact hOut c _ hic hpc hv (Nat.lt_of_lt_of_le (Nat.succ_pos a) hra)
            | ref b =>
              have hb : b < n := hnd.2 _ hpm
              have hic' := (outputType_good n (Ty.ref b) c (fun _ => hv)).2 hic
              refine noteType_succeeds_of_output tp _ _ (Ty.ref b)
                (outputType_cell n (Ty.ref b) c hic) (fun hnn => ?_)
              have hlt := pending_lt_of_noteOut (n := n)
                (note_good n (outputType (Ty.ref b) c).2 (Ty.ref (outputType (Ty.ref b) c).1)).1
                b (outputType (Ty.ref b) c).1 hb (outputType_caches (Ty.ref b) c) hnn
                (List.mem_cons_self _ _)
              have hle : pending n (outputType (Ty.ref b) c).2 ≤ P :=
                le_trans (pending_le (outputType_ext (Ty.ref b) c)) hpc
              exact ihP _ (Nat.lt_of_lt_of_le hlt hle) (b + 1) _ _ (Ty.ref b)
                ((note_good n _ _).2 hic') (le_refl _)
                (outputType_cell n (Ty.ref b) c hic) (le_refl _)
          | output e =>
            exact succeeds_then_register tp o _ (Mono.constMono _) (Succeeds.constSucceeds s)
              (fun _ => Sat.ok (Good.reflGood n s)) hi
          | input e =>
            exact succeeds_then_register tp o _ (Mono.constMono _) (Succeeds.constSucceeds s)
              (fun _ => Sat.ok (Good.reflGood n s)) hi
          | union es =>
            exact succeeds_then_register tp o _ (Mono.constMono _) (Succeeds.constSucceeds s)
              (fun _ => Sat.ok (Good.reflGood n s)) hi
          | enum tok =>
            exact succeeds_then_register tp o _ (Mono.constMono _) (Succeeds.constSucceeds s)
              (fun _ => Sat.ok (Good.reflGood n s)) hi
          | resource tok r =>
            exact succeeds_then_register tp o _ (Mono.constMono _) (Succeeds.constSucceeds s)
              (fun _ => Sat.ok (Good.reflGood n s)) hi
          | token tok =>
            exact succeeds_then_register tp o _ (Mono.constMono _) (Succeeds.constSucceeds s)
              (fun _ => Sat.ok (Good.reflGood n s)) hi

theorem noteOutputType_succeeds (tp : String → String) {n : Nat} (s : GenContext) (hi : Inv n s)
    (o : Nat) (X : Ty) (hc : s.heap[o]? = some (Node.output X)) :
    Succeeds (fun f => noteOutputType tp f o s) :=
  noteOutputType_succeeds_aux tp n (pending n s) (rankOut X) s o X hi (le_refl _) hc (le_refl _)

theorem noteType_output_succeeds (tp : String → String) {n : Nat} (s : GenContext)
    (hi : Inv n s) (o : Nat) (X : Ty) (hc : s.heap[o]? = some (Node.output X)) :
    Succeeds (fun f => noteType tp f (Ty.ref o) s) :=
  noteType_succeeds_of_output tp s o X hc
    (fun _ => noteOutputType_succeeds tp _ ((note_good n s _).2 hi) o X hc)


/-! ## The walk halts -/

theorem inputTail_mono (tp : String → String) (i : Nat) (e : Ty) (s1 : GenContext) :
    Mono (fun f => ResolvedType f e s1.heap >>= fun resolved =>
      noteOutputType tp f (outputType resolved.1 { s1 with heap := resolved.2 }).1
          (outputType resolved.1 { s1 with heap := resolved.2 }).2 >>= fun ctx3 =>
        register tp f i (fun d => { d with inputTypes := d.inputTypes ++ [i] }) ctx3) :=
  Mono.bindMono (resolvedType_mono e s1.heap)
    (fun _ => Mono.bindMono (noteOutputType_mono tp _ _) (fun c => register_mono tp i _ c))

theorem inputTail_halts (tp : String → String) {n : Nat} (i : Nat) (e : Ty) (s1 : GenContext)
    (hi : Inv n s1) (he : TyLt e s1.heap.length) :
    Halts (fun f => ResolvedType f e s1.heap >>= fun resolved =>
      noteOutputType tp f (outputType resolved.1 { s1 with heap := resolved.2 }).1
          (outputType resolved.1 { s1 with heap := resolved.2 }).2 >>= fun ctx3 =>
        register tp f i (fun d => { d with inputTypes := d.inputTypes ++ [i] }) ctx3) := by
  refine Halts.bindHalts (resolvedType_mono e s1.heap)
    (fun r => Mono.bindMono (noteOutputType_mono tp _ _) (fun c => register_mono tp i _ c))
    (resolvedType_succeeds e s1.heap hi.heapOK).halts (fun r f hf => ?_)
  have hr : RGood n s1.heap e r := resolvedType_good n f e s1.heap r hf
  have hi2 : Inv n { s1 with heap := r.2 } := (setHeap_good hr (fun _ => he)).2 hi
  have hi3 : Inv n (outputType r.1 { s1 with heap := r.2 }).2 :=
    (outputType_good n r.1 _ (fun _ => (hr.2 hi.heapOK he).2)).2 hi2
  refine Halts.bindHalts (noteOutputType_mono tp _ _) (fun c => register_mono tp i _ c)
    (noteOutputType_succeeds tp _ hi3 _ r.1 (outputType_cell n r.1 _ hi2)).halts
    (fun c3 f3 hf3 => ?_)
  have hi4 : Inv n c3 := ((walker_good tp n f3).2.1 _ _ c3 hf3).2 hi3
  exact (register_succeeds tp c3 hi4.heapOK i _).halts

theorem noteInputType_halts_of (tp : String → String) {n : Nat} (s : GenContext) (i : Nat)
    (e : Ty) (hcell : s.heap[i]? = some (Node.input e)) (hi : Inv n s)
    (hT : Halts (fun f => noteType tp f e s)) : Halts (fun f => noteInputType tp f i s) := by
  apply Halts.shiftHalts
  simp only [noteInputType, hcell]
  refine Halts.bindHalts (noteType_mono tp e s) (fun s1 => inputTail_mono tp i e s1) hT
    (fun s1 f hf => ?_)
  have hg : Good n s s1 := (walker_good tp n f).1 e s s1 hf
  have hi1 : Inv n s1 := hg.2 hi
  have hc1 := hg.1.heap.cells i _ hcell
  exact inputTail_halts tp i e s1 hi1 (tyLt_length_of_cell hc1 (hi1.heapOK.nodes i _ hc1))

theorem getElem?_append_two_fst (heap : List Node) (x y : Node) :
    (heap ++ [x, y])[heap.length]? = some x := by
  rw [List.getElem?_append_right (le_refl _)]
  simp

theorem getElem?_append_two_snd (heap : List Node) (x y : Node) :
    (heap ++ [x, y])[heap.length + 1]? = some y := by
  rw [List.getElem?_append_right (Nat.le_succ _)]
  simp

theorem noteType_noted_halts (tp : String → String) (s : GenContext) (t : Ty)
    (hn : t ∈ s.notedTypes) : Halts (fun f => noteType tp f t s) := by
  refine ⟨0 + 1, ?_⟩
  show noteType tp (0 + 1) t s ≠ _
  rw [noteType, if_pos hn]
  exact fun hc => Res.noConfusion hc

theorem noteType_halts_aux (tp : String → String) (n : Nat) :
    ∀ P r s t, Inv n s → pending n s ≤ P → rank s.heap t ≤ r →
      Halts (fun f => noteType tp f t s) := by
  intro P
  induction P using Nat.strong_induction_on with
  | _ P ihP =>
    intro r
    induction r using Nat.strong_induction_on with
    | _ r ihr =>
      intro s t hi hp hr
      by_cases hn : t ∈ s.notedTypes
      · exact noteType_noted_halts tp s t hn
      · have hg1 := note_good n s t
        have hi1 := hg1.2 hi
        have hp1 : pending n { s with notedTypes := t :: s.notedTypes } ≤ P :=
          le_trans (pending_le hg1.1) hp
        have hChild : ∀ c e, Inv n c → pending n c ≤ P → rank c.heap e < r →
            Halts (fun f => noteType tp f e c) :=
          fun c e hic hpc he => ihr (rank c.heap e) he c e hic hpc (le_refl _)
        apply Halts.shiftHalts
        simp only [noteType, hn, if_false]
        cases t with
        | prim k => exact Halts.constHalts _ (fun hc => Res.noConfusion hc)
        | ref a =>
          simp only []
          cases hna : s.heap[a]? with
          | none => exact Halts.constHalts _ (fun hc => Res.noConfusion hc)
          | some nd =>
            have hnd := hi.heapOK.nodes a nd hna
            cases nd with
            | output X => exact (noteOutputType_succeeds tp _ hi1 a X hna).halts
            | input e =>
              have hr' : 2 * a + 1 ≤ r := by simpa [rank, hna] using hr
              exact noteInputType_halts_of tp _ a e hna hi1
                (hChild _ e hi1 hp1 (Nat.lt_of_lt_of_le (rank_lt_of_tyLt hi.heapOK hnd) hr'))
            | array e =>
              have hr' : 2 * a + 1 ≤ r := by simpa [rank, hna] using hr
              exact hChild _ e hi1 hp1 (Nat.lt_of_lt_of_le (rank_lt_of_tyLt hi.heapOK hnd) hr')
            | map e =>
              have hr' : 2 * a + 1 ≤ r := by simpa [rank, hna] using hr
              exact hChild _ e hi1 hp1 (Nat.lt_of_lt_of_le (rank_lt_of_tyLt hi.heapOK hnd) hr')
            | union es =>
              have hr' : 2 * a + 1 ≤ r := by simpa [rank, hna] using hr
              refine forEach_halts (g := fun f t c => noteType tp f t c)
                (fun t c => noteType_mono tp t c) es _
                (fun f t _ c _ => (walker_good tp n f).1 t c) (fun e he c hc => ?_)
              exact hChild c e (hc.2 hi1) (le_trans (pending_le hc.1) hp1)
                (Nat.lt_of_lt_of_le (rank_lt_of_tyLt (hc.2 hi1).heapOK (hnd e he)) hr')
            | object tok props =>
              have hlt : pending n { s with notedTypes := Ty.ref a :: s.notedTypes }
                  < pending n s :=
                pending_lt_of_note hg1.1 a hnd.1 hn (List.mem_cons_self _ _)
              refine forEach_halts (g := fun f t c => noteType tp f t c)
                (fun t c => noteType_mono tp t c) props _
                (fun f t _ c _ => (walker_good tp n f).1 t c) (fun p _ c hc => ?_)
              exact ihP (pending n c)
                (Nat.lt_of_le_of_lt (pending_le hc.1) (Nat.lt_of_lt_of_le hlt hp))
                (rank c.heap p) c p (hc.2 hi1) (le_refl _) (le_refl _)
            | enum tok =>
              refine Halts.bindHalts (getPackageForType_mono tp _ _) (fun _ => Mono.constMono _)
                (getPackageForType_succeeds tp _ hi1.heapOK _).halts (fun p _ _ => ?_)
              exact Halts.constHalts _ (appendEnum_ne_timeout _ _ _)
            | resource tok d => exact Halts.constHalts _ (fun hc => Res.noConfusion hc)
            | token tok => exact Halts.constHalts _ (fun hc => Res.noConfusion hc)
            | optional e =>
              apply Halts.shiftHalts
              simp only [noteOptionalType, hna]
              cases hin : asInputType s.heap e with
              | none =>
                simp only []
                refine hChild _ e hi1 hp1 (Nat.lt_of_lt_of_le ?_ hr)
                cases e with
                | prim k => simp [rank, hna]
                | ref b =>
                  have := rank_le hi.heapOK b
                  simp only [rank, hna]
                  exact Nat.lt_succ_of_le this
              | some x =>
                simp only []
                obtain ⟨b, hb, hcb⟩ := asInputType_some hin
                subst hb
                have hxb : TyLt x b := hi.heapOK.nodes b _ hcb
                have hg2 := alloc2_good n { s with notedTypes := Ty.ref a :: s.notedTypes }
                  (Node.optional x) (Node.input (Ty.ref s.heap.length))
                  (fun _ => tyLt_length_of_cell hcb hxb) (fun _ => Nat.lt_succ_self _)
                have hi2 := hg2.2 hi1
                have hp2 := le_trans (pending_le hg2.1) hp1
                have hr' : 2 * b + 2 ≤ r := by simpa [rank, hna] using hr
                have hrank : rank (s.heap ++ [Node.optional x, Node.input (Ty.ref s.heap.length)])
                    (Ty.ref s.heap.length) < r := by
                  refine Nat.lt_of_lt_of_le ?_ hr'
                  cases x with
                  | prim k =>
                    simp only [rank, getElem?_append_two_fst]
                    omega
                  | ref d =>
                    have hd : d < b := hxb
                    simp only [rank, getElem?_append_two_fst]
                    omega
                refine Halts.bindHalts (noteInputType_mono tp _ _)
                  (fun c2 => Mono.bindMono (getPackageForType_mono tp _ _) (fun _ => Mono.constMono _))
                  (noteInputType_halts_of tp _ _ _ (getElem?_append_two_snd _ _ _) hi2
                    (hChild _ _ hi2 hp2 hrank)) (fun c2 f2 hf2 => ?_)
                have hi3 : Inv n c2 := ((walker_good tp n f2).2.2.1 _ _ c2 hf2).2 hi2
                refine Halts.bindHalts (getPackageForType_mono tp _ _) (fun _ => Mono.constMono _)
                  (getPackageForType_succeeds tp _ hi3.heapOK _).halts (fun p _ _ => ?_)
                exact Halts.constHalts _ (updateDetails_ne_timeout _ _ _ _)

theorem noteType_halts (tp : String → String) {n : Nat} (s : GenContext) (hi : Inv n s)
    (t : Ty) : Halts (fun f => noteType tp f t s) :=
  noteType_halts_aux tp n (pending n s) (rank s.heap t) s t hi (le_refl _) (le_refl _)


/-! ## Claims about the walker -/

theorem checkHeap_sound {n : Nat} {heap : List Node} (h : checkHeap n heap = true) (a : Nat)
    (nd : Node) (hn : heap[a]? = some nd) : NodeOK n a nd := by
  unfold checkHeap at h
  rw [List.all_eq_true] at h
  have := h a (List.mem_range.2 (lt_length_of_getElem? hn))
  rw [hn] at this
  exact of_decide_eq_true this

theorem wellFormed_new (heap : List Node) (h : checkHeap heap.length heap = true) :
    WellFormed (newGenContext heap) :=
  ⟨⟨le_refl _, fun a nd hn => checkHeap_sound h a nd hn⟩, fun _ _ hc => Option.noConfusion hc⟩

theorem halts_stable {α : Type} {g : Nat → Res α} (hm : Mono g) (h : Halts g) :
    ∃ fuel, ∀ f, fuel ≤ f → g f ≠ .timeout ∧ g f = g fuel := by
  obtain ⟨fuel, hf⟩ := h
  refine ⟨fuel, fun f hle => ?_⟩
  have e := hm.eq_of_le hle hf
  exact ⟨by rw [e]; exact hf, e⟩

theorem noteType_notes (tp : String → String) (f : Nat) (t : Ty) (s : GenContext) :
    Sat (noteType tp f t s) (fun s' => t ∈ s'.notedTypes) := by
  cases f with
  | zero => exact fun _ h => Res.noConfusion h
  | succ f =>
    rw [noteType]
    split
    · rename_i hn
      exact Sat.ok hn
    · have hm : t ∈ ({ s with notedTypes := t :: s.notedTypes } : GenContext).notedTypes :=
        List.mem_cons_self _ _
      have key : ∀ r : Res GenContext,
          Sat r (Good 0 { s with notedTypes := t :: s.notedTypes }) →
          Sat r (fun s' => t ∈ s'.notedTypes) := fun r hr => hr.mp (fun _ hg => hg.1.noted t hm)
      cases t with
      | prim k => exact Sat.ok hm
      | ref a =>
        simp only []
        cases hna : s.heap[a]? with
        | none => exact Sat.ok hm
        | some nd =>
          cases nd with
          | output e => exact key _ ((walker_good tp 0 f).2.1 _ _)
          | input e => exact key _ ((walker_good tp 0 f).2.2.1 _ _)
          | optional e => exact key _ ((walker_good tp 0 f).2.2.2 _ _)
          | array e => exact key _ ((walker_good tp 0 f).1 _ _)
          | map e => exact key _ ((walker_good tp 0 f).1 _ _)
          | union es =>
            exact key _ (forEach_good es _ (fun t _ c _ => (walker_good tp 0 f).1 t c))
          | object tok props =>
            exact key _ (forEach_good props _ (fun t _ c _ => (walker_good tp 0 f).1 t c))
          | enum tok =>
            exact key _ (Sat.bindSat (getPackageForType_good tp 0 f _ _)
              (fun p hp => Sat.trans_good hp (appendEnum_good 0 _ _ _)))
          | resource tok r => exact Sat.ok hm
          | token tok => exact Sat.ok hm

theorem noteType_again (tp : String → String) (f : Nat) (t : Ty) (s : GenContext) :
    (noteType tp f t s >>= fun c => noteType tp f t c) = noteType tp f t s := by
  cases hr : noteType tp f t s with
  | ok s' =>
    rw [Res.ok_bind]
    have hn : t ∈ s'.notedTypes := noteType_notes tp f t s s' hr
    cases f with
    | zero => exact absurd hr (fun hc => Res.noConfusion hc)
    | succ f => rw [noteType, if_pos hn]
  | nilDeref => rfl
  | badRef => rfl
  | timeout => rfl

/-- C4 (termination on cycles): on every well-formed registry, whose type
graph may contain object types that refer to themselves through their
properties, directly or through wrappers, `noteType(t)` terminates: from some
amount of fuel on the walk reaches an outcome, and more fuel does not change
that outcome.  The model includes the direct calls of `noteOutputType` and
`noteInputType` that bypass the noted set and the nodes allocated during the
walk. -/
theorem noteType_terminates (tp : String → String) (ctx : GenContext) (hwf : WellFormed ctx)
    (t : Ty) :
    ∃ fuel, ∀ f, fuel ≤ f →
      noteType tp f t ctx ≠ .timeout ∧ noteType tp f t ctx = noteType tp fuel t ctx :=
  halts_stable (noteType_mono tp t ctx) (noteType_halts tp ctx hwf t)

/-- Witness for C4: an object whose only property has type
`Optional(InputOf(Object))`, the object itself. -/
theorem noteType_terminates_witness :
    WellFormed (newGenContext
      [Node.object "p:m:O" [Ty.ref 2], Node.input (Ty.ref 0), Node.optional (Ty.ref 1)])
    ∧ ∃ fuel, ∀ f, fuel ≤ f →
      noteType id f (Ty.ref 0) (newGenContext
        [Node.object "p:m:O" [Ty.ref 2], Node.input (Ty.ref 0), Node.optional (Ty.ref 1)])
        ≠ .timeout
      ∧ noteType id f (Ty.ref 0) (newGenContext
        [Node.object "p:m:O" [Ty.ref 2], Node.input (Ty.ref 0), Node.optional (Ty.ref 1)])
        = noteType id fuel (Ty.ref 0) (newGenContext
        [Node.object "p:m:O" [Ty.ref 2], Node.input (Ty.ref 0), Node.optional (Ty.ref 1)]) :=
  ⟨wellFormed_new _ (by decide),
    noteType_terminates id _ (wellFormed_new _ (by decide)) (Ty.ref 0)⟩

/-- C2 (idempotent noting): on every well-formed registry there is an amount
of fuel from which `noteType(t)` reaches an outcome, and running `noteType(t)`
twice in a row has the same outcome, including the whole resulting registry
(noted set, partitions, enum lists, usage details), as running it once. -/
theorem noteType_idempotent (tp : String → String) (ctx : GenContext) (hwf : WellFormed ctx)
    (t : Ty) :
    ∃ fuel, ∀ f, fuel ≤ f →
      noteType tp f t ctx ≠ .timeout
      ∧ (noteType tp f t ctx >>= fun c => noteType tp f t c) = noteType tp f t ctx := by
  obtain ⟨fuel, h⟩ := halts_stable (noteType_mono tp t ctx) (noteType_halts tp ctx hwf t)
  exact ⟨fuel, fun f hf => ⟨(h f hf).1, noteType_again tp f t ctx⟩⟩

/-- Witness for C2: the self-referential object of the witness for C4. -/
theorem noteType_idempotent_witness :
    WellFormed (newGenContext
      [Node.object "p:m:O" [Ty.ref 2], Node.input (Ty.ref 0), Node.optional (Ty.ref 1)])
    ∧ ∃ fuel, ∀ f, fuel ≤ f →
      noteType id f (Ty.ref 0) (newGenContext
        [Node.object "p:m:O" [Ty.ref 2], Node.input (Ty.ref 0), Node.optional (Ty.ref 1)])
        ≠ .timeout
      ∧ (noteType id f (Ty.ref 0) (newGenContext
          [Node.object "p:m:O" [Ty.ref 2], Node.input (Ty.ref 0), Node.optional (Ty.ref 1)])
          >>= fun c => noteType id f (Ty.ref 0) c)
        = noteType id f (Ty.ref 0) (newGenContext
          [Node.object "p:m:O" [Ty.ref 2], Node.input (Ty.ref 0), Node.optional (Ty.ref 1)]) :=
  ⟨wellFormed_new _ (by decide),
    noteType_idempotent id _ (wellFormed_new _ (by decide)) (Ty.ref 0)⟩


/-! ## Output closure for objects -/

theorem Sat.and {α : Type} {r : Res α} {P Q : α → Prop} (h1 : Sat r P) (h2 : Sat r Q) :
    Sat r (fun a => P a ∧ Q a) := fun a ha => ⟨h1 a ha, h2 a ha⟩

theorem forEach_all {n : Nat} {g : Ty → GenContext → Res GenContext}
    {Q : Ty → GenContext → Prop} (hQ : ∀ t c c', Q t c → Good n c c' → Q t c')
    (ts : List Ty) (s : GenContext)
    (hgood : ∀ t ∈ ts, ∀ c, Good n s c → Sat (g t c) (Good n c))
    (hpost : ∀ t ∈ ts, ∀ c, Good n s c → Sat (g t c) (Q t)) :
    Sat (forEach g ts s) (fun s' => ∀ t ∈ ts, Q t s') := by
  induction ts generalizing s with
  | nil => exact Sat.ok (fun t ht => by cases ht)
  | cons t ts ih =>
    simp only [forEach]
    have h0 := (hgood t (List.mem_cons_self _ _) s (Good.reflGood n s)).and
      (hpost t (List.mem_cons_self _ _) s (Good.reflGood n s))
    refine Sat.bindSat h0 (fun s1 h1 => ?_)
    have hg' : ∀ t' ∈ ts, ∀ c, Good n s1 c → Sat (g t' c) (Good n c) :=
      fun t' ht' c hc => hgood t' (List.mem_cons_of_mem _ ht') c (h1.1.transGood hc)
    have ih' := ih s1 hg'
      (fun t' ht' c hc => hpost t' (List.mem_cons_of_mem _ ht') c (h1.1.transGood hc))
    refine ((forEach_good ts s1 hg').and ih').mp (fun s' h' x hx => ?_)
    rcases List.mem_cons.1 hx with hx | hx
    · subst hx
      exact hQ _ _ _ h1.2 h'.1
    · exact h'.2 x hx

theorem OutputNoted.ext {p : Ty} {c c' : GenContext} (h : OutputNoted p c) (he : Ext c c') :
    OutputNoted p c' := by
  obtain ⟨o, h1, h2⟩ := h
  exact ⟨o, he.outputs _ _ h1, he.noted _ h2⟩

theorem noteOutputOf_noted (tp : String → String) (f : Nat) (p : Ty) (c : GenContext) :
    Sat (noteOutputOf (noteType tp f) p c) (OutputNoted p) := by
  intro s' hs'
  have hg : Good 0 (outputType p c).2 s' := (walker_good tp 0 f).1 _ _ s' hs'
  exact ⟨(outputType p c).1, hg.1.outputs _ _ (outputType_caches p c),
    noteType_notes tp f _ _ s' hs'⟩

theorem outputType_noted (e : Ty) (s : GenContext) :
    (outputType e s).2.notedTypes = s.notedTypes := by
  unfold outputType
  split <;> rfl

theorem updateDetails_registers (m : String) (R : Ty) (o : Nat) (c s' : GenContext)
    (h : updateDetails (some m) R (fun d => { d with outputTypes := d.outputTypes ++ [o] }) c
      = .ok s') : RegisteredOutLast s' m R o := by
  unfold updateDetails at h
  simp only [] at h
  cases hm : mapGet c.goPackages m with
  | none => rw [hm] at h; exact Res.noConfusion h
  | some p =>
    rw [hm] at h
    simp only [Res.ok.injEq] at h
    subst h
    refine ⟨_, _, (detailsForType p R).1.outputTypes, mapGet_mapSet_self _ _ _,
      mapGet_mapSet_self _ _ _, rfl⟩

theorem getRep_output_object (tp : String → String) (f : Nat) (s : GenContext) (o a : Nat)
    (tok : String) (props : List Ty) (hco : s.heap[o]? = some (Node.output (Ty.ref a)))
    (hca : s.heap[a]? = some (Node.object tok props))
    (r : Option (Ty × String) × GenContext)
    (h : getRepresentativeTypeAndPackage tp f (Ty.ref o) s = .ok r) :
    r = (some (Ty.ref a, tp tok), (getPackageForModule (tp tok) s).2) := by
  have h2 : getRepresentativeTypeAndPackage tp 2 (Ty.ref o) s
      = .ok (some (Ty.ref a, tp tok), (getPackageForModule (tp tok) s).2) := by
    simp [getRepresentativeTypeAndPackage, hco, hca, getPackageForToken,
      getPackageForModule_fst]
  have hm := getRep_mono tp (Ty.ref o) s
  have e1 := hm.eq_of_le (le_max_left f 2) (by rw [h]; exact fun hc => Res.noConfusion hc)
  have e2 := hm.eq_of_le (le_max_right f 2) (by rw [h2]; exact fun hc => Res.noConfusion hc)
  have e3 : Res.ok r = Res.ok (some (Ty.ref a, tp tok), (getPackageForModule (tp tok) s).2) := by
    rw [← h, ← h2]
    exact e1.symm.trans e2
  exact Res.ok.inj e3

/-- C6 (output closure for objects): on a fresh registry over a well-formed
type graph, for an object `O` (at address `a`) with properties `props`,
`noteType(outputType(O))` returns a registry with every amount of fuel from
some amount on; in that registry `outputType(O)` is noted and is the last
entry of the `outputTypes` list of `O` in the partition of `O`'s token, and for
every property type `p` the canonical node `outputType(p)` already exists and
is noted. -/
theorem output_closure (tp : String → String) (heap : List Node)
    (hwf : WellFormed (newGenContext heap)) (a : Nat) (tok : String) (props : List Ty)
    (hO : heap[a]? = some (Node.object tok props)) :
    ∃ fuel s',
      (∀ f, fuel ≤ f →
        noteType tp f (Ty.ref (outputType (Ty.ref a) (newGenContext heap)).1)
          (outputType (Ty.ref a) (newGenContext heap)).2 = .ok s')
      ∧ Ty.ref (outputType (Ty.ref a) (newGenContext heap)).1 ∈ s'.notedTypes
      ∧ RegisteredOutLast s' (tp tok) (Ty.ref a) (outputType (Ty.ref a) (newGenContext heap)).1
      ∧ ∀ p ∈ props, (outputType p s').2 = s' ∧ Ty.ref (outputType p s').1 ∈ s'.notedTypes := by
  have hv : TyLt (Ty.ref a) (newGenContext heap).heap.length := lt_length_of_getElem? hO
  have hi0 : Inv heap.length (outputType (Ty.ref a) (newGenContext heap)).2 :=
    (outputType_good heap.length _ _ (fun _ => hv)).2 hwf
  have hco := outputType_cell heap.length (Ty.ref a) (newGenContext heap) hwf
  have hca : (outputType (Ty.ref a) (newGenContext heap)).2.heap[a]?
      = some (Node.object tok props) :=
    (outputType_ext (Ty.ref a) (newGenContext heap)).heap.cells a _ hO
  obtain ⟨f0, s', hrun⟩ := noteType_output_succeeds tp _ hi0 _ (Ty.ref a) hco
  have hrun0 : noteType tp f0 (Ty.ref (outputType (Ty.ref a) (newGenContext heap)).1)
      (outputType (Ty.ref a) (newGenContext heap)).2 = .ok s' := hrun
  have hnn : Ty.ref (outputType (Ty.ref a) (newGenContext heap)).1
      ∉ (outputType (Ty.ref a) (newGenContext heap)).2.notedTypes := by
    rw [outputType_noted]
    exact List.not_mem_nil _
  have hnoted := noteType_notes tp f0 _ _ s' hrun0
  refine ⟨f0, s', fun f hf => ?_, hnoted, ?_⟩
  · rw [(noteType_mono tp _ _).eq_of_le hf (by rw [hrun0]; exact fun hc => Res.noConfusion hc)]
    exact hrun0
  cases f0 with
  | zero => exact absurd hrun0 (fun hc => Res.noConfusion hc)
  | succ f1 =>
    rw [noteType_output_eq tp _ _ (Ty.ref a) hco, if_neg hnn] at hrun0
    cases f1 with
    | zero => exact absurd hrun0 (fun hc => Res.noConfusion hc)
    | succ f2 =>
      simp only [noteOutputType, hco, hca] at hrun0
      obtain ⟨s2, hfe, hreg⟩ := (Res.bind_eq_ok _ _ _).1 hrun0
      have hnd := hi0.heapOK.nodes a _ hca
      have hgood : ∀ p ∈ props, ∀ c,
          Good heap.length { (outputType (Ty.ref a) (newGenContext heap)).2 with
            notedTypes := Ty.ref (outputType (Ty.ref a) (newGenContext heap)).1 ::
              (outputType (Ty.ref a) (newGenContext heap)).2.notedTypes } c →
          Sat (noteOutputOf (noteType tp f2) p c) (Good heap.length c) :=
        fun p hpm c _ => noteOutputOf_good (walker_good tp heap.length f2).1 p c
          (fun hic => TyLt.mono (hnd.2 p hpm) hic.heapOK.size)
      have hall := forEach_all (Q := OutputNoted) (fun t c c' hq hg => hq.ext hg.1) props _
        hgood (fun p _ c _ => noteOutputOf_noted tp f2 p c) s2 hfe
      have hg1 := forEach_good props _ hgood s2 hfe
      have hg2 : Good heap.length s2 s' := register_good tp heap.length f2 _ _ s2 s' hreg
      refine ⟨?_, fun p hp => ?_⟩
      · unfold register at hreg
        obtain ⟨r, hr, hm⟩ := (Res.bind_eq_ok _ _ _).1 hreg
        have hr' := getRep_output_object tp f2 s2 _ a tok props
          (hg1.1.heap.cells _ _ hco) (hg1.1.heap.cells _ _ hca) r hr
        subst hr'
        exact updateDetails_registers _ _ _ _ _ hm
      · obtain ⟨o, h1, h2⟩ := (hall p hp).ext hg2.1
        rw [outputType_of_cached p s' o h1]
        exact ⟨rfl, h2⟩


/-! ## Evaluations at concrete inputs -/

theorem Mono.eval {α : Type} {g : Nat → Res α} (hm : Mono g) {f0 : Nat} {r : Res α}
    (h : g f0 = r) (hne : r ≠ .timeout) (k : Nat) : g (f0 + k) = r := by
  rw [hm.eq_of_le (Nat.le_add_right f0 k) (by rw [h]; exact hne)]
  exact h

/-- Witness for C6: an object with a primitive property and a property of
type `Array(Object)`, the object itself. -/
theorem output_closure_witness :
    WellFormed (newGenContext [Node.object "p:m:O" [Ty.prim 0, Ty.ref 1], Node.array (Ty.ref 0)])
    ∧ ∃ fuel s',
      (∀ f, fuel ≤ f →
        noteType id f (Ty.ref (outputType (Ty.ref 0) (newGenContext
            [Node.object "p:m:O" [Ty.prim 0, Ty.ref 1], Node.array (Ty.ref 0)])).1)
          (outputType (Ty.ref 0) (newGenContext
            [Node.object "p:m:O" [Ty.prim 0, Ty.ref 1], Node.array (Ty.ref 0)])).2 = .ok s')
      ∧ Ty.ref (outputType (Ty.ref 0) (newGenContext
          [Node.object "p:m:O" [Ty.prim 0, Ty.ref 1], Node.array (Ty.ref 0)])).1 ∈ s'.notedTypes
      ∧ RegisteredOutLast s' (id "p:m:O") (Ty.ref 0) (outputType (Ty.ref 0) (newGenContext
          [Node.object "p:m:O" [Ty.prim 0, Ty.ref 1], Node.array (Ty.ref 0)])).1
      ∧ ∀ p ∈ [Ty.prim 0, Ty.ref 1],
          (outputType p s').2 = s' ∧ Ty.ref (outputType p s').1 ∈ s'.notedTypes :=
  ⟨wellFormed_new _ (by decide),
    output_closure id _ (wellFormed_new _ (by decide)) 0 "p:m:O" [Ty.prim 0, Ty.ref 1] rfl⟩

theorem eval_optionalInputPrim :
    noteType id 8 (Ty.ref 1)
      (newGenContext [Node.input (Ty.prim 0), Node.optional (Ty.ref 0)]) = Res.nilDeref := by
  rfl

theorem eval_inputObject :
    noteType id 5 (Ty.ref 1)
      (newGenContext [Node.object "p:m:O" [], Node.input (Ty.ref 0)])
    = Res.ok
      { heap := [Node.object "p:m:O" [], Node.input (Ty.ref 0), Node.output (Ty.ref 0)],
        goPackages := [("p:m:O",
          { mod := "p:m:O",
            typeDetails := [(Ty.ref 0, { inputTypes := [1], outputTypes := [2] })] })],
        outputTypes := [(Ty.ref 0, 2)],
        notedTypes := [Ty.ref 0, Ty.ref 1] } := by
  rfl

theorem eval_inputThenOutput :
    (noteType id 5 (Ty.ref 1)
        (newGenContext [Node.object "p:m:O" [], Node.input (Ty.ref 0)]) >>= fun c =>
      noteOutputOf (noteType id 5) (Ty.ref 0) c)
    = Res.ok
      { heap := [Node.object "p:m:O" [], Node.input (Ty.ref 0), Node.output (Ty.ref 0)],
        goPackages := [("p:m:O",
          { mod := "p:m:O",
            typeDetails := [(Ty.ref 0, { inputTypes := [1], outputTypes := [2, 2] })] })],
        outputTypes := [(Ty.ref 0, 2)],
        notedTypes := [Ty.ref 2, Ty.ref 0, Ty.ref 1] } := by
  rfl

set_option maxHeartbeats 4000000 in
theorem eval_optionalInputArray :
    noteType id 10 (Ty.ref 3)
      (newGenContext [Node.object "p:m:O" [], Node.array (Ty.ref 0), Node.input (Ty.ref 1),
        Node.optional (Ty.ref 2)])
    = Res.ok
      { heap := [Node.object "p:m:O" [], Node.array (Ty.ref 0), Node.input (Ty.ref 1),
          Node.optional (Ty.ref 2), Node.optional (Ty.ref 1), Node.input (Ty.ref 4),
          Node.output (Ty.ref 4), Node.output (Ty.ref 1), Node.output (Ty.ref 0)],
        goPackages := [("p:m:O",
          { mod := "p:m:O",
            typeDetails := [
              (Ty.ref 0, { optionalInputType := false, inputTypes := [5],
                           outputTypes := [8, 7, 6] }),
              (Ty.ref 1, { optionalInputType := true, inputTypes := [], outputTypes := [] })] })],
        outputTypes := [(Ty.ref 4, 6), (Ty.ref 1, 7), (Ty.ref 0, 8)],
        notedTypes := [Ty.ref 8, Ty.ref 7, Ty.ref 0, Ty.ref 1, Ty.ref 4, Ty.ref 3] } := by
  rfl

/-- C3 (the walker has no failure modes) fails: the type graph
`Optional(InputOf(string))` is well-formed, and `noteType` of it on a fresh
registry ends, with 8 or more units of fuel, in the dereference of the nil
partition of the primitive element type in `noteOptionalType`. -/
theorem optional_input_of_primitive_fails (k : Nat) :
    WellFormed (newGenContext [Node.input (Ty.prim 0), Node.optional (Ty.ref 0)])
    ∧ noteType id (8 + k) (Ty.ref 1)
        (newGenContext [Node.input (Ty.prim 0), Node.optional (Ty.ref 0)]) = Res.nilDeref :=
  ⟨wellFormed_new _ (by decide),
    (noteType_mono id _ _).eval eval_optionalInputPrim (fun hc => Res.noConfusion hc) k⟩

/-- C5 (optional-input push-through) fails for a wrapped element type: for
`E = Array(O)`, `noteType(Optional(InputOf(E)))` on a fresh registry registers
the new `InputOf(Optional(E))` node 5 under the representative `O` (cell 0),
but sets `optionalInputType` on a record keyed by `E` itself (cell 1); the
record of `O` keeps `optionalInputType = false`. -/
theorem optional_input_flag_on_element (k : Nat) :
    WellFormed (newGenContext [Node.object "p:m:O" [], Node.array (Ty.ref 0),
      Node.input (Ty.ref 1), Node.optional (Ty.ref 2)])
    ∧ noteType id (10 + k) (Ty.ref 3)
      (newGenContext [Node.object "p:m:O" [], Node.array (Ty.ref 0), Node.input (Ty.ref 1),
        Node.optional (Ty.ref 2)])
    = Res.ok
      { heap := [Node.object "p:m:O" [], Node.array (Ty.ref 0), Node.input (Ty.ref 1),
          Node.optional (Ty.ref 2), Node.optional (Ty.ref 1), Node.input (Ty.ref 4),
          Node.output (Ty.ref 4), Node.output (Ty.ref 1), Node.output (Ty.ref 0)],
        goPackages := [("p:m:O",
          { mod := "p:m:O",
            typeDetails := [
              (Ty.ref 0, { optionalInputType := false, inputTypes := [5],
                           outputTypes := [8, 7, 6] }),
              (Ty.ref 1, { optionalInputType := true, inputTypes := [], outputTypes := [] })] })],
        outputTypes := [(Ty.ref 4, 6), (Ty.ref 1, 7), (Ty.ref 0, 8)],
        notedTypes := [Ty.ref 8, Ty.ref 7, Ty.ref 0, Ty.ref 1, Ty.ref 4, Ty.ref 3] } :=
  ⟨wellFormed_new _ (by decide),
    (noteType_mono id _ _).eval eval_optionalInputArray (fun hc => Res.noConfusion hc) k⟩

/-- C7 (each node is processed once) fails: for an object `O` without
properties, `noteType(InputOf(O))` followed by `noteType(outputType(O))` on a
fresh registry leaves the node `outputType(O)` (cell 2) twice on the
`outputTypes` list of `O`. -/
theorem output_registered_twice (k : Nat) :
    WellFormed (newGenContext [Node.object "p:m:O" [], Node.input (Ty.ref 0)])
    ∧ (noteType id (5 + k) (Ty.ref 1)
        (newGenContext [Node.object "p:m:O" [], Node.input (Ty.ref 0)]) >>= fun c =>
      noteOutputOf (noteType id (5 + k)) (Ty.ref 0) c)
    = Res.ok
      { heap := [Node.object "p:m:O" [], Node.input (Ty.ref 0), Node.output (Ty.ref 0)],
        goPackages := [("p:m:O",
          { mod := "p:m:O",
            typeDetails := [(Ty.ref 0, { inputTypes := [1], outputTypes := [2, 2] })] })],
        outputTypes := [(Ty.ref 0, 2)],
        notedTypes := [Ty.ref 2, Ty.ref 0, Ty.ref 1] } :=
  ⟨wellFormed_new _ (by decide),
    (Mono.bindMono (k := fun f c => noteOutputOf (noteType id f) (Ty.ref 0) c)
      (noteType_mono id _ _) (fun c => noteOutputOf_mono id _ c)).eval
      eval_inputThenOutput (fun hc => Res.noConfusion hc) k⟩

/-- C8 (input walk) fails in its noted-set part: for an object `O` without
properties, `noteType(InputOf(O))` on a fresh registry notes `O` and
`InputOf(O)`, registers `InputOf(O)` (cell 1) and the canonical
`outputType(O)` (cell 2) under `O`, but does not put `outputType(O)` into the
noted set. -/
theorem input_walk_output_not_noted (k : Nat) :
    WellFormed (newGenContext [Node.object "p:m:O" [], Node.input (Ty.ref 0)])
    ∧ noteType id (5 + k) (Ty.ref 1)
      (newGenContext [Node.object "p:m:O" [], Node.input (Ty.ref 0)])
    = Res.ok
      { heap := [Node.object "p:m:O" [], Node.input (Ty.ref 0), Node.output (Ty.ref 0)],
        goPackages := [("p:m:O",
          { mod := "p:m:O",
            typeDetails := [(Ty.ref 0, { inputTypes := [1], outputTypes := [2] })] })],
        outputTypes := [(Ty.ref 0, 2)],
        notedTypes := [Ty.ref 0, Ty.ref 1] } :=
  ⟨wellFormed_new _ (by decide),
    (noteType_mono id _ _).eval eval_inputObject (fun hc => Res.noConfusion hc) k⟩


/-- C20 (bookkeeping consistency) fails: after `noteType` of
`Optional(InputOf(Array(O)))` on a fresh registry, with 10 or more units of
fuel, the usage-details map of the partition of `O` has the key `Array(O)`
(cell 1), which is no nominal type: it has no token. -/
theorem details_key_not_nominal (k : Nat) :
    WellFormed (newGenContext [Node.object "p:m:O" [], Node.array (Ty.ref 0),
      Node.input (Ty.ref 1), Node.optional (Ty.ref 2)])
    ∧ ∃ s' p d,
      noteType id (10 + k) (Ty.ref 3)
        (newGenContext [Node.object "p:m:O" [], Node.array (Ty.ref 0), Node.input (Ty.ref 1),
          Node.optional (Ty.ref 2)]) = Res.ok s'
      ∧ mapGet s'.goPackages (id "p:m:O") = some p
      ∧ mapGet p.typeDetails (Ty.ref 1) = some d
      ∧ s'.heap[1]? = some (Node.array (Ty.ref 0))
      ∧ nominalToken s'.heap (Ty.ref 1) = none :=
  ⟨wellFormed_new _ (by decide), _, _, _,
    (noteType_mono id _ _).eval eval_optionalInputArray (fun hc => Res.noConfusion hc) k,
    rfl, rfl, rfl, rfl⟩

end GoGen

/-! ## Invocation binder: lemmas -/

namespace Pcl

theorem Outcome.ok_bindOutcome {α β : Type} (a : α) (k : α → Outcome β) :
    (Outcome.ok a).bind k = k a := rfl

theorem makeSignature_parameters (argsType returnType : ModelType) :
    (makeSignature argsType returnType).Parameters =
      [{ Name := "token", paramType := .StringType },
       { Name := "args", paramType := argsType },
       { Name := "provider", paramType := .OptionalType .StringType }] := rfl

/-- The value of `useOutputVersion` for a function whose inputs are present. -/
theorem useOutputVersion_of_inputs (x : Externals) (b : binder) (fn : Function)
    (a : Expression) (inputs : ObjectType) (hin : fn.Inputs = some inputs) :
    useOutputVersion x b fn a = .ok (decide (fn.NeedsOutputVersion = true
      ∧ x.ConversionFrom (b.schemaTypeToType (some inputs)) a.exprType = .NoConversion
      ∧ x.ConversionFrom (b.schemaTypeToType inputs.InputShape) a.exprType
          = .SafeConversion)) := by
  unfold useOutputVersion
  rw [hin]
  by_cases hn : fn.NeedsOutputVersion = true
  · by_cases hc : x.ConversionFrom (b.schemaTypeToType (some inputs)) a.exprType = .NoConversion
        ∧ x.ConversionFrom (b.schemaTypeToType inputs.InputShape) a.exprType = .SafeConversion
    · simp [hn, hc.1, hc.2]
    · simp only [hn, if_true, if_neg hc]
      have : ¬ (True ∧ x.ConversionFrom (b.schemaTypeToType (some inputs)) a.exprType
          = .NoConversion
        ∧ x.ConversionFrom (b.schemaTypeToType inputs.InputShape) a.exprType
          = .SafeConversion) := fun h => hc h.2
      simp [this]
  · simp [hn]

/-- Without the capability the regular signature is returned. -/
theorem signatureForArgs_regular (x : Externals) (b : binder) (fn : Function)
    (a : Expression) (hn : fn.NeedsOutputVersion = false) :
    signatureForArgs x b fn a = .ok (.ok (regularSignature b fn)) := by
  simp [signatureForArgs, useOutputVersion, hn, Outcome.bind]

/-- The two results of `signatureForArgs` for a function whose inputs are
present. -/
theorem signatureForArgs_of_inputs (x : Externals) (b : binder) (fn : Function)
    (a : Expression) (inputs : ObjectType) (hin : fn.Inputs = some inputs) :
    signatureForArgs x b fn a =
      if fn.NeedsOutputVersion = true
        ∧ x.ConversionFrom (b.schemaTypeToType (some inputs)) a.exprType = .NoConversion
        ∧ x.ConversionFrom (b.schemaTypeToType inputs.InputShape) a.exprType = .SafeConversion
      then .ok (.ok (makeSignature (b.schemaTypeToType inputs.InputShape)
        (.OutputType (b.schemaTypeToType fn.Outputs))))
      else .ok (.ok (regularSignature b fn)) := by
  unfold signatureForArgs
  rw [useOutputVersion_of_inputs x b fn a inputs hin, Outcome.ok_bindOutcome]
  split
  · rename_i hc
    have hc' := of_decide_eq_true hc
    rw [if_pos hc']
    simp [outputVersionSignature, hc'.1, hin]
  · rename_i hc
    have hc' : ¬ _ := fun h => hc (decide_eq_true h)
    rw [if_neg hc']

/-- The method `signatureForArgs` never returns an error. -/
theorem signatureForArgs_ne_error (x : Externals) (b : binder) (fn : Function)
    (a : Expression) (err : String) :
    signatureForArgs x b fn a ≠ .ok (.error err) := by
  cases hin : fn.Inputs with
  | none =>
    cases hn : fn.NeedsOutputVersion with
    | false => rw [signatureForArgs_regular x b fn a hn]; intro h; cases h
    | true =>
      simp [signatureForArgs, useOutputVersion, hn, hin, Outcome.bind]
  | some inputs =>
    rw [signatureForArgs_of_inputs x b fn a inputs hin]
    split <;> (intro h; cases h)

/-- A signature returned by `signatureForArgs` is made by `makeSignature`. -/
theorem signatureForArgs_made (x : Externals) (b : binder) (fn : Function)
    (a : Expression) (sig : StaticFunctionSignature)
    (h : signatureForArgs x b fn a = .ok (.ok sig)) :
    ∃ argsType returnType, sig = makeSignature argsType returnType := by
  cases hin : fn.Inputs with
  | none =>
    cases hn : fn.NeedsOutputVersion with
    | false =>
      rw [signatureForArgs_regular x b fn a hn] at h
      cases h
      exact ⟨_, _, rfl⟩
    | true =>
      simp [signatureForArgs, useOutputVersion, hn, hin, Outcome.bind] at h
  | some inputs =>
    rw [signatureForArgs_of_inputs x b fn a inputs hin] at h
    split at h
    · cases h; exact ⟨_, _, rfl⟩
    · cases h; exact ⟨_, _, rfl⟩

/-- A well-formed function has a signature for every argument. -/
theorem signatureForArgs_returns (x : Externals) (b : binder) (fn : Function)
    (a : Expression) (hwf : fn.WellFormed) :
    ∃ sig, signatureForArgs x b fn a = .ok (.ok sig) := by
  cases hn : fn.NeedsOutputVersion with
  | false => exact ⟨_, signatureForArgs_regular x b fn a hn⟩
  | true =>
    have h := (hwf hn).1
    cases hin : fn.Inputs with
    | none => rw [hin] at h; cases h
    | some inputs =>
      rw [signatureForArgs_of_inputs x b fn a inputs hin]
      split
      · exact ⟨_, rfl⟩
      · exact ⟨_, rfl⟩

/-- The shape of every result of `bindInvokeSignature`: the placeholder with
diagnostics of the first four kinds, or a signature of `signatureForArgs`
without diagnostics. -/
theorem bindInvokeSignature_cases (x : Externals) (b : binder) (args : List Expression)
    (sig : StaticFunctionSignature) (diags : List Diagnostic) (args1 : List Expression)
    (h : bindInvokeSignature x b args = .ok (sig, diags, args1)) :
    (sig = zeroSignature ∧ ∀ r e, Diagnostic.invokeBindingError r e ∉ diags)
    ∨ (diags = [] ∧ ∃ fn arg1, signatureForArgs x b fn arg1 = .ok (.ok sig)) := by
  unfold bindInvokeSignature at h
  split at h
  · cases h; left; simp
  · split at h
    · split at h
      · cases h; left; simp
      · split at h
        · cases h; left; simp
        · split at h
          · cases h
          · simp only [] at h
            split at h
            · cases h; left; simp
            · split at h
              · cases h; left; simp
              · split at h
                · cases h; left; simp
                · split at h
                  · cases h
                  · rename_i fn canon _ _ arg1 _
                    cases hs : signatureForArgs x b fn arg1 with
                    | ok r =>
                      rw [hs, Outcome.ok_bindOutcome] at h
                      cases r with
                      | error err => exact absurd hs (signatureForArgs_ne_error x b fn arg1 err)
                      | ok s =>
                        simp only [] at h
                        cases h
                        right
                        exact ⟨rfl, fn, arg1, hs⟩
                    | indexOutOfRange => rw [hs] at h; cases h
                    | nilDereference => rw [hs] at h; cases h
                    | notAString => rw [hs] at h; cases h
    · cases h; left; simp

/-- The lookup misses when neither the token nor its canonical form is a key. -/
theorem lookupFunction_miss (x : Externals) (pkgSchema : PackageSchema) (token : String)
    (htoken : GoGen.mapGet pkgSchema.functions token = none)
    (hcanon : GoGen.mapGet pkgSchema.functions
      (x.canonicalizeToken token pkgSchema.schema) = none) :
    lookupFunction x pkgSchema token = none := by
  simp [lookupFunction, htoken, hcanon]

/-- The lookup under the canonical form, after a miss under the token. -/
theorem lookupFunction_canon (x : Externals) (pkgSchema : PackageSchema) (token : String)
    (fn : Function) (htoken : GoGen.mapGet pkgSchema.functions token = none)
    (hcanon : GoGen.mapGet pkgSchema.functions
      (x.canonicalizeToken token pkgSchema.schema) = some fn) :
    lookupFunction x pkgSchema token
      = some (fn, some (x.canonicalizeToken token pkgSchema.schema)) := by
  simp [lookupFunction, htoken, hcanon]

/-- The lookup under the token itself. -/
theorem lookupFunction_hit (x : Externals) (pkgSchema : PackageSchema) (token : String)
    (fn : Function) (htoken : GoGen.mapGet pkgSchema.functions token = some fn) :
    lookupFunction x pkgSchema token = some (fn, none) := by
  simp [lookupFunction, htoken]

/-- The binder on a token whose package is loaded and whose function is
unknown. -/
theorem bindInvokeSignature_unknown (x : Externals) (b : binder) (token : String)
    (lty ty : ModelType) (lr r : Range) (rest : List Expression) (pkgSchema : PackageSchema)
    (hconv : x.ConversionFrom .StringType lty ≠ .NoConversion)
    (herr : HasErrors (x.DecomposeToken token r).2.2.2 = false)
    (hpkg : GoGen.mapGet b.packageCache (x.DecomposeToken token r).1 = some pkgSchema)
    (hl : lookupFunction x pkgSchema token = none) :
    bindInvokeSignature x b
        (.TemplateExpression [.LiteralValueExpression (.StringVal token) lty lr] ty r :: rest)
      = .ok (zeroSignature, [.unknownFunction token r],
          .TemplateExpression [.LiteralValueExpression (.StringVal token) lty lr] ty r :: rest) := by
  simp [bindInvokeSignature, Expression.asTemplate, Expression.asLiteral, Expression.exprType,
    Expression.range, Value.AsString, hconv, herr, hpkg, hl]

/-- The binder on a token whose function is found, with a second argument. -/
theorem bindInvokeSignature_found (x : Externals) (b : binder) (token : String)
    (lty ty : ModelType) (lr r : Range) (arg1 : Expression) (more : List Expression)
    (pkgSchema : PackageSchema) (fn : Function) (canon : Option String)
    (sig : StaticFunctionSignature)
    (hconv : x.ConversionFrom .StringType lty ≠ .NoConversion)
    (herr : HasErrors (x.DecomposeToken token r).2.2.2 = false)
    (hpkg : GoGen.mapGet b.packageCache (x.DecomposeToken token r).1 = some pkgSchema)
    (hl : lookupFunction x pkgSchema token = some (fn, canon))
    (hs : signatureForArgs x b fn arg1 = .ok (.ok sig)) :
    bindInvokeSignature x b
        (.TemplateExpression [.LiteralValueExpression (.StringVal token) lty lr] ty r
          :: arg1 :: more)
      = .ok (sig, [],
          .TemplateExpression [.LiteralValueExpression (.StringVal (canon.getD token)) lty lr] ty r
            :: arg1 :: more) := by
  cases canon <;>
  simp [bindInvokeSignature, Expression.asTemplate, Expression.asLiteral, Expression.exprType,
    Expression.range, Value.AsString, Expression.setTokenValue, Expression.setValue,
    hconv, herr, hpkg, hl, hs, Outcome.bind]

/-- The binder on a token whose function is found, without a second
argument. -/
theorem bindInvokeSignature_short (x : Externals) (b : binder) (token : String)
    (lty ty : ModelType) (lr r : Range) (pkgSchema : PackageSchema) (fn : Function)
    (canon : Option String)
    (hconv : x.ConversionFrom .StringType lty ≠ .NoConversion)
    (herr : HasErrors (x.DecomposeToken token r).2.2.2 = false)
    (hpkg : GoGen.mapGet b.packageCache (x.DecomposeToken token r).1 = some pkgSchema)
    (hl : lookupFunction x pkgSchema token = some (fn, canon)) :
    bindInvokeSignature x b
        [.TemplateExpression [.LiteralValueExpression (.StringVal token) lty lr] ty r]
      = .indexOutOfRange := by
  simp [bindInvokeSignature, Expression.asTemplate, Expression.asLiteral, Expression.exprType,
    Expression.range, Value.AsString, hconv, herr, hpkg, hl]

/-- The binder on a first argument that fails token extraction. -/
theorem bindInvokeSignature_not_literal (x : Externals) (b : binder) (arg0 : Expression)
    (rest : List Expression)
    (h : arg0.asTemplate = none
      ∨ (∃ parts, arg0.asTemplate = some parts ∧ parts.length ≠ 1)
      ∨ (∃ part, arg0.asTemplate = some [part] ∧ part.asLiteral = none)
      ∨ (∃ part, arg0.asTemplate = some [part]
          ∧ x.ConversionFrom .StringType part.exprType = .NoConversion)) :
    bindInvokeSignature x b (arg0 :: rest)
      = .ok (zeroSignature, [.tokenMustBeStringLiteral arg0], arg0 :: rest) := by
  unfold bindInvokeSignature
  rcases h with h | ⟨parts, h, hlen⟩ | ⟨part, h, hlit⟩ | ⟨part, h, hconv⟩
  · simp [h]
  · simp only [h]
    match parts, hlen with
    | [], _ => rfl
    | [_], hlen => exact absurd rfl hlen
    | _ :: _ :: _, _ => rfl
  · simp [h, hlit]
  · simp only [h]
    cases part.asLiteral with
    | none => rfl
    | some v => simp [hconv]

/-! ## Claims about the invocation binder -/

/-- C11 (overload selection).  For a function that meets the assumption the
source states (inputs and outputs are present when it has an output version),
`signatureForArgs` returns the output-aware signature, whose args type is the
translation of `fn.Inputs.InputShape` and whose return type is the output of
the translation of `fn.Outputs`, if and only if `fn.NeedsOutputVersion()`
holds, the translation of `fn.Inputs` has `NoConversion` from the static type
of the argument and the translation of `fn.Inputs.InputShape` has
`SafeConversion` from it; in every other case it returns the regular
signature. -/
theorem overload_selection (x : Externals) (b : binder) (fn : Function) (a : Expression)
    (hwf : fn.WellFormed) :
    (signatureForArgs x b fn a
        = .ok (.ok (makeSignature (b.schemaTypeToType (fn.Inputs.bind ObjectType.InputShape))
            (.OutputType (b.schemaTypeToType fn.Outputs))))
      ↔ (fn.NeedsOutputVersion = true
        ∧ x.ConversionFrom (b.schemaTypeToType fn.Inputs) a.exprType = .NoConversion
        ∧ x.ConversionFrom (b.schemaTypeToType (fn.Inputs.bind ObjectType.InputShape))
            a.exprType = .SafeConversion))
    ∧ (¬ (fn.NeedsOutputVersion = true
        ∧ x.ConversionFrom (b.schemaTypeToType fn.Inputs) a.exprType = .NoConversion
        ∧ x.ConversionFrom (b.schemaTypeToType (fn.Inputs.bind ObjectType.InputShape))
            a.exprType = .SafeConversion)
      → signatureForArgs x b fn a = .ok (.ok (regularSignature b fn))) := by
  cases hn : fn.NeedsOutputVersion with
  | false =>
    rw [signatureForArgs_regular x b fn a hn]
    constructor
    · constructor
      · intro h
        have h2 := congrArg StaticFunctionSignature.ReturnType (Except.ok.inj (Outcome.ok.inj h))
        simp [regularSignature, makeSignature] at h2
      · intro h
        exact absurd h.1 (by simp)
    · intro _
      rfl
  | true =>
    have hi := (hwf hn).1
    cases hin : fn.Inputs with
    | none => rw [hin] at hi; cases hi
    | some inputs =>
      rw [signatureForArgs_of_inputs x b fn a inputs hin]
      simp only [hn, Option.bind, true_and]
      by_cases hc : x.ConversionFrom (b.schemaTypeToType (some inputs)) a.exprType = .NoConversion
          ∧ x.ConversionFrom (b.schemaTypeToType inputs.InputShape) a.exprType = .SafeConversion
      · rw [if_pos hc]
        exact ⟨⟨fun _ => hc, fun _ => rfl⟩, fun h => absurd hc h⟩
      · rw [if_neg hc]
        refine ⟨⟨fun h => ?_, fun h => absurd h hc⟩, fun _ => rfl⟩
        have h2 := congrArg StaticFunctionSignature.ReturnType (Except.ok.inj (Outcome.ok.inj h))
        simp [regularSignature, makeSignature] at h2

/-- Witness for C11: `getThing` called with an argument whose property is an
output takes the output-aware signature. -/
theorem overload_selection_witness :
    getThing.WellFormed
    ∧ signatureForArgs exampleExternals exampleBinder getThing
        (.other (.ObjectType [("name", .OutputType .StringType)]) ⟨30, 40⟩)
      = .ok (.ok (makeSignature (.ObjectType [("name", .OutputType .StringType)])
          (.OutputType (.ObjectType [("id", .StringType)])))) :=
  ⟨fun _ => ⟨rfl, rfl⟩,
    ((overload_selection exampleExternals exampleBinder getThing
      (.other (.ObjectType [("name", .OutputType .StringType)]) ⟨30, 40⟩)
      (fun _ => ⟨rfl, rfl⟩)).1).2 ⟨rfl, rfl, rfl⟩⟩

/-- C12 (the binder always returns a signature) fails: on the argument list
that holds only the token argument `"pkg:index:listThings"`, with the function
in the package cache, the binder reads `args[1]` out of range. -/
theorem single_argument_out_of_range :
    bindInvokeSignature exampleExternals exampleBinder [tokenArgument "pkg:index:listThings"]
      = .indexOutOfRange := by
  rfl

/-- C13 (fixed 3-parameter shape).  Every signature that
`bindInvokeSignature` returns has the three parameters `token` of string type,
`args` and `provider` of optional string type, in this order; a signature
returned together with a diagnostic is the placeholder, whose args type is
optional dynamic and whose return type is dynamic. -/
theorem signature_three_parameters (x : Externals) (b : binder) (args : List Expression)
    (sig : StaticFunctionSignature) (diags : List Diagnostic) (args1 : List Expression)
    (h : bindInvokeSignature x b args = .ok (sig, diags, args1)) :
    (∃ argsType, sig.Parameters =
      [{ Name := "token", paramType := .StringType },
       { Name := "args", paramType := argsType },
       { Name := "provider", paramType := .OptionalType .StringType }])
    ∧ (diags ≠ [] → sig =
      { Parameters := [
          { Name := "token", paramType := .StringType },
          { Name := "args", paramType := .OptionalType .DynamicType },
          { Name := "provider", paramType := .OptionalType .StringType }],
        ReturnType := .DynamicType }) := by
  rcases bindInvokeSignature_cases x b args sig diags args1 h with ⟨hz, _⟩ | ⟨hd, fn, arg1, hs⟩
  · subst hz
    exact ⟨⟨_, rfl⟩, fun _ => rfl⟩
  · obtain ⟨argsType, returnType, hm⟩ := signatureForArgs_made x b fn arg1 sig hs
    subst hm
    exact ⟨⟨_, rfl⟩, fun hne => absurd hd hne⟩

/-- Witness for C13: the call of an unknown function. -/
theorem signature_three_parameters_witness :
    bindInvokeSignature exampleExternals exampleBinder
        [tokenArgument "pkg:index:nope", emptyObjectArgument]
      = .ok (zeroSignature, [.unknownFunction "pkg:index:nope" ⟨7, 21⟩],
          [tokenArgument "pkg:index:nope", emptyObjectArgument])
    ∧ (∃ argsType, zeroSignature.Parameters =
      [{ Name := "token", paramType := .StringType },
       { Name := "args", paramType := argsType },
       { Name := "provider", paramType := .OptionalType .StringType }])
    ∧ (([.unknownFunction "pkg:index:nope" ⟨7, 21⟩] : List Diagnostic) ≠ [] → zeroSignature =
      { Parameters := [
          { Name := "token", paramType := .StringType },
          { Name := "args", paramType := .OptionalType .DynamicType },
          { Name := "provider", paramType := .OptionalType .StringType }],
        ReturnType := .DynamicType }) :=
  ⟨rfl, signature_three_parameters exampleExternals exampleBinder
    [tokenArgument "pkg:index:nope", emptyObjectArgument] zeroSignature
    [.unknownFunction "pkg:index:nope" ⟨7, 21⟩]
    [tokenArgument "pkg:index:nope", emptyObjectArgument] rfl⟩

/-- C14 as the code has it: on the empty argument list `bindInvokeSignature`
returns the placeholder signature and an empty diagnostics list. -/
theorem zero_arguments_placeholder (x : Externals) (b : binder) :
    bindInvokeSignature x b [] = .ok (zeroSignature, [], []) := rfl

/-- C14 as stated fails: on the empty argument list no diagnostic is
returned. -/
theorem zero_arguments_not_diagnosed :
    ¬ ∃ sig diags args1,
      bindInvokeSignature exampleExternals exampleBinder [] = .ok (sig, diags, args1)
        ∧ diags ≠ [] := by
  rintro ⟨sig, diags, args1, h, hne⟩
  have h2 : diags = [] := by
    have h3 := Outcome.ok.inj h
    exact (congrArg (fun p => p.2.1) h3).symm
  exact hne h2

/-- The binder on a literal that passes the conversion guard and whose value
is no string: reading the value as a string panics. -/
theorem bindInvokeSignature_not_string (x : Externals) (b : binder) (value : Value)
    (lty ty : ModelType) (lr r : Range) (rest : List Expression)
    (hconv : x.ConversionFrom .StringType lty ≠ .NoConversion)
    (hval : value.AsString = none) :
    bindInvokeSignature x b
        (.TemplateExpression [.LiteralValueExpression value lty lr] ty r :: rest)
      = .notAString := by
  simp [bindInvokeSignature, Expression.asTemplate, Expression.asLiteral, Expression.exprType,
    hconv, hval]

/-- C15 (non-literal tokens are diagnosed) fails: the single part of the
template is a literal of number type with the value 1, which is not of the
string type.  The guard of `bindInvokeSignature` asks whether the string type
converts from the type of the literal; it does from numbers, so the literal
passes, its value is read as a string, and the call panics instead of
returning the placeholder signature with a diagnostic. -/
theorem number_literal_read_as_string :
    (Expression.LiteralValueExpression (.NumberIntVal 1) .NumberType ⟨7, 8⟩).exprType
      ≠ .StringType
    ∧ exampleExternals.ConversionFrom .StringType .NumberType ≠ .NoConversion
    ∧ bindInvokeSignature exampleExternals exampleBinder
        [.TemplateExpression [.LiteralValueExpression (.NumberIntVal 1) .NumberType ⟨7, 8⟩]
          .StringType ⟨7, 8⟩, emptyObjectArgument]
      = .notAString :=
  ⟨fun h => ModelType.noConfusion h, by decide, rfl⟩

/-- C16 (unknown function).  The first argument is a string literal whose
token decomposes without errors and whose package is in the package cache;
neither the token nor its canonical form is a key of the function table of the
package.  Then `bindInvokeSignature` returns the placeholder signature and the
one diagnostic `unknownFunction` with the token as it was written, and the
argument list is as before. -/
theorem unknown_function_diagnosed (x : Externals) (b : binder) (token : String)
    (lty ty : ModelType) (lr r : Range) (rest : List Expression) (pkgSchema : PackageSchema)
    (hconv : x.ConversionFrom .StringType lty ≠ .NoConversion)
    (herr : HasErrors (x.DecomposeToken token r).2.2.2 = false)
    (hpkg : GoGen.mapGet b.packageCache (x.DecomposeToken token r).1 = some pkgSchema)
    (htoken : GoGen.mapGet pkgSchema.functions token = none)
    (hcanon : GoGen.mapGet pkgSchema.functions
      (x.canonicalizeToken token pkgSchema.schema) = none) :
    bindInvokeSignature x b
        (.TemplateExpression [.LiteralValueExpression (.StringVal token) lty lr] ty r :: rest)
      = .ok (zeroSignature, [.unknownFunction token r],
          .TemplateExpression [.LiteralValueExpression (.StringVal token) lty lr] ty r :: rest) :=
  bindInvokeSignature_unknown x b token lty ty lr r rest pkgSchema hconv herr hpkg
    (lookupFunction_miss x pkgSchema token htoken hcanon)

/-- Witness for C16: the call `invoke("pkg:index:nope", ...)` with the
package `pkg` loaded. -/
theorem unknown_function_diagnosed_witness :
    bindInvokeSignature exampleExternals exampleBinder
        [tokenArgument "pkg:index:nope", emptyObjectArgument]
      = .ok (zeroSignature, [.unknownFunction "pkg:index:nope" ⟨7, 21⟩],
          [tokenArgument "pkg:index:nope", emptyObjectArgument]) :=
  unknown_function_diagnosed exampleExternals exampleBinder "pkg:index:nope" .StringType
    .StringType ⟨7, 21⟩ ⟨7, 21⟩ [emptyObjectArgument]
    { schema := { Name := "pkg" },
      functions := [("pkg:index:listThings", listThings), ("pkg:index:getThing", getThing)] }
    (by decide) rfl rfl rfl rfl

/-- The signature that `signatureForArgs` returns for a function that meets
the assumption the source states. -/
theorem signatureForArgs_value (x : Externals) (b : binder) (fn : Function)
    (a : Expression) (hwf : fn.WellFormed) :
    signatureForArgs x b fn a = .ok (.ok
      (if fn.NeedsOutputVersion = true
          ∧ x.ConversionFrom (b.schemaTypeToType fn.Inputs) a.exprType = .NoConversion
          ∧ x.ConversionFrom (b.schemaTypeToType (fn.Inputs.bind ObjectType.InputShape))
              a.exprType = .SafeConversion
        then makeSignature (b.schemaTypeToType (fn.Inputs.bind ObjectType.InputShape))
          (.OutputType (b.schemaTypeToType fn.Outputs))
        else makeSignature
          (match fn.Inputs with
            | none => .OptionalType (.ObjectType [])
            | some inputs => b.schemaTypeToType (some inputs))
          (.PromiseType
            (match fn.Outputs with
              | none => .ObjectType []
              | some outputs => b.schemaTypeToType (some outputs))))) := by
  cases hn : fn.NeedsOutputVersion with
  | false =>
    rw [signatureForArgs_regular x b fn a hn]
    simp [regularSignature]
  | true =>
    have hi := (hwf hn).1
    cases hin : fn.Inputs with
    | none => rw [hin] at hi; cases hi
    | some inputs =>
      rw [signatureForArgs_of_inputs x b fn a inputs hin]
      simp only [hn, Option.bind, true_and]
      split
      · rfl
      · simp [regularSignature, hin]

/-- C17 (token canonicalization).  The call has two arguments or more, its
first argument is a string literal whose token decomposes without errors and
whose package is in the package cache, and `fn` meets the assumption the
source states.  If the token is no key of the function table and its canonical
form is the key of `fn`, the binder returns no diagnostics and the signature
synthesized for `fn` at the second argument, and the literal holds the
canonical form afterwards.  If the token itself is the key of `fn`, the binder
returns the same signature and no diagnostics, and the literal is as before.
The signature synthesized for `fn` is the output-aware one, with the args type
the translation of `fn.Inputs.InputShape` and the return type the output of the
translation of `fn.Outputs`, when `fn` has an output version, the translation
of `fn.Inputs` has `NoConversion` from the type of the second argument and the
translation of `fn.Inputs.InputShape` has `SafeConversion` from it; otherwise
it is the regular one, with the args type the translation of `fn.Inputs`, or
the optional empty object type, and the return type the promise of the
translation of `fn.Outputs`, or of the empty object type. -/
theorem canonical_token_rewritten (x : Externals) (b : binder) (token : String)
    (lty ty : ModelType) (lr r : Range) (arg1 : Expression) (more : List Expression)
    (pkgSchema : PackageSchema) (fn : Function)
    (hconv : x.ConversionFrom .StringType lty ≠ .NoConversion)
    (herr : HasErrors (x.DecomposeToken token r).2.2.2 = false)
    (hpkg : GoGen.mapGet b.packageCache (x.DecomposeToken token r).1 = some pkgSchema)
    (hwf : fn.WellFormed) :
    (GoGen.mapGet pkgSchema.functions token = none →
      GoGen.mapGet pkgSchema.functions (x.canonicalizeToken token pkgSchema.schema) = some fn →
      bindInvokeSignature x b
          (.TemplateExpression [.LiteralValueExpression (.StringVal token) lty lr] ty r
            :: arg1 :: more)
        = .ok (
            (if fn.NeedsOutputVersion = true
                ∧ x.ConversionFrom (b.schemaTypeToType fn.Inputs) arg1.exprType = .NoConversion
                ∧ x.ConversionFrom (b.schemaTypeToType (fn.Inputs.bind ObjectType.InputShape))
                    arg1.exprType = .SafeConversion
              then makeSignature (b.schemaTypeToType (fn.Inputs.bind ObjectType.InputShape))
                (.OutputType (b.schemaTypeToType fn.Outputs))
              else makeSignature
                (match fn.Inputs with
                  | none => .OptionalType (.ObjectType [])
                  | some inputs => b.schemaTypeToType (some inputs))
                (.PromiseType
                  (match fn.Outputs with
                    | none => .ObjectType []
                    | some outputs => b.schemaTypeToType (some outputs)))),
            [],
            .TemplateExpression [.LiteralValueExpression
              (.StringVal (x.canonicalizeToken token pkgSchema.schema)) lty lr] ty r
              :: arg1 :: more))
    ∧ (GoGen.mapGet pkgSchema.functions token = some fn →
      bindInvokeSignature x b
          (.TemplateExpression [.LiteralValueExpression (.StringVal token) lty lr] ty r
            :: arg1 :: more)
        = .ok (
            (if fn.NeedsOutputVersion = true
                ∧ x.ConversionFrom (b.schemaTypeToType fn.Inputs) arg1.exprType = .NoConversion
                ∧ x.ConversionFrom (b.schemaTypeToType (fn.Inputs.bind ObjectType.InputShape))
                    arg1.exprType = .SafeConversion
              then makeSignature (b.schemaTypeToType (fn.Inputs.bind ObjectType.InputShape))
                (.OutputType (b.schemaTypeToType fn.Outputs))
              else makeSignature
                (match fn.Inputs with
                  | none => .OptionalType (.ObjectType [])
                  | some inputs => b.schemaTypeToType (some inputs))
                (.PromiseType
                  (match fn.Outputs with
                    | none => .ObjectType []
                    | some outputs => b.schemaTypeToType (some outputs)))),
            [],
            .TemplateExpression [.LiteralValueExpression (.StringVal token) lty lr] ty r
              :: arg1 :: more)) := by
  have hs := signatureForArgs_value x b fn arg1 hwf
  constructor
  · intro htoken hcanon
    exact bindInvokeSignature_found x b token lty ty lr r arg1 more pkgSchema fn _ _
      hconv herr hpkg (lookupFunction_canon x pkgSchema token fn htoken hcanon) hs
  · intro htoken
    exact bindInvokeSignature_found x b token lty ty lr r arg1 more pkgSchema fn _ _
      hconv herr hpkg (lookupFunction_hit x pkgSchema token fn htoken) hs

/-- Witness for C17: the token `pkg:index/listThings:listThings`, whose
canonical form `pkg:index:listThings` is the key of `listThings`, and the
token `pkg:index:getThing` with an argument whose property is an output. -/
theorem canonical_token_rewritten_witness :
    exampleExternals.canonicalizeToken "pkg:index/listThings:listThings" { Name := "pkg" }
      = "pkg:index:listThings"
    ∧ bindInvokeSignature exampleExternals exampleBinder
        [tokenArgument "pkg:index/listThings:listThings", emptyObjectArgument]
      = .ok (makeSignature (.OptionalType (.ObjectType []))
            (.PromiseType (.ObjectType [("items", .ListType .StringType)])), [],
          [.TemplateExpression [.LiteralValueExpression (.StringVal "pkg:index:listThings")
            .StringType ⟨7, 38⟩] .StringType ⟨7, 38⟩, emptyObjectArgument])
    ∧ bindInvokeSignature exampleExternals exampleBinder
        [tokenArgument "pkg:index:getThing",
          .other (.ObjectType [("name", .OutputType .StringType)]) ⟨30, 40⟩]
      = .ok (makeSignature (.ObjectType [("name", .OutputType .StringType)])
            (.OutputType (.ObjectType [("id", .StringType)])), [],
          [tokenArgument "pkg:index:getThing",
            .other (.ObjectType [("name", .OutputType .StringType)]) ⟨30, 40⟩]) :=
  ⟨rfl, (canonical_token_rewritten exampleExternals exampleBinder
    "pkg:index/listThings:listThings" .StringType .StringType ⟨7, 38⟩ ⟨7, 38⟩
    emptyObjectArgument []
    { schema := { Name := "pkg" },
      functions := [("pkg:index:listThings", listThings), ("pkg:index:getThing", getThing)] }
    listThings (by decide) rfl rfl (fun h => Bool.noConfusion h)).1 rfl rfl,
   (canonical_token_rewritten exampleExternals exampleBinder
    "pkg:index:getThing" .StringType .StringType ⟨7, 25⟩ ⟨7, 25⟩
    (.other (.ObjectType [("name", .OutputType .StringType)]) ⟨30, 40⟩) []
    { schema := { Name := "pkg" },
      functions := [("pkg:index:listThings", listThings), ("pkg:index:getThing", getThing)] }
    getThing (by decide) rfl rfl (fun _ => ⟨rfl, rfl⟩)).2 rfl⟩

/-- C18 as the code has it: the args type of `regularSignature(fn)` is the
translation of `fn.Inputs` when the inputs are present and the optional empty
object type when they are absent; its return type is the promise of the
translation of `fn.Outputs`, or of the empty object type when the outputs are
absent.  So a call with two arguments or more, whose token is the key of a
function without inputs, with outputs and without an output version, is bound
to the parameters `token` of string type, `args` of optional empty object type
and `provider` of optional string type and to the promise of the translated
outputs, with no diagnostics. -/
theorem regular_signature_shape (x : Externals) (b : binder) :
    (∀ fn : Function, regularSignature b fn =
      { Parameters := [
          { Name := "token", paramType := .StringType },
          { Name := "args", paramType :=
              match fn.Inputs with
              | none => .OptionalType (.ObjectType [])
              | some inputs => b.schemaTypeToType (some inputs) },
          { Name := "provider", paramType := .OptionalType .StringType }],
        ReturnType := .PromiseType
          (match fn.Outputs with
            | none => .ObjectType []
            | some outputs => b.schemaTypeToType (some outputs)) })
    ∧ ∀ (token : String) (lty ty : ModelType) (lr r : Range) (arg1 : Expression)
        (more : List Expression) (pkgSchema : PackageSchema) (fn : Function)
        (outputs : ObjectType),
      x.ConversionFrom .StringType lty ≠ .NoConversion →
      HasErrors (x.DecomposeToken token r).2.2.2 = false →
      GoGen.mapGet b.packageCache (x.DecomposeToken token r).1 = some pkgSchema →
      GoGen.mapGet pkgSchema.functions token = some fn →
      fn.Inputs = none → fn.Outputs = some outputs → fn.NeedsOutputVersion = false →
      bindInvokeSignature x b
          (.TemplateExpression [.LiteralValueExpression (.StringVal token) lty lr] ty r
            :: arg1 :: more)
        = .ok (
            { Parameters := [
                { Name := "token", paramType := .StringType },
                { Name := "args", paramType := .OptionalType (.ObjectType []) },
                { Name := "provider", paramType := .OptionalType .StringType }],
              ReturnType := .PromiseType (b.schemaTypeToType (some outputs)) }, [],
            .TemplateExpression [.LiteralValueExpression (.StringVal token) lty lr] ty r
              :: arg1 :: more) := by
  constructor
  · intro fn
    rfl
  · intro token lty ty lr r arg1 more pkgSchema fn outputs hconv herr hpkg htoken hin hout hn
    have hs : signatureForArgs x b fn arg1 = .ok (.ok (regularSignature b fn)) :=
      signatureForArgs_regular x b fn arg1 hn
    have hb := bindInvokeSignature_found x b token lty ty lr r arg1 more pkgSchema fn none _
      hconv herr hpkg (lookupFunction_hit x pkgSchema token fn htoken) hs
    rw [hb]
    simp [regularSignature, makeSignature, hin, hout]

/-- Witness for C18: the call `invoke("pkg:index:listThings", ...)` with an empty object as
second argument. -/
theorem regular_signature_shape_witness :
    listThings.Inputs = none
    ∧ bindInvokeSignature exampleExternals exampleBinder
        [tokenArgument "pkg:index:listThings", emptyObjectArgument]
      = .ok (
          { Parameters := [
              { Name := "token", paramType := .StringType },
              { Name := "args", paramType := .OptionalType (.ObjectType []) },
              { Name := "provider", paramType := .OptionalType .StringType }],
            ReturnType := .PromiseType (.ObjectType [("items", .ListType .StringType)]) }, [],
          [tokenArgument "pkg:index:listThings", emptyObjectArgument]) :=
  ⟨rfl, (regular_signature_shape exampleExternals exampleBinder).2 "pkg:index:listThings"
    .StringType .StringType ⟨7, 27⟩ ⟨7, 27⟩ emptyObjectArgument []
    { schema := { Name := "pkg" },
      functions := [("pkg:index:listThings", listThings), ("pkg:index:getThing", getThing)] }
    listThings (.mk "pkg:index:listThingsResult" none) (by decide) rfl rfl rfl rfl rfl rfl⟩

/-- C18 as stated fails: for `listThings`, whose inputs are absent, the args
parameter of the regular signature has the optional empty object type, not the
empty object type. -/
theorem absent_inputs_args_optional :
    listThings.Inputs = none
    ∧ (regularSignature exampleBinder listThings).Parameters[1]?
      = some { Name := "args", paramType := .OptionalType (.ObjectType []) }
    ∧ (regularSignature exampleBinder listThings).Parameters[1]?
      ≠ some { Name := "args", paramType := .ObjectType [] } := by
  refine ⟨rfl, rfl, fun h => ?_⟩
  have h1 : (regularSignature exampleBinder listThings).Parameters[1]?
      = some { Name := "args", paramType := .OptionalType (.ObjectType []) } := rfl
  rw [h1] at h
  have h2 := congrArg Parameter.paramType (Option.some.inj h)
  exact ModelType.noConfusion h2

/-- C19 (the internal error branch is unreachable).  The method
`signatureForArgs` returns no error for any function and argument, and no
result of `bindInvokeSignature` holds the diagnostic "Invoke binding error". -/
theorem invoke_binding_error_unreachable (x : Externals) (b : binder) :
    (∀ (fn : Function) (a : Expression) (err : String),
      signatureForArgs x b fn a ≠ .ok (.error err))
    ∧ ∀ (args : List Expression) (sig : StaticFunctionSignature) (diags : List Diagnostic)
        (args1 : List Expression),
      bindInvokeSignature x b args = .ok (sig, diags, args1) →
      ∀ (r : Range) (err : String), Diagnostic.invokeBindingError r err ∉ diags := by
  constructor
  · intro fn a err
    exact signatureForArgs_ne_error x b fn a err
  · intro args sig diags args1 h
    rcases bindInvokeSignature_cases x b args sig diags args1 h with ⟨_, hd⟩ | ⟨hd, _⟩
    · exact hd
    · subst hd
      intro r err hm
      cases hm

/-- Witness for C19: the call of an unknown function and the call of
`getThing` with an output argument. -/
theorem invoke_binding_error_unreachable_witness :
    signatureForArgs exampleExternals exampleBinder getThing
        (.other (.ObjectType [("name", .OutputType .StringType)]) ⟨30, 40⟩)
      ≠ .ok (.error "Function pkg:index:getThing does not have an Output version")
    ∧ Diagnostic.invokeBindingError ⟨7, 21⟩
        "Function pkg:index:nope does not have an Output version"
      ∉ [Diagnostic.unknownFunction "pkg:index:nope" ⟨7, 21⟩] :=
  ⟨(invoke_binding_error_unreachable exampleExternals exampleBinder).1 _ _ _,
    (invoke_binding_error_unreachable exampleExternals exampleBinder).2
      [tokenArgument "pkg:index:nope", emptyObjectArgument] zeroSignature
      [.unknownFunction "pkg:index:nope" ⟨7, 21⟩]
      [tokenArgument "pkg:index:nope", emptyObjectArgument] rfl _ _⟩

end Pcl
